import Mathlib

/-! Verification of the zset package: a sorted set backed by a rank-augmented
skiplist (zset.go) paired with a direct member-to-score index.

Modelling choices, justified against the source:

* Scores are `float64` in Go; the specification disallows NaN and every claim
  quantifies over non-NaN scores only.  The non-NaN doubles under `<` and `==`
  form a linear order with decidable equality, which we model as `Int`.
* Members are Go strings compared bytewise by `<`;  we model them as `String`
  compared by codepoint-lexicographic order on `String.data` (`strLt` below),
  which agrees with bytewise comparison of the UTF-8 encoding.
* Nodes are addressed by their 1-based position in the level-0 chain
  (position 0 is the header sentinel); this is the arena view of the pointer
  graph suggested by the specification.  A forward pointer at level `i` from
  position `p` is the next position whose node has a level-`i` entry
  (`fwdPos`): levels of a node are the entries of its `spans` list, so a node
  participates in level `i` exactly when `i < spans.length`, which is how the
  Go code lays out `level []skiplistLevel`.  The `backward` pointers and
  `tail` are the derived quantities `p - 1` and `length` and carry no
  independent state, so they are not stored.
* `randomLevel` draws a level in `[1, 32]` from the process-wide generator;
  operations take the drawn level as an explicit parameter `lvl`, and
  reachability quantifies over all draws in that range.
* Go `uint64` span/rank/length arithmetic is modelled on `Nat`.  Every
  subtraction the code performs on reachable states subtracts the smaller
  number from the larger, except `span += x.span - 1` in `deleteNode`, whose
  uint64 wraparound at `x.span = 0` we reproduce by reassociating it as
  `(span + x.span) - 1`; the two agree modulo 2^64 everywhere, and exactly on
  every state small enough to exist in a machine.
* Loops that chase forward pointers terminate in Go because positions
  strictly increase; the model gives such loops an explicit bound (`fuel`)
  that is always called with a sufficient value (`nodes.length + 1`).
-/

set_option linter.unusedVariables false

namespace ZS

/-- Bytewise (codepoint) lexicographic strict order on character lists,
the order Go uses for `string` comparison. -/
def strLtB : List Char → List Char → Bool
  | [], [] => false
  | [], _ :: _ => true
  | _ :: _, [] => false
  | a :: as, b :: bs =>
    if a.toNat < b.toNat then true
    else if b.toNat < a.toNat then false
    else strLtB as bs

/-- Go `a < b` on member strings. -/
def strLt (a b : String) : Prop := strLtB a.data b.data = true

instance (a b : String) : Decidable (strLt a b) := by unfold strLt; infer_instance

/-- Go `a <= b` on member strings. -/
def strLe (a b : String) : Prop := strLt a b ∨ a = b

instance (a b : String) : Decidable (strLe a b) := by unfold strLe; infer_instance

/-- The composite (score, member) strict order used throughout `zset.go`:
`x.score < score || (x.score == score && x.ele < ele)`. -/
def keyLt (a b : Int × String) : Prop := a.1 < b.1 ∨ (a.1 = b.1 ∧ strLt a.2 b.2)

instance (a b : Int × String) : Decidable (keyLt a b) := by unfold keyLt; infer_instance

/-- The non-strict composite comparison used by `getRank`:
`x.score < score || (x.score == score && x.ele <= ele)`. -/
def keyLe (a b : Int × String) : Prop := a.1 < b.1 ∨ (a.1 = b.1 ∧ strLe a.2 b.2)

instance (a b : Int × String) : Decidable (keyLe a b) := by unfold keyLe; infer_instance

/-- List element at index `i` with default `d` (a self-contained `getD`). -/
def nthD {α : Type} : List α → Nat → α → α
  | [], _, d => d
  | a :: _, 0, _ => a
  | _ :: l, n + 1, d => nthD l n d

/-- Replace the element at index `i`; out-of-range writes are dropped. -/
def setAt {α : Type} : List α → Nat → α → List α
  | [], _, _ => []
  | _ :: l, 0, b => b :: l
  | a :: l, n + 1, b => a :: setAt l n b

/-- Insert an element so that it ends up at index `n` (used with `n ≤ length`). -/
def insAt {α : Type} : Nat → α → List α → List α
  | 0, b, l => b :: l
  | _ + 1, b, [] => [b]
  | n + 1, b, a :: l => a :: insAt n b l

/-- Delete the element at index `n`. -/
def delAt {α : Type} : Nat → List α → List α
  | _, [] => []
  | 0, _ :: l => l
  | n + 1, a :: l => a :: delAt n l

/-- A skiplist node: member, score, and one stored span per level the node
participates in (`level []skiplistLevel` in the source; the forward pointers
are the derived `fwdPos`). -/
structure SLNode where
  ele : String
  score : Int
  spans : List Nat
deriving DecidableEq

/-- The skiplist: the header sentinel's stored spans (32 entries), the level-0
chain of nodes in order, the current level and the stored length. -/
structure Skiplist where
  headerSpans : List Nat
  nodes : List SLNode
  level : Nat
  length : Nat
deriving DecidableEq

/-- The sorted set facade: direct index (Go `map[string]float64`, modelled as
an association list queried by `List.lookup`) plus the skiplist. -/
structure ZSet where
  dict : List (String × Int)
  zsl : Skiplist
deriving DecidableEq

def SKIPLIST_MAXLEVEL : Nat := 32

def defNode : SLNode := ⟨"", 0, []⟩

/-- The node at 1-based position `p` (position 0 is the header). -/
def nodeAt (sl : Skiplist) (p : Nat) : SLNode := nthD sl.nodes (p - 1) defNode

/-- Number of levels of the node at position `p` in a chain. -/
def heightAt (nodes : List SLNode) (p : Nat) : Nat := (nthD nodes (p - 1) defNode).spans.length

/-- The (score, member) key of the node at position `p ≥ 1`. -/
def keyAt (sl : Skiplist) (p : Nat) : Int × String := ((nodeAt sl p).score, (nodeAt sl p).ele)

/-- The stored span of the level-`i` link leaving position `p`. -/
def spanAt (sl : Skiplist) (p i : Nat) : Nat :=
  if p = 0 then nthD sl.headerSpans i 0 else nthD (nodeAt sl p).spans i 0

/-- Write the stored span of the level-`i` link leaving position `p`. -/
def setSpan (sl : Skiplist) (p i v : Nat) : Skiplist :=
  if p = 0 then ⟨setAt sl.headerSpans i v, sl.nodes, sl.level, sl.length⟩
  else ⟨sl.headerSpans,
        setAt sl.nodes (p - 1) ⟨(nodeAt sl p).ele, (nodeAt sl p).score, setAt (nodeAt sl p).spans i v⟩,
        sl.level, sl.length⟩

/-- Offset (1-based) of the first node of `l` with a level-`i` entry. -/
def fwdSearch (i : Nat) : List SLNode → Option Nat
  | [] => none
  | n :: l => if i < n.spans.length then some 1 else (fwdSearch i l).map (· + 1)

/-- The level-`i` forward pointer leaving position `p`: the next position
whose node has a level-`i` entry, or `none` (Go `nil`). -/
def fwdPos (nodes : List SLNode) (i p : Nat) : Option Nat :=
  (fwdSearch i (nodes.drop p)).map (p + ·)

/-- The `for x.level[i].forward != nil && adv(forward key)` walk at level `i`
from position `p`, accumulating traversed spans into `r` (the `rank[i]`
bookkeeping of `insert`; callers that ignore the accumulator perform the same
traversal).  `fuel` bounds the number of steps and is always passed a
sufficient value. -/
def walkKey (sl : Skiplist) (adv : Int × String → Bool) (i : Nat) :
    Nat → Nat → Nat → Nat × Nat
  | 0, p, r => (p, r)
  | fuel + 1, p, r =>
    match fwdPos sl.nodes i p with
    | none => (p, r)
    | some q =>
      if adv (keyAt sl q) = true then walkKey sl adv i fuel q (r + spanAt sl p i) else (p, r)

/-- The level-by-level descent of `insert`/`delete`: starting at the top
level, walk forward at each level, recording per level the last position
visited (`update[i]`) and the accumulated rank (`rank[i]`).  Entry `j` of the
result is `(update[j], rank[j])`. -/
def descend (sl : Skiplist) (adv : Int × String → Bool) : Nat → Nat → Nat → List (Nat × Nat)
  | 0, _, _ => []
  | i + 1, p, r =>
    let pr := walkKey sl adv i (sl.nodes.length + 1) p r
    descend sl adv i pr.1 pr.2 ++ [pr]

/-- The walk predicate of `insert` and `delete`:
`forward.score < score || (forward.score == score && forward.ele < ele)`. -/
def advLt (score : Int) (ele : String) : Int × String → Bool :=
  fun k => decide (keyLt k (score, ele))

/-- The walk predicate of `getRank` (non-strict on the member). -/
def advLe (score : Int) (ele : String) : Int × String → Bool :=
  fun k => decide (keyLe k (score, ele))

/-- The walk predicate of `RangeByScore`: `forward.score < min`. -/
def advScore (mn : Int) : Int × String → Bool := fun k => decide (k.1 < mn)

/-- `insert`, raising of the skiplist level: for each new level,
`rank[i] = 0`, `update[i]` is the header and the header's span there is set
to the current length. -/
def raiseHeader (sl : Skiplist) (lvl : Nat) : Skiplist :=
  ⟨(List.range' sl.level (lvl - sl.level)).foldl (fun hs i => setAt hs i sl.length) sl.headerSpans,
   sl.nodes, lvl, sl.length⟩

/-- `skiplist.insert(score, ele)` with the level drawn by `randomLevel` passed
in as `lvl`.  The descent records `update[]`/`rank[]`; if `lvl` exceeds the
current level the new levels are initialised as in the source; the new node's
spans are `update[i].span - (rank[0] - rank[i])`, its predecessors' spans
become `(rank[0] - rank[i]) + 1`, levels above the new node have their span
incremented, the node is linked into the chain after `update[0]` (list index
`rank[0]`), and the length grows. -/
def slInsert (sl : Skiplist) (lvl : Nat) (score : Int) (ele : String) : Skiplist :=
  let ur := descend sl (advLt score ele) sl.level 0 0
  let rank0 := (nthD ur 0 (0, 0)).2
  let sl1 := if sl.level < lvl then raiseHeader sl lvl else sl
  let ur1 := ur ++ List.replicate (lvl - sl.level) (0, 0)
  let nd : SLNode := ⟨ele, score, (List.range lvl).map (fun i =>
    spanAt sl1 (nthD ur1 i (0, 0)).1 i - (rank0 - (nthD ur1 i (0, 0)).2))⟩
  let sl2 := (List.range lvl).foldl
    (fun s i => setSpan s (nthD ur1 i (0, 0)).1 i (rank0 - (nthD ur1 i (0, 0)).2 + 1)) sl1
  let sl3 := (List.range' lvl (sl1.level - lvl)).foldl
    (fun s i => setSpan s (nthD ur1 i (0, 0)).1 i (spanAt s (nthD ur1 i (0, 0)).1 i + 1)) sl2
  ⟨sl3.headerSpans, insAt rank0 nd sl3.nodes, sl3.level, sl3.length + 1⟩

/-- The level-shrinking loop of `deleteNode`:
`for sl.level > 1 && sl.header.level[sl.level-1].forward == nil { sl.level-- }`. -/
def shrinkLevel (nodes : List SLNode) : Nat → Nat
  | 0 => 0
  | 1 => 1
  | l + 2 => if fwdPos nodes (l + 1) 0 = none then shrinkLevel nodes (l + 1) else l + 2

/-- `skiplist.deleteNode(x, update)`: per level, a predecessor whose forward
is `x` absorbs `x.span - 1` (uint64 wraparound reproduced as
`(span + x.span) - 1`) and is relinked past `x`; other predecessors lose one
from their span.  Then `x` leaves the chain, the level shrinks while the
header's top forward is nil, and the length drops. -/
def deleteNode (sl : Skiplist) (x : Nat) (ur : List (Nat × Nat)) : Skiplist :=
  let sl1 := (List.range sl.level).foldl (fun s i =>
    let u := (nthD ur i (0, 0)).1
    if fwdPos s.nodes i u = some x
    then setSpan s u i (spanAt s u i + spanAt s x i - 1)
    else setSpan s u i (spanAt s u i - 1)) sl
  let nodes2 := delAt (x - 1) sl1.nodes
  ⟨sl1.headerSpans, nodes2, shrinkLevel nodes2 sl1.level, sl1.length - 1⟩

/-- `skiplist.delete(score, ele)`: descend (same traversal as `insert`,
ignoring the rank bookkeeping), look at `update[0].level[0].forward`, and
remove it only on an exact (score, ele) match. -/
def slDelete (sl : Skiplist) (score : Int) (ele : String) : Skiplist × Bool :=
  let ur := descend sl (advLt score ele) sl.level 0 0
  match fwdPos sl.nodes 0 (nthD ur 0 (0, 0)).1 with
  | some x => if keyAt sl x = (score, ele) then (deleteNode sl x ur, true) else (sl, false)
  | none => (sl, false)

/-- `getRank`'s level loop: walk with the non-strict comparison, and return
the accumulated rank as soon as the current node matches exactly
(`x != sl.header && x.score == score && x.ele == ele`); 0 after level 0. -/
def getRankAux (sl : Skiplist) (score : Int) (ele : String) : Nat → Nat → Nat → Nat
  | 0, _, _ => 0
  | i + 1, p, r =>
    let pr := walkKey sl (advLe score ele) i (sl.nodes.length + 1) p r
    if pr.1 ≠ 0 ∧ keyAt sl pr.1 = (score, ele) then pr.2 else getRankAux sl score ele i pr.1 pr.2

/-- `skiplist.getRank(score, ele)`: 1-based rank, or 0 when absent. -/
def getRank (sl : Skiplist) (score : Int) (ele : String) : Nat :=
  getRankAux sl score ele sl.level 0 0

/-- The walk of `getElementByRank`: advance while
`traversed + span <= rank`, accumulating `traversed`. -/
def walkRank (sl : Skiplist) (target : Nat) (i : Nat) : Nat → Nat → Nat → Nat × Nat
  | 0, p, t => (p, t)
  | fuel + 1, p, t =>
    match fwdPos sl.nodes i p with
    | none => (p, t)
    | some q =>
      if t + spanAt sl p i ≤ target
      then walkRank sl target i fuel q (t + spanAt sl p i) else (p, t)

/-- `getElementByRank`'s level loop: after the walk at each level, return the
current node when `traversed == rank`. -/
def getElByRankAux (sl : Skiplist) (target : Nat) : Nat → Nat → Nat → Option Nat
  | 0, _, _ => none
  | i + 1, p, t =>
    let pt := walkRank sl target i (sl.nodes.length + 1) p t
    if pt.2 = target then some pt.1 else getElByRankAux sl target i pt.1 pt.2

/-- `skiplist.getElementByRank(rank)`: the position of the node of 1-based
rank `rank`, or `none` for rank 0 or rank beyond the stored length. -/
def getElementByRank (sl : Skiplist) (rank : Nat) : Option Nat :=
  if rank = 0 ∨ sl.length < rank then none
  else getElByRankAux sl rank sl.level 0 0

/-- `createSkiplist()`: level 1, length 0, header spans all zero. -/
def createSkiplist : Skiplist := ⟨List.replicate 32 0, [], 1, 0⟩

/-- `NewZSet()`. -/
def NewZSet : ZSet := ⟨[], createSkiplist⟩

/-- Go map update `z.dict[ele] = score`: replace in place when present,
otherwise add the binding. -/
def dictSet (d : List (String × Int)) (e : String) (s : Int) : List (String × Int) :=
  if (d.lookup e).isSome then d.map (fun p => if p.1 = e then (e, s) else p) else d ++ [(e, s)]

/-- Go map removal `delete(z.dict, ele)`. -/
def dictErase (d : List (String × Int)) (e : String) : List (String × Int) :=
  d.eraseP (fun p => p.1 == e)

/-- `ZSet.Add(ele, score)` with the `randomLevel` draw passed in as `lvl`:
no-op returning false when present with the same score; otherwise delete the
old entry when present, insert, update the index, and return whether the
member was newly added. -/
def Add (z : ZSet) (lvl : Nat) (ele : String) (score : Int) : ZSet × Bool :=
  match z.dict.lookup ele with
  | some old =>
    if old = score then (z, false)
    else (⟨dictSet z.dict ele score, slInsert (slDelete z.zsl old ele).1 lvl score ele⟩, false)
  | none => (⟨dictSet z.dict ele score, slInsert z.zsl lvl score ele⟩, true)

/-- `ZSet.Remove(ele)`. -/
def Remove (z : ZSet) (ele : String) : ZSet × Bool :=
  match z.dict.lookup ele with
  | none => (z, false)
  | some s => (⟨dictErase z.dict ele, (slDelete z.zsl s ele).1⟩, true)

/-- `ZSet.Score(ele)`: direct index lookup (Go returns the zero value 0 with
`exists = false` when absent). -/
def Score (z : ZSet) (ele : String) : Int × Bool :=
  ((z.dict.lookup ele).getD 0, (z.dict.lookup ele).isSome)

/-- `ZSet.Rank(ele, reverse)`.  The uint64 subtraction
`z.zsl.length - rank - 1` never wraps on well-formed states because there
`rank ≤ length`; `Nat` subtraction agrees with it on those states. -/
def Rank (z : ZSet) (ele : String) (reverse : Bool) : Int :=
  match z.dict.lookup ele with
  | none => -1
  | some score =>
    let rank := getRank z.zsl score ele
    if rank = 0 then -1
    else if reverse then Int.ofNat (z.zsl.length - (rank - 1) - 1) else Int.ofNat (rank - 1)

/-- `ZSet.GetByRank(rank, reverse)`. -/
def GetByRank (z : ZSet) (rank : Int) (reverse : Bool) : String × Int × Bool :=
  if rank < 0 ∨ (z.zsl.length : Int) ≤ rank then ("", 0, false)
  else
    let rank1 := if reverse then (z.zsl.length : Int) - 1 - rank else rank
    match getElementByRank z.zsl (rank1 + 1).toNat with
    | none => ("", 0, false)
    | some p => ((nodeAt z.zsl p).ele, (nodeAt z.zsl p).score, true)

/-- The `offset`-skipping loop of `RangeByScore`: while nodes remain and
fewer than `offset` were skipped, stop on the first node with score above
`max` (leaving the loop, and thereby the whole collection, at that node),
otherwise step forward.  The counter argument is the remaining
`offset - skipped`. -/
def rbsSkip (sl : Skiplist) (mx : Int) : Nat → Option Nat → Option Nat
  | 0, x => x
  | _ + 1, none => none
  | n + 1, some p =>
    if mx < (nodeAt sl p).score then some p
    else rbsSkip sl mx n (fwdPos sl.nodes 0 p)

/-- The collection loop of `RangeByScore`: while nodes remain and the count
allows (`count < 0 || returned < count`), stop at the first score above
`max`, otherwise append and step forward. -/
def rbsCollect (sl : Skiplist) (mx count : Int) : Nat → Option Nat → Int → List (String × Int)
  | 0, _, _ => []
  | _ + 1, none, _ => []
  | fuel + 1, some p, returned =>
    if count < 0 ∨ returned < count then
      if mx < (nodeAt sl p).score then []
      else ((nodeAt sl p).ele, (nodeAt sl p).score) ::
        rbsCollect sl mx count fuel (fwdPos sl.nodes 0 p) (returned + 1)
    else []

/-- `ZSet.RangeByScore(min, max, offset, count)`: clamp a negative offset,
descend to the last node with score below `min` (the same traversal as the
descent of `insert`, without the unused rank bookkeeping), step to its
successor, skip, then collect. -/
def RangeByScore (z : ZSet) (mn mx : Int) (offset count : Int) : List (String × Int) :=
  let off := if offset < 0 then 0 else offset
  let p := (nthD (descend z.zsl (advScore mn) z.zsl.level 0 0) 0 (0, 0)).1
  let x1 := rbsSkip z.zsl mx off.toNat (fwdPos z.zsl.nodes 0 p)
  rbsCollect z.zsl mx count (z.zsl.nodes.length + 1) x1 0

/-- `ZSet.Len()`. -/
def Len (z : ZSet) : Nat := z.zsl.length

/-- States reachable from the empty sorted set by completed `Add` and
`Remove` operations, with the level draw of each insertion ranging over
`randomLevel`'s range `[1, SKIPLIST_MAXLEVEL]`. -/
inductive Reachable : ZSet → Prop where
  | empty : Reachable NewZSet
  | add (z : ZSet) (lvl : Nat) (ele : String) (score : Int) :
      Reachable z → 1 ≤ lvl → lvl ≤ 32 → Reachable (Add z lvl ele score).1
  | remove (z : ZSet) (ele : String) : Reachable z → Reachable (Remove z ele).1

/-- The (score, member) keys of the level-0 chain, in chain order. -/
def keysOf (sl : Skiplist) : List (Int × String) := sl.nodes.map (fun n => (n.score, n.ele))

/-- The (member, score) pairs of the level-0 chain, in chain order. -/
def dataOf (z : ZSet) : List (String × Int) := z.zsl.nodes.map (fun n => (n.ele, n.score))

/-- The per-position level bound within which stored spans are maintained:
all on-chain levels of a node, and the header's levels below the skiplist
level (the header's stored spans above the current level are stale until the
level is raised over them again, exactly as in the source). -/
def capAt (sl : Skiplist) (p : Nat) : Nat :=
  if p = 0 then sl.level else heightAt sl.nodes p

/-- Well-formedness of the skiplist state.  `hspan` is the arena form of the
pointer/span geometry: within `capAt`, the stored span of every link equals
the distance to the position it forwards to, a nil link measuring to the end
of the chain. -/
structure SLWF (sl : Skiplist) : Prop where
  hlen : sl.length = sl.nodes.length
  hhdr : sl.headerSpans.length = 32
  hlvl1 : 1 ≤ sl.level
  hlvl32 : sl.level ≤ 32
  hhts : ∀ n, n ∈ sl.nodes → 1 ≤ n.spans.length ∧ n.spans.length ≤ sl.level
  hwit : sl.level = 1 ∨ ∃ n, n ∈ sl.nodes ∧ sl.level ≤ n.spans.length
  hsort : List.Pairwise keyLt (keysOf sl)
  hspan : ∀ p i, p ≤ sl.nodes.length → i < capAt sl p →
    spanAt sl p i = (fwdPos sl.nodes i p).getD sl.nodes.length - p

/-- Well-formedness of the whole sorted set: skiplist well-formedness plus
agreement of the direct index with the chain. -/
structure ZWF (z : ZSet) : Prop where
  hsl : SLWF z.zsl
  hdict : ∀ e s, z.dict.lookup e = some s ↔ (s, e) ∈ keysOf z.zsl
  hnodup : (z.dict.map (fun p => p.1)).Nodup

/-- Number of chain keys strictly below `k` (for a sorted chain, the list
index at which `k` would sit). -/
def cntLt (ks : List (Int × String)) (k : Int × String) : Nat :=
  (ks.takeWhile (fun a => decide (keyLt a k))).length

/-- Number of chain keys at most `k`. -/
def cntLe (ks : List (Int × String)) (k : Int × String) : Nat :=
  (ks.takeWhile (fun a => decide (keyLe a k))).length

/-- Number of chain entries with score strictly below `mn`. -/
def cntScoreLt (ks : List (Int × String)) (mn : Int) : Nat :=
  (ks.takeWhile (fun a => decide (a.1 < mn))).length

/-- The largest level-`i` position at most `m` (the header, position 0,
participates in every level). -/
def lastL (nodes : List SLNode) (i : Nat) : Nat → Nat
  | 0 => 0
  | m + 1 => if i < heightAt nodes (m + 1) then m + 1 else lastL nodes i m

/-- Sum of the stored spans of the level-`i` links on the path from the
header to position `q`: one link leaves each position below `q` that
participates in level `i` (the header included). -/
def spanSumTo (sl : Skiplist) (i q : Nat) : Nat :=
  ((List.range q).filter (fun p => p == 0 || decide (i < heightAt sl.nodes p))).foldl
    (fun acc p => acc + spanAt sl p i) 0

/-- One mutation of a run: the arguments of an `Add` or `Remove` call. -/
inductive Op where
  | add (ele : String) (score : Int)
  | remove (ele : String)
deriving DecidableEq

/-- Run a list of operations from state `z`, drawing the level of the `k`-th
insertion from the oracle `f` (the model of the sequence of `randomLevel`
outcomes; a draw is consumed exactly when the source calls `insert`).
Returns the final state, the next draw index, and the Bool returned by each
operation. -/
def runOps (f : Nat → Nat) : List Op → ZSet → Nat → ZSet × Nat × List Bool
  | [], z, k => (z, k, [])
  | Op.add e s :: rest, z, k =>
    let zb := Add z (f k) e s
    let k1 := if z.dict.lookup e = some s then k else k + 1
    let r := runOps f rest zb.1 k1
    (r.1, r.2.1, zb.2 :: r.2.2)
  | Op.remove e :: rest, z, k =>
    let zb := Remove z e
    let r := runOps f rest zb.1 k
    (r.1, r.2.1, zb.2 :: r.2.2)

/-- Reference description of `RangeByScore` taken from the specification
text: start at the first node with score at least `min`; skip up to `offset`
nodes, abandoning the whole operation on meeting a node with score above
`max` during the skip phase; then collect while the score stays within
`max`, up to `count` results, unboundedly when `count` is negative. -/
def rangeSpecSkip (mx : Int) : Nat → List (String × Int) → Option (List (String × Int))
  | 0, l => some l
  | _ + 1, [] => some []
  | n + 1, a :: l => if mx < a.2 then none else rangeSpecSkip mx n l

/-- Reference function for `RangeByScore`, written from the specification's
description of the operation (see `rangeSpecSkip`). -/
def rangeSpec (chain : List (String × Int)) (mn mx offset count : Int) : List (String × Int) :=
  match rangeSpecSkip mx (max offset 0).toNat (chain.dropWhile (fun a => decide (a.2 < mn))) with
  | none => []
  | some l =>
    let l1 := l.takeWhile (fun a => decide (a.2 ≤ mx))
    if count < 0 then l1 else l1.take count.toNat

/-- Two skiplist states with the same skeleton: same chain length, header
width, level, stored length, node heights and node keys (they may differ in
stored span values only). -/
def SkelEq (s1 s2 : Skiplist) : Prop :=
  s1.nodes.length = s2.nodes.length ∧ s1.headerSpans.length = s2.headerSpans.length ∧
  s1.level = s2.level ∧ s1.length = s2.length ∧
  (∀ r, heightAt s1.nodes r = heightAt s2.nodes r) ∧ (∀ r, keyAt s1 r = keyAt s2 r)

/-! ### Order lemmas for the member and composite orders -/

theorem strLtB_irrefl (l : List Char) : strLtB l l = false := by
  induction l with
  | nil => rfl
  | cons a as ih => simp [strLtB, ih]

theorem strLtB_trans {a b c : List Char} (h1 : strLtB a b = true) (h2 : strLtB b c = true) :
    strLtB a c = true := by
  induction a generalizing b c with
  | nil =>
    cases b with
    | nil => simp [strLtB] at h1
    | cons y ys => cases c with
      | nil => simp [strLtB] at h2
      | cons z zs => simp [strLtB]
  | cons x xs ih =>
    cases b with
    | nil => simp [strLtB] at h1
    | cons y ys =>
      cases c with
      | nil => simp [strLtB] at h2
      | cons z zs =>
        simp only [strLtB] at h1 h2 ⊢
        rcases Nat.lt_trichotomy x.toNat y.toNat with hxy | hxy | hxy
        · rcases Nat.lt_trichotomy y.toNat z.toNat with hyz | hyz | hyz
          · simp [Nat.lt_trans hxy hyz]
          · simp [hyz ▸ hxy]
          · simp [hyz, Nat.lt_asymm hyz] at h2
        · rcases Nat.lt_trichotomy y.toNat z.toNat with hyz | hyz | hyz
          · simp [hxy ▸ hyz]
          · simp only [hxy, hyz] at h1 h2 ⊢
            simp only [Nat.lt_irrefl, if_false, if_neg (Nat.lt_irrefl _)] at h1 h2 ⊢
            exact ih h1 h2
          · simp [hyz, Nat.lt_asymm hyz] at h2
        · simp [hxy, Nat.lt_asymm hxy] at h1

theorem char_eq_of_toNat_eq {a b : Char} (h : a.toNat = b.toNat) : a = b :=
  Char.eq_of_val_eq (UInt32.ext_iff.mpr h)

theorem strLtB_connex {a b : List Char} (h1 : strLtB a b = false) (h2 : strLtB b a = false) :
    a = b := by
  induction a generalizing b with
  | nil => cases b with
    | nil => rfl
    | cons y ys => simp [strLtB] at h1
  | cons x xs ih =>
    cases b with
    | nil => simp [strLtB] at h2
    | cons y ys =>
      simp only [strLtB] at h1 h2
      rcases Nat.lt_trichotomy x.toNat y.toNat with hxy | hxy | hxy
      · simp [hxy] at h1
      · simp only [hxy, Nat.lt_irrefl, if_false, if_neg (Nat.lt_irrefl _)] at h1 h2
        rw [char_eq_of_toNat_eq hxy, ih h1 h2]

      · simp [hxy] at h2

theorem strLt_irrefl (a : String) : ¬ strLt a a := by
  simp [strLt, strLtB_irrefl]

theorem strLt_trans {a b c : String} (h1 : strLt a b) (h2 : strLt b c) : strLt a c :=
  strLtB_trans h1 h2

theorem strLt_connex {a b : String} (h1 : ¬ strLt a b) (h2 : ¬ strLt b a) : a = b := by
  cases a with
  | mk da => cases b with
    | mk db =>
      simp only [strLt, Bool.not_eq_true] at h1 h2
      have : da = db := strLtB_connex h1 h2
      rw [this]

theorem keyLt_irrefl (a : Int × String) : ¬ keyLt a a := by
  simp [keyLt, strLt_irrefl]

theorem keyLt_trans {a b c : Int × String} (h1 : keyLt a b) (h2 : keyLt b c) : keyLt a c := by
  rcases h1 with h1 | ⟨h1e, h1s⟩
  · rcases h2 with h2 | ⟨h2e, h2s⟩
    · exact Or.inl (lt_trans h1 h2)
    · exact Or.inl (h2e ▸ h1)
  · rcases h2 with h2 | ⟨h2e, h2s⟩
    · exact Or.inl (h1e ▸ h2)
    · exact Or.inr ⟨h1e.trans h2e, strLt_trans h1s h2s⟩

theorem keyLt_connex {a b : Int × String} (h1 : ¬ keyLt a b) (h2 : ¬ keyLt b a) : a = b := by
  rcases lt_trichotomy a.1 b.1 with h | h | h
  · exact absurd (Or.inl h) h1
  · have hs1 : ¬ strLt a.2 b.2 := fun hs => h1 (Or.inr ⟨h, hs⟩)
    have hs2 : ¬ strLt b.2 a.2 := fun hs => h2 (Or.inr ⟨h.symm, hs⟩)
    exact Prod.ext h (strLt_connex hs1 hs2)
  · exact absurd (Or.inl h) h2

theorem keyLt_asymm {a b : Int × String} (h : keyLt a b) : ¬ keyLt b a :=
  fun h2 => keyLt_irrefl a (keyLt_trans h h2)

theorem keyLe_iff (a b : Int × String) : keyLe a b ↔ keyLt a b ∨ a = b := by
  constructor
  · rintro (h | ⟨he, hs | hs⟩)
    · exact Or.inl (Or.inl h)
    · exact Or.inl (Or.inr ⟨he, hs⟩)
    · exact Or.inr (Prod.ext he hs)
  · rintro ((h | ⟨he, hs⟩) | h)
    · exact Or.inl h
    · exact Or.inr ⟨he, Or.inl hs⟩
    · exact Or.inr ⟨h ▸ rfl, Or.inr (h ▸ rfl)⟩

theorem keyLt_keyLe {a b c : Int × String} (h1 : keyLt a b) (h2 : keyLe b c) : keyLt a c := by
  rcases (keyLe_iff b c).mp h2 with h | h
  · exact keyLt_trans h1 h
  · exact h ▸ h1

theorem keyLe_keyLt {a b c : Int × String} (h1 : keyLe a b) (h2 : keyLt b c) : keyLt a c := by
  rcases (keyLe_iff a b).mp h1 with h | h
  · exact keyLt_trans h h2
  · exact h ▸ h2

theorem keyLt_total (a b : Int × String) : keyLt a b ∨ a = b ∨ keyLt b a := by
  by_cases h1 : keyLt a b
  · exact Or.inl h1
  · by_cases h2 : keyLt b a
    · exact Or.inr (Or.inr h2)
    · exact Or.inr (Or.inl (keyLt_connex h1 h2))

/-! ### Lemmas for the self-contained list helpers -/

theorem nthD_oob {α : Type} {l : List α} {n : Nat} (d : α) (h : l.length ≤ n) :
    nthD l n d = d := by
  induction l generalizing n with
  | nil => cases n <;> rfl
  | cons a t ih =>
    cases n with
    | zero => simp at h
    | succ m => exact ih (by simpa using h)

theorem nthD_mem {α : Type} {l : List α} {n : Nat} (d : α) (h : n < l.length) :
    nthD l n d ∈ l := by
  induction l generalizing n with
  | nil => simp at h
  | cons a t ih =>
    cases n with
    | zero => simp [nthD]
    | succ m => exact List.mem_cons_of_mem _ (ih (by simpa using h))

theorem nthD_map {α β : Type} (f : α → β) (l : List α) (n : Nat) (d : α) :
    nthD (l.map f) n (f d) = f (nthD l n d) := by
  induction l generalizing n with
  | nil => cases n <;> rfl
  | cons a t ih => cases n with
    | zero => rfl
    | succ m => exact ih m

theorem nthD_drop {α : Type} (l : List α) (p n : Nat) (d : α) :
    nthD (l.drop p) n d = nthD l (p + n) d := by
  induction l generalizing p with
  | nil => cases p <;> rfl
  | cons a t ih =>
    cases p with
    | zero => simp only [List.drop_zero, Nat.zero_add]
    | succ m =>
      simp only [List.drop_succ_cons]
      rw [ih]
      have hmn : m + 1 + n = (m + n) + 1 := by omega
      rw [hmn]
      rfl

theorem nthD_append_lt {α : Type} {l1 : List α} (l2 : List α) {n : Nat} (d : α)
    (h : n < l1.length) : nthD (l1 ++ l2) n d = nthD l1 n d := by
  induction l1 generalizing n with
  | nil => simp at h
  | cons a t ih => cases n with
    | zero => rfl
    | succ m => exact ih (by simpa using h)

theorem nthD_append_ge {α : Type} {l1 : List α} (l2 : List α) {n : Nat} (d : α)
    (h : l1.length ≤ n) : nthD (l1 ++ l2) n d = nthD l2 (n - l1.length) d := by
  induction l1 generalizing n with
  | nil => simp
  | cons a t ih => cases n with
    | zero => simp at h
    | succ m => simpa using ih (by simpa using h)

theorem length_setAt {α : Type} (l : List α) (n : Nat) (b : α) :
    (setAt l n b).length = l.length := by
  induction l generalizing n with
  | nil => rfl
  | cons a t ih => cases n with
    | zero => rfl
    | succ m => simp [setAt, ih m]

theorem nthD_setAt_self {α : Type} {l : List α} {n : Nat} (b : α) (d : α) (h : n < l.length) :
    nthD (setAt l n b) n d = b := by
  induction l generalizing n with
  | nil => simp at h
  | cons a t ih => cases n with
    | zero => rfl
    | succ m => exact ih (by simpa using h)

theorem nthD_setAt_ne {α : Type} {l : List α} {n m : Nat} (b : α) (d : α) (h : m ≠ n) :
    nthD (setAt l n b) m d = nthD l m d := by
  induction l generalizing n m with
  | nil => cases n <;> rfl
  | cons a t ih =>
    cases n with
    | zero => cases m with
      | zero => exact absurd rfl h
      | succ k => rfl
    | succ j => cases m with
      | zero => rfl
      | succ k => exact ih (fun he => h (by rw [he]))

theorem setAt_oob {α : Type} {l : List α} {n : Nat} (b : α) (h : l.length ≤ n) :
    setAt l n b = l := by
  induction l generalizing n with
  | nil => rfl
  | cons a t ih => cases n with
    | zero => simp at h
    | succ m => simp [setAt, ih (by simpa using h)]

theorem length_insAt {α : Type} {l : List α} {n : Nat} (b : α) (h : n ≤ l.length) :
    (insAt n b l).length = l.length + 1 := by
  induction l generalizing n with
  | nil => cases n <;> rfl
  | cons a t ih => cases n with
    | zero => rfl
    | succ m => simp [insAt, ih (by simpa using h)]

theorem insAt_eq_append {α : Type} {l : List α} {n : Nat} (b : α) (h : n ≤ l.length) :
    insAt n b l = l.take n ++ b :: l.drop n := by
  induction l generalizing n with
  | nil => cases n with
    | zero => rfl
    | succ m => simp at h
  | cons a t ih => cases n with
    | zero => rfl
    | succ m => simp [insAt, ih (by simpa using h)]

theorem delAt_eq_append {α : Type} (l : List α) (n : Nat) :
    delAt n l = l.take n ++ l.drop (n + 1) := by
  induction l generalizing n with
  | nil => cases n <;> rfl
  | cons a t ih => cases n with
    | zero => simp [delAt]
    | succ m => simp [delAt, ih]

theorem nthD_insAt_lt {α : Type} {l : List α} {n m : Nat} (b : α) (d : α) (h : m < n)
    (hn : n ≤ l.length) : nthD (insAt n b l) m d = nthD l m d := by
  induction l generalizing n m with
  | nil =>
    cases n with
    | zero => simp at h
    | succ k => simp at hn
  | cons a t ih =>
    cases n with
    | zero => simp at h
    | succ k => cases m with
      | zero => rfl
      | succ j => exact ih (by omega) (by simpa using hn)

theorem nthD_insAt_self {α : Type} {l : List α} {n : Nat} (b : α) (d : α) (h : n ≤ l.length) :
    nthD (insAt n b l) n d = b := by
  induction l generalizing n with
  | nil => cases n with
    | zero => rfl
    | succ m => simp at h
  | cons a t ih => cases n with
    | zero => rfl
    | succ m => exact ih (by simpa using h)

theorem nthD_insAt_gt {α : Type} {l : List α} {n m : Nat} (b : α) (d : α) (h : n < m) :
    nthD (insAt n b l) m d = nthD l (m - 1) d := by
  induction l generalizing n m with
  | nil =>
    cases n with
    | zero => cases m with
      | zero => simp at h
      | succ j => cases j <;> simp [insAt, nthD, nthD_oob]
    | succ k => cases m with
      | zero => simp at h
      | succ j => cases j <;> simp [insAt, nthD, nthD_oob]
  | cons a t ih =>
    cases n with
    | zero => cases m with
      | zero => simp at h
      | succ j => simp [insAt, nthD]
    | succ k =>
      cases m with
      | zero => simp at h
      | succ j =>
        have hj : 0 < j := by omega
        simp only [insAt, nthD]
        rw [ih (by omega)]
        cases j with
        | zero => omega
        | succ jj => simp [nthD]

theorem length_delAt {α : Type} {l : List α} {n : Nat} (h : n < l.length) :
    (delAt n l).length = l.length - 1 := by
  induction l generalizing n with
  | nil => simp at h
  | cons a t ih => cases n with
    | zero => simp [delAt]
    | succ m =>
      have := ih (by simpa using h)
      simp only [delAt, List.length_cons]
      rw [this]
      have : 1 ≤ t.length := by simp at h; omega
      omega

theorem nthD_delAt_lt {α : Type} {l : List α} {n m : Nat} (d : α) (h : m < n) :
    nthD (delAt n l) m d = nthD l m d := by
  induction l generalizing n m with
  | nil => cases n <;> rfl
  | cons a t ih =>
    cases n with
    | zero => simp at h
    | succ k => cases m with
      | zero => rfl
      | succ j => exact ih (by omega)

theorem nthD_delAt_ge {α : Type} {l : List α} {n m : Nat} (d : α) (h : n ≤ m) :
    nthD (delAt n l) m d = nthD l (m + 1) d := by
  induction l generalizing n m with
  | nil => cases n <;> simp [delAt, nthD]
  | cons a t ih =>
    cases n with
    | zero => rfl
    | succ k => cases m with
      | zero => simp at h
      | succ j => exact ih (by omega)

theorem map_insAt {α β : Type} (f : α → β) (n : Nat) (b : α) (l : List α) :
    (insAt n b l).map f = insAt n (f b) (l.map f) := by
  induction l generalizing n with
  | nil => cases n <;> rfl
  | cons a t ih => cases n with
    | zero => rfl
    | succ m => simp [insAt, ih]

theorem map_delAt {α β : Type} (f : α → β) (n : Nat) (l : List α) :
    (delAt n l).map f = delAt n (l.map f) := by
  induction l generalizing n with
  | nil => cases n <;> rfl
  | cons a t ih => cases n with
    | zero => rfl
    | succ m => simp [delAt, ih]

theorem mem_insAt {α : Type} (a b : α) (n : Nat) (l : List α) :
    a ∈ insAt n b l ↔ a = b ∨ a ∈ l := by
  induction l generalizing n with
  | nil => cases n <;> simp [insAt]
  | cons c t ih =>
    cases n with
    | zero => simp [insAt]
    | succ m => simp [insAt, ih]; tauto

theorem delAt_insAt {α : Type} {l : List α} {n : Nat} (b : α) (h : n ≤ l.length) :
    delAt n (insAt n b l) = l := by
  induction l generalizing n with
  | nil => cases n with
    | zero => rfl
    | succ m => simp at h
  | cons a t ih => cases n with
    | zero => rfl
    | succ m => simp [insAt, delAt, ih (by simpa using h)]

/-! ### Characterisation of the derived forward pointers -/

theorem heightAt_cons_one (n : SLNode) (t : List SLNode) : heightAt (n :: t) 1 = n.spans.length :=
  rfl

theorem heightAt_cons_succ (n : SLNode) (t : List SLNode) {j : Nat} (hj : 1 ≤ j) :
    heightAt (n :: t) (j + 1) = heightAt t j := by
  cases j with
  | zero => omega
  | succ m => rfl

theorem fwdSearch_some_elim {i : Nat} {l : List SLNode} {k : Nat}
    (h : fwdSearch i l = some k) :
    1 ≤ k ∧ k ≤ l.length ∧ i < heightAt l k ∧
      ∀ j, 1 ≤ j → j < k → ¬ i < heightAt l j := by
  induction l generalizing k with
  | nil => simp [fwdSearch] at h
  | cons n t ih =>
    by_cases hn : i < n.spans.length
    · simp only [fwdSearch, if_pos hn, Option.some.injEq] at h
      subst h
      exact ⟨le_refl 1, by simp, hn, fun j h1 h2 => by omega⟩
    · simp only [fwdSearch, if_neg hn, Option.map_eq_some'] at h
      obtain ⟨k0, hk0, rfl⟩ := h
      obtain ⟨hk1, hk2, hk3, hk4⟩ := ih hk0
      refine ⟨by omega, by simp; omega, ?_, ?_⟩
      · rwa [heightAt_cons_succ n t hk1]
      · intro j h1 h2
        cases j with
        | zero => omega
        | succ m =>
          cases m with
          | zero => exact hn
          | succ m2 =>
            rw [heightAt_cons_succ n t (by omega)]
            exact hk4 (m2 + 1) (by omega) (by omega)

theorem fwdSearch_none_elim {i : Nat} {l : List SLNode} (h : fwdSearch i l = none) :
    ∀ j, 1 ≤ j → j ≤ l.length → ¬ i < heightAt l j := by
  induction l with
  | nil => intro j h1 h2; simp at h2; omega
  | cons n t ih =>
    by_cases hn : i < n.spans.length
    · simp [fwdSearch, hn] at h
    · simp only [fwdSearch, if_neg hn, Option.map_eq_none'] at h
      intro j h1 h2
      cases j with
      | zero => omega
      | succ m =>
        cases m with
        | zero => exact hn
        | succ m2 =>
          rw [heightAt_cons_succ n t (by omega)]
          exact ih h (m2 + 1) (by omega) (by simp at h2; omega)

theorem fwdSearch_some_intro {i : Nat} {l : List SLNode} {k : Nat} (h1 : 1 ≤ k)
    (h2 : k ≤ l.length) (h3 : i < heightAt l k)
    (h4 : ∀ j, 1 ≤ j → j < k → ¬ i < heightAt l j) : fwdSearch i l = some k := by
  induction l generalizing k with
  | nil => simp at h2; omega
  | cons n t ih =>
    by_cases hn : i < n.spans.length
    · have hk1 : k = 1 := by
        by_contra hne
        exact h4 1 (le_refl 1) (by omega) hn
      simp [fwdSearch, hn, hk1]
    · have hk1 : k ≠ 1 := fun he => hn (by rwa [he, heightAt_cons_one] at h3)
      cases k with
      | zero => omega
      | succ m =>
        have hm : 1 ≤ m := by omega
        simp only [fwdSearch, if_neg hn]
        rw [ih hm (by simp at h2; omega) (by rwa [heightAt_cons_succ n t hm] at h3)
          (fun j hj1 hj2 => by
            have := h4 (j + 1) (by omega) (by omega)
            rwa [heightAt_cons_succ n t hj1] at this)]
        rfl

theorem fwdSearch_none_intro {i : Nat} {l : List SLNode}
    (h : ∀ j, 1 ≤ j → j ≤ l.length → ¬ i < heightAt l j) : fwdSearch i l = none := by
  induction l with
  | nil => rfl
  | cons n t ih =>
    have hn : ¬ i < n.spans.length := h 1 (le_refl 1) (by simp)
    simp only [fwdSearch, if_neg hn, Option.map_eq_none']
    exact ih (fun j hj1 hj2 => by
      have := h (j + 1) (by omega) (by simp; omega)
      rwa [heightAt_cons_succ n t hj1] at this)

theorem heightAt_drop (nodes : List SLNode) (p j : Nat) (hj : 1 ≤ j) :
    heightAt (nodes.drop p) j = heightAt nodes (p + j) := by
  unfold heightAt
  rw [nthD_drop]
  have he : p + (j - 1) = p + j - 1 := by omega
  rw [he]

theorem fwdPos_some_elim {nodes : List SLNode} {i p q : Nat}
    (h : fwdPos nodes i p = some q) :
    p < q ∧ q ≤ nodes.length ∧ i < heightAt nodes q ∧
      ∀ r, p < r → r < q → ¬ i < heightAt nodes r := by
  simp only [fwdPos, Option.map_eq_some'] at h
  obtain ⟨k, hk, rfl⟩ := h
  obtain ⟨h1, h2, h3, h4⟩ := fwdSearch_some_elim hk
  have hlen : (nodes.drop p).length = nodes.length - p := by simp
  refine ⟨by omega, by omega, ?_, ?_⟩
  · rwa [heightAt_drop nodes p k h1] at h3
  · intro r hr1 hr2
    have := h4 (r - p) (by omega) (by omega)
    rw [heightAt_drop nodes p (r - p) (by omega)] at this
    have he : p + (r - p) = r := by omega
    rwa [he] at this

theorem fwdPos_none_elim {nodes : List SLNode} {i p : Nat} (h : fwdPos nodes i p = none) :
    ∀ r, p < r → r ≤ nodes.length → ¬ i < heightAt nodes r := by
  simp only [fwdPos, Option.map_eq_none'] at h
  intro r hr1 hr2
  have := fwdSearch_none_elim h (r - p) (by omega) (by simp; omega)
  rw [heightAt_drop nodes p (r - p) (by omega)] at this
  have he : p + (r - p) = r := by omega
  rwa [he] at this

theorem fwdPos_some_intro {nodes : List SLNode} {i p q : Nat} (h1 : p < q)
    (h2 : q ≤ nodes.length) (h3 : i < heightAt nodes q)
    (h4 : ∀ r, p < r → r < q → ¬ i < heightAt nodes r) : fwdPos nodes i p = some q := by
  have hs : fwdSearch i (nodes.drop p) = some (q - p) := by
    apply fwdSearch_some_intro (by omega) (by simp; omega)
    · rw [heightAt_drop nodes p (q - p) (by omega)]
      have he : p + (q - p) = q := by omega
      rwa [he]
    · intro j hj1 hj2
      rw [heightAt_drop nodes p j hj1]
      exact h4 (p + j) (by omega) (by omega)
  have he : p + (q - p) = q := by omega
  simp [fwdPos, hs, he]

theorem fwdPos_none_intro {nodes : List SLNode} {i p : Nat}
    (h : ∀ r, p < r → r ≤ nodes.length → ¬ i < heightAt nodes r) : fwdPos nodes i p = none := by
  have hs : fwdSearch i (nodes.drop p) = none := by
    apply fwdSearch_none_intro
    intro j hj1 hj2
    rw [heightAt_drop nodes p j hj1]
    exact h (p + j) (by omega) (by simp at hj2; omega)
  simp [fwdPos, hs]

theorem fwdPos_ext {n1 n2 : List SLNode} (hlen : n1.length = n2.length)
    (hh : ∀ r, 1 ≤ r → r ≤ n1.length → heightAt n1 r = heightAt n2 r) (i p : Nat) :
    fwdPos n1 i p = fwdPos n2 i p := by
  cases hq : fwdPos n1 i p with
  | none =>
    rw [fwdPos_none_intro]
    intro r hr1 hr2
    rw [← hh r (by omega) (by omega)]
    exact fwdPos_none_elim hq r hr1 (by omega)
  | some q =>
    obtain ⟨h1, h2, h3, h4⟩ := fwdPos_some_elim hq
    rw [fwdPos_some_intro h1 (by omega) (by rw [← hh q (by omega) h2]; exact h3)
      (fun r hr1 hr2 => by
        rw [← hh r (by omega) (by omega)]
        exact h4 r hr1 hr2)]

theorem fwdPos_zero {nodes : List SLNode} (hh : ∀ n, n ∈ nodes → 1 ≤ n.spans.length)
    (p : Nat) : fwdPos nodes 0 p = if p < nodes.length then some (p + 1) else none := by
  by_cases hp : p < nodes.length
  · rw [if_pos hp]
    apply fwdPos_some_intro (by omega) (by omega)
    · have := hh (nthD nodes p defNode) (nthD_mem defNode hp)
      unfold heightAt
      have he : p + 1 - 1 = p := by omega
      rw [he]
      omega
    · intro r h1 h2
      omega
  · rw [if_neg hp]
    exact fwdPos_none_intro (fun r h1 h2 => by omega)

theorem fwdPos_skip {nodes : List SLNode} {i p : Nat}
    (hp : ¬ i < heightAt nodes (p + 1)) :
    fwdPos nodes i p = fwdPos nodes i (p + 1) := by
  cases hq : fwdPos nodes i (p + 1) with
  | none =>
    apply fwdPos_none_intro
    intro r h1 h2
    rcases Nat.eq_or_lt_of_le h1 with he | hlt
    · subst he; exact hp
    · exact fwdPos_none_elim hq r (by omega) h2
  | some q =>
    obtain ⟨h1, h2, h3, h4⟩ := fwdPos_some_elim hq
    apply fwdPos_some_intro (by omega) h2 h3
    intro r hr1 hr2
    rcases Nat.eq_or_lt_of_le hr1 with he | hlt
    · subst he; exact hp
    · exact h4 r (by omega) hr2

/-! ### The largest on-level position below a bound -/

theorem lastL_le (nodes : List SLNode) (i m : Nat) : lastL nodes i m ≤ m := by
  induction m with
  | zero => simp [lastL]
  | succ k ih =>
    unfold lastL
    by_cases h : i < heightAt nodes (k + 1) <;> simp [h] <;> omega

theorem lastL_on_level (nodes : List SLNode) (i m : Nat) :
    lastL nodes i m = 0 ∨ (1 ≤ lastL nodes i m ∧ i < heightAt nodes (lastL nodes i m)) := by
  induction m with
  | zero => simp [lastL]
  | succ k ih =>
    unfold lastL
    by_cases h : i < heightAt nodes (k + 1)
    · rw [if_pos h]; exact Or.inr ⟨by omega, h⟩
    · rw [if_neg h]; exact ih

theorem lastL_max {nodes : List SLNode} {i m p : Nat} (hp1 : 1 ≤ p) (hp2 : p ≤ m)
    (hh : i < heightAt nodes p) : p ≤ lastL nodes i m := by
  induction m with
  | zero => omega
  | succ k ih =>
    unfold lastL
    by_cases h : i < heightAt nodes (k + 1)
    · rw [if_pos h]; omega
    · rw [if_neg h]
      have : p ≠ k + 1 := fun he => h (he ▸ hh)
      exact ih (by omega)

theorem lastL_between {nodes : List SLNode} {i m : Nat} :
    ∀ r, lastL nodes i m < r → r ≤ m → ¬ i < heightAt nodes r := by
  intro r h1 h2 hh
  have := lastL_max (by omega) h2 hh
  omega

theorem lastL_fwd (nodes : List SLNode) (i m : Nat) :
    fwdPos nodes i (lastL nodes i m) = fwdPos nodes i m := by
  induction m with
  | zero => simp [lastL]
  | succ k ih =>
    unfold lastL
    by_cases h : i < heightAt nodes (k + 1)
    · rw [if_pos h]
    · rw [if_neg h, ih, fwdPos_skip h]

theorem lastL_level_zero {nodes : List SLNode} (hh : ∀ n, n ∈ nodes → 1 ≤ n.spans.length)
    {m : Nat} (hm : m ≤ nodes.length) : lastL nodes 0 m = m := by
  cases m with
  | zero => simp [lastL]
  | succ k =>
    unfold lastL
    rw [if_pos]
    have := hh (nthD nodes k defNode) (nthD_mem defNode (by omega))
    unfold heightAt
    have he : k + 1 - 1 = k := by omega
    rw [he]
    omega

theorem lastL_lower_level {nodes : List SLNode} {i j m : Nat} (hij : i ≤ j) :
    i < heightAt nodes (lastL nodes j m) ∨ lastL nodes j m = 0 := by
  rcases lastL_on_level nodes j m with h | ⟨h1, h2⟩
  · exact Or.inr h
  · exact Or.inl (by omega)

theorem lastL_mono {nodes : List SLNode} {i j m : Nat} (hij : i ≤ j) :
    lastL nodes j m ≤ lastL nodes i m := by
  rcases lastL_on_level nodes j m with h | ⟨h1, h2⟩
  · omega
  · exact lastL_max h1 (lastL_le nodes j m) (by omega)

/-! ### Span writes: what they change and what they preserve -/

theorem SkelEq_refl (s : Skiplist) : SkelEq s s :=
  ⟨rfl, rfl, rfl, rfl, fun _ => rfl, fun _ => rfl⟩

theorem SkelEq_trans {s1 s2 s3 : Skiplist} (h1 : SkelEq s1 s2) (h2 : SkelEq s2 s3) :
    SkelEq s1 s3 := by
  obtain ⟨a1, b1, c1, d1, e1, f1⟩ := h1
  obtain ⟨a2, b2, c2, d2, e2, f2⟩ := h2
  exact ⟨a1.trans a2, b1.trans b2, c1.trans c2, d1.trans d2,
    fun r => (e1 r).trans (e2 r), fun r => (f1 r).trans (f2 r)⟩

theorem setSpan_skel (sl : Skiplist) (p i v : Nat) : SkelEq (setSpan sl p i v) sl := by
  unfold setSpan
  by_cases hp : p = 0
  · rw [if_pos hp]
    exact ⟨rfl, length_setAt _ _ _, rfl, rfl, fun _ => rfl, fun _ => rfl⟩
  · rw [if_neg hp]
    refine ⟨length_setAt _ _ _, rfl, rfl, rfl, ?_, ?_⟩
    · intro r
      unfold heightAt
      by_cases hr : r - 1 = p - 1
      · rw [hr]
        by_cases hlt : p - 1 < sl.nodes.length
        · rw [nthD_setAt_self _ _ hlt, length_setAt]
          rfl
        · rw [setAt_oob _ (by omega)]
      · rw [nthD_setAt_ne _ _ hr]
    · intro r
      unfold keyAt nodeAt
      by_cases hr : r - 1 = p - 1
      · rw [hr]
        by_cases hlt : p - 1 < sl.nodes.length
        · rw [nthD_setAt_self _ _ hlt]
        · rw [setAt_oob _ (by omega)]
      · rw [nthD_setAt_ne _ _ hr]

theorem fwdPos_skel {s1 s2 : Skiplist} (h : SkelEq s1 s2) (i p : Nat) :
    fwdPos s1.nodes i p = fwdPos s2.nodes i p :=
  fwdPos_ext h.1 (fun r _ _ => h.2.2.2.2.1 r) i p

theorem spanAt_setSpan_hdr {sl : Skiplist} {i v : Nat} (hi : i < sl.headerSpans.length) :
    spanAt (setSpan sl 0 i v) 0 i = v := by
  have h : spanAt (setSpan sl 0 i v) 0 i = nthD (setAt sl.headerSpans i v) i 0 := by
    simp [setSpan, spanAt]
  rw [h]
  exact nthD_setAt_self v 0 hi

theorem spanAt_setSpan_node {sl : Skiplist} {p i v : Nat} (hp1 : 1 ≤ p)
    (hp2 : p ≤ sl.nodes.length) (hi : i < heightAt sl.nodes p) :
    spanAt (setSpan sl p i v) p i = v := by
  simp only [setSpan, if_neg (by omega : ¬ p = 0), spanAt, nodeAt]
  rw [nthD_setAt_self _ _ (by omega)]
  exact nthD_setAt_self v 0 hi

theorem setAt_self {α : Type} (l : List α) (n : Nat) (d : α) : setAt l n (nthD l n d) = l := by
  induction l generalizing n with
  | nil => rfl
  | cons a t ih => cases n with
    | zero => rfl
    | succ m => simp [setAt, nthD, ih m]

theorem setSpan_oob_hdr {sl : Skiplist} {i : Nat} (v : Nat) (h : sl.headerSpans.length ≤ i) :
    setSpan sl 0 i v = sl := by
  simp [setSpan, setAt_oob _ h]

theorem setSpan_oob_node {sl : Skiplist} {p i : Nat} (v : Nat) (hp : 1 ≤ p)
    (h : sl.nodes.length < p ∨ heightAt sl.nodes p ≤ i) : setSpan sl p i v = sl := by
  have hne : ¬ p = 0 := by omega
  rcases h with h | h
  · simp only [setSpan, if_neg hne]
    rw [setAt_oob _ (by omega : sl.nodes.length ≤ p - 1)]
  · unfold heightAt at h
    simp only [setSpan, if_neg (by omega : ¬ p = 0)]
    have hsp : setAt (nodeAt sl p).spans i v = (nodeAt sl p).spans :=
      setAt_oob _ (by unfold nodeAt; omega)
    rw [hsp]
    have hnd : (⟨(nodeAt sl p).ele, (nodeAt sl p).score, (nodeAt sl p).spans⟩ : SLNode)
        = nodeAt sl p := rfl
    rw [hnd]
    unfold nodeAt
    rw [setAt_self]

theorem spanAt_setSpan_ne {sl : Skiplist} {p i p2 i2 : Nat} (v : Nat)
    (h : p ≠ p2 ∨ i ≠ i2) : spanAt (setSpan sl p i v) p2 i2 = spanAt sl p2 i2 := by
  unfold setSpan spanAt
  by_cases hp : p = 0
  · rw [if_pos hp]
    by_cases hp2 : p2 = 0
    · rw [if_pos hp2, if_pos hp2]
      have hne : i2 ≠ i := by rcases h with h | h; omega; omega
      exact nthD_setAt_ne v 0 hne
    · rw [if_neg hp2, if_neg hp2]
      rfl
  · rw [if_neg hp]
    by_cases hp2 : p2 = 0
    · rw [if_pos hp2, if_pos hp2]
    · rw [if_neg hp2, if_neg hp2]
      unfold nodeAt
      by_cases hr : p2 - 1 = p - 1
      · have hii : i ≠ i2 := by rcases h with h | h; omega; exact h
        rw [hr]
        by_cases hlt : p - 1 < sl.nodes.length
        · rw [nthD_setAt_self _ _ hlt]
          exact nthD_setAt_ne v 0 (fun he => hii he.symm)
        · rw [setAt_oob _ (by omega)]
      · rw [nthD_setAt_ne _ _ hr]

theorem spanAt_setSpan_congr {s1 s2 : Skiplist} {j : Nat} (hskel : SkelEq s1 s2)
    (hsp : ∀ p, spanAt s1 p j = spanAt s2 p j) (a v p : Nat) :
    spanAt (setSpan s1 a j v) p j = spanAt (setSpan s2 a j v) p j := by
  by_cases hc : a = p
  · subst hc
    by_cases ha : a = 0
    · subst ha
      by_cases hin : j < s1.headerSpans.length
      · rw [spanAt_setSpan_hdr hin, spanAt_setSpan_hdr (by rw [← hskel.2.1]; exact hin)]
      · rw [setSpan_oob_hdr v (by omega), setSpan_oob_hdr v (by rw [← hskel.2.1]; omega)]
        exact hsp 0
    · have ha1 : 1 ≤ a := by omega
      by_cases hin : a ≤ s1.nodes.length ∧ j < heightAt s1.nodes a
      · rw [spanAt_setSpan_node ha1 hin.1 hin.2,
          spanAt_setSpan_node ha1 (by rw [← hskel.1]; exact hin.1)
            (by rw [← hskel.2.2.2.2.1 a]; exact hin.2)]
      · have hcase : s1.nodes.length < a ∨ heightAt s1.nodes a ≤ j := by
          by_cases h1 : a ≤ s1.nodes.length
          · right
            by_contra hj
            exact hin ⟨h1, by omega⟩
          · left; omega
        have hcase2 : s2.nodes.length < a ∨ heightAt s2.nodes a ≤ j := by
          rcases hcase with h | h
          · left; rw [← hskel.1]; exact h
          · right; rw [← hskel.2.2.2.2.1 a]; exact h
        rw [setSpan_oob_node v ha1 hcase, setSpan_oob_node v ha1 hcase2]
        exact hsp a
  · rw [spanAt_setSpan_ne v (Or.inl hc), spanAt_setSpan_ne v (Or.inl hc)]
    exact hsp p

theorem foldl_setSpan_generic (L : List Nat) :
    ∀ (sl : Skiplist) (u : Nat → Nat) (g : Skiplist → Nat → Nat), L.Nodup →
    (∀ s j, j ∈ L → SkelEq s sl → (∀ p, spanAt s p j = spanAt sl p j) → g s j = g sl j) →
    SkelEq (L.foldl (fun s i => setSpan s (u i) i (g s i)) sl) sl ∧
    ∀ p j, spanAt (L.foldl (fun s i => setSpan s (u i) i (g s i)) sl) p j =
      if j ∈ L ∧ p = u j then spanAt (setSpan sl (u j) j (g sl j)) p j else spanAt sl p j := by
  induction L with
  | nil =>
    intro sl u g hnd hg
    refine ⟨SkelEq_refl sl, fun p j => ?_⟩
    simp
  | cons j0 L2 ih =>
    intro sl u g hnd hg
    have hnd2 : L2.Nodup := (List.nodup_cons.mp hnd).2
    have hj0 : j0 ∉ L2 := (List.nodup_cons.mp hnd).1
    set s1 := setSpan sl (u j0) j0 (g sl j0) with hs1
    have hskel1 : SkelEq s1 sl := setSpan_skel sl (u j0) j0 (g sl j0)
    have hsp1 : ∀ j, j ≠ j0 → ∀ p, spanAt s1 p j = spanAt sl p j := by
      intro j hj p
      exact spanAt_setSpan_ne _ (Or.inr (fun he => hj he.symm))
    have hg1 : ∀ s j, j ∈ L2 → SkelEq s s1 → (∀ p, spanAt s p j = spanAt s1 p j) →
        g s j = g s1 j := by
      intro s j hj hske hsp
      have hjne : j ≠ j0 := fun he => hj0 (he ▸ hj)
      have h1 : g s j = g sl j :=
        hg s j (List.mem_cons_of_mem _ hj) (SkelEq_trans hske hskel1)
          (fun p => (hsp p).trans (hsp1 j hjne p))
      have h2 : g s1 j = g sl j :=
        hg s1 j (List.mem_cons_of_mem _ hj) hskel1 (hsp1 j hjne)
      rw [h1, h2]
    obtain ⟨hskel2, hsp2⟩ := ih s1 u g hnd2 hg1
    constructor
    · simpa using SkelEq_trans hskel2 hskel1
    · intro p j
      have hfold : (j0 :: L2).foldl (fun s i => setSpan s (u i) i (g s i)) sl =
          L2.foldl (fun s i => setSpan s (u i) i (g s i)) s1 := rfl
      rw [hfold, hsp2 p j]
      by_cases hj : j ∈ L2
      · have hjne : j ≠ j0 := fun he => hj0 (he ▸ hj)
        by_cases hp : p = u j
        · rw [if_pos ⟨hj, hp⟩, if_pos ⟨List.mem_cons_of_mem _ hj, hp⟩]
          have hgv : g s1 j = g sl j :=
            hg s1 j (List.mem_cons_of_mem _ hj) hskel1 (hsp1 j hjne)
          rw [hgv]
          exact spanAt_setSpan_congr hskel1 (hsp1 j hjne) (u j) (g sl j) p
        · rw [if_neg (fun hc => hp hc.2), if_neg
            (fun (hc : j ∈ j0 :: L2 ∧ p = u j) => hp hc.2)]
          exact hsp1 j hjne p
      · rw [if_neg (fun hc => hj hc.1)]
        by_cases hjj : j = j0 ∧ p = u j
        · rw [if_pos ⟨by rw [hjj.1]; exact List.mem_cons_self j0 L2, hjj.2⟩]
          obtain ⟨he1, he2⟩ := hjj
          subst he1
          subst he2
          rfl
        · have hcond : ¬ (j ∈ j0 :: L2 ∧ p = u j) := by
            intro hc
            rcases List.mem_cons.mp hc.1 with he | hm
            · exact hjj ⟨he, hc.2⟩
            · exact hj hm
          rw [if_neg hcond]
          by_cases hje : j = j0
          · subst hje
            exact spanAt_setSpan_ne _ (Or.inl (fun he =>
              hjj ⟨rfl, he.symm⟩))
          · exact hsp1 j hje p

/-! ### The sorted chain: thresholds and key positions -/

theorem keyAt_eq (sl : Skiplist) (p : Nat) :
    keyAt sl p = nthD (keysOf sl) (p - 1) (0, "") := by
  unfold keyAt keysOf nodeAt
  rw [show ((0 : Int), "") = ((fun n : SLNode => (n.score, n.ele)) defNode) from rfl, nthD_map]

theorem keysOf_length (sl : Skiplist) : (keysOf sl).length = sl.nodes.length := by
  simp [keysOf]

theorem nthD_eq_get {α : Type} {l : List α} {n : Nat} (d : α) (h : n < l.length) :
    nthD l n d = l.get ⟨n, h⟩ := by
  induction l generalizing n with
  | nil => simp at h
  | cons a t ih => cases n with
    | zero => rfl
    | succ m => exact ih (by simpa using h)

theorem sorted_nthD_lt {ks : List (Int × String)} (hs : List.Pairwise keyLt ks) {i j : Nat}
    (hij : i < j) (hj : j < ks.length) (d : Int × String) :
    keyLt (nthD ks i d) (nthD ks j d) := by
  rw [nthD_eq_get d (by omega), nthD_eq_get d hj]
  exact List.pairwise_iff_get.mp hs ⟨i, by omega⟩ ⟨j, hj⟩ hij

theorem takeWhile_threshold {α : Type} (P : α → Bool) (l : List α) (R : α → α → Prop)
    (hp : List.Pairwise R l) (hdc : ∀ a b, R a b → P b = true → P a = true) (d : α) :
    ∀ j, j < l.length → (P (nthD l j d) = true ↔ j < (l.takeWhile P).length) := by
  induction l with
  | nil => intro j hj; simp at hj
  | cons a t ih =>
    have hpt : List.Pairwise R t := (List.pairwise_cons.mp hp).2
    have hha : ∀ b, b ∈ t → R a b := (List.pairwise_cons.mp hp).1
    intro j hj
    by_cases hpa : P a = true
    · rw [List.takeWhile_cons_of_pos hpa]
      cases j with
      | zero => simpa [nthD] using hpa
      | succ m =>
        have := ih hpt m (by simpa using hj)
        simp only [nthD, List.length_cons]
        rw [this]
        omega
    · rw [List.takeWhile_cons_of_neg (by simpa using hpa)]
      simp only [List.length_nil]
      cases j with
      | zero => simp [nthD, hpa]
      | succ m =>
        simp only [nthD]
        constructor
        · intro hpm
          exact absurd (hdc a _ (hha _ (nthD_mem d (by simpa using hj))) hpm) hpa
        · omega

theorem cntLt_le (ks : List (Int × String)) (k : Int × String) : cntLt ks k ≤ ks.length := by
  unfold cntLt
  exact (List.takeWhile_sublist _).length_le

theorem cntLe_le (ks : List (Int × String)) (k : Int × String) : cntLe ks k ≤ ks.length := by
  unfold cntLe
  exact (List.takeWhile_sublist _).length_le

theorem cntScoreLt_le (ks : List (Int × String)) (mn : Int) : cntScoreLt ks mn ≤ ks.length := by
  unfold cntScoreLt
  exact (List.takeWhile_sublist _).length_le

theorem keyLt_threshold {sl : Skiplist} (hs : List.Pairwise keyLt (keysOf sl))
    (k : Int × String) :
    ∀ q, 1 ≤ q → q ≤ sl.nodes.length →
      (keyLt (keyAt sl q) k ↔ q ≤ cntLt (keysOf sl) k) := by
  intro q h1 h2
  have := takeWhile_threshold (fun a => decide (keyLt a k)) (keysOf sl) keyLt hs
    (fun a b hab hb => by
      simp only [decide_eq_true_eq] at hb ⊢
      exact keyLt_trans hab hb) (0, "") (q - 1) (by rw [keysOf_length]; omega)
  rw [keyAt_eq]
  simp only [decide_eq_true_eq] at this
  rw [this]
  unfold cntLt
  omega

theorem keyLe_threshold {sl : Skiplist} (hs : List.Pairwise keyLt (keysOf sl))
    (k : Int × String) :
    ∀ q, 1 ≤ q → q ≤ sl.nodes.length →
      (keyLe (keyAt sl q) k ↔ q ≤ cntLe (keysOf sl) k) := by
  intro q h1 h2
  have := takeWhile_threshold (fun a => decide (keyLe a k)) (keysOf sl) keyLt hs
    (fun a b hab hb => by
      simp only [decide_eq_true_eq] at hb ⊢
      exact (keyLe_iff a k).mpr (Or.inl (keyLt_keyLe hab hb))) (0, "") (q - 1)
    (by rw [keysOf_length]; omega)
  rw [keyAt_eq]
  simp only [decide_eq_true_eq] at this
  rw [this]
  unfold cntLe
  omega

theorem scoreLt_threshold {sl : Skiplist} (hs : List.Pairwise keyLt (keysOf sl))
    (mn : Int) :
    ∀ q, 1 ≤ q → q ≤ sl.nodes.length →
      ((keyAt sl q).1 < mn ↔ q ≤ cntScoreLt (keysOf sl) mn) := by
  intro q h1 h2
  have := takeWhile_threshold (fun a => decide (a.1 < mn)) (keysOf sl) keyLt hs
    (fun a b hab hb => by
      simp only [decide_eq_true_eq] at hb ⊢
      rcases hab with h | ⟨h, _⟩
      · omega
      · omega) (0, "") (q - 1) (by rw [keysOf_length]; omega)
  rw [keyAt_eq]
  simp only [decide_eq_true_eq] at this
  rw [this]
  unfold cntScoreLt
  omega

theorem keyAt_mem {sl : Skiplist} {q : Nat} (h1 : 1 ≤ q) (h2 : q ≤ sl.nodes.length) :
    keyAt sl q ∈ keysOf sl := by
  rw [keyAt_eq]
  exact nthD_mem _ (by rw [keysOf_length]; omega)

theorem keyAt_inj {sl : Skiplist} (hs : List.Pairwise keyLt (keysOf sl)) {q1 q2 : Nat}
    (h11 : 1 ≤ q1) (h12 : q1 ≤ sl.nodes.length) (h21 : 1 ≤ q2) (h22 : q2 ≤ sl.nodes.length)
    (he : keyAt sl q1 = keyAt sl q2) : q1 = q2 := by
  by_contra hne
  rcases Nat.lt_or_ge q1 q2 with h | h
  · have := sorted_nthD_lt hs (show q1 - 1 < q2 - 1 by omega)
      (by rw [keysOf_length]; omega) ((0 : Int), "")
    rw [← keyAt_eq, ← keyAt_eq, he] at this
    exact keyLt_irrefl _ this
  · have hlt : q2 < q1 := by omega
    have := sorted_nthD_lt hs (show q2 - 1 < q1 - 1 by omega)
      (by rw [keysOf_length]; omega) ((0 : Int), "")
    rw [← keyAt_eq, ← keyAt_eq, he] at this
    exact keyLt_irrefl _ this

theorem mem_keyAt {sl : Skiplist} {k : Int × String} (hk : k ∈ keysOf sl) :
    ∃ q, 1 ≤ q ∧ q ≤ sl.nodes.length ∧ keyAt sl q = k := by
  obtain ⟨i, hi⟩ := List.get_of_mem hk
  have hlen : i.1 < sl.nodes.length := by
    have h2 := i.2
    have h3 := keysOf_length sl
    omega
  refine ⟨i.1 + 1, by omega, by omega, ?_⟩
  rw [keyAt_eq]
  have he : i.1 + 1 - 1 = i.1 := by omega
  rw [he, nthD_eq_get _ i.2, hi]

theorem sorted_present {sl : Skiplist} (hs : List.Pairwise keyLt (keysOf sl))
    {k : Int × String} (hk : k ∈ keysOf sl) :
    cntLt (keysOf sl) k < sl.nodes.length ∧ keyAt sl (cntLt (keysOf sl) k + 1) = k ∧
      cntLe (keysOf sl) k = cntLt (keysOf sl) k + 1 := by
  obtain ⟨q0, hq1, hq2, hq3⟩ := mem_keyAt hk
  have hmle : cntLe (keysOf sl) k ≤ (keysOf sl).length := cntLe_le _ _
  rw [keysOf_length] at hmle
  have hqle : q0 ≤ cntLe (keysOf sl) k := by
    rw [← keyLe_threshold hs k q0 hq1 hq2, hq3]
    exact (keyLe_iff k k).mpr (Or.inr rfl)
  have hqgt : cntLt (keysOf sl) k < q0 := by
    by_contra hle
    have := (keyLt_threshold hs k q0 hq1 hq2).mpr (by omega)
    rw [hq3] at this
    exact keyLt_irrefl k this
  have hLeLt : cntLe (keysOf sl) k ≤ cntLt (keysOf sl) k + 1 := by
    by_contra hgt
    -- then position cntLt + 2 ≤ cntLe also satisfies keyLe, but is neither below k nor k
    have h2 : cntLt (keysOf sl) k + 2 ≤ cntLe (keysOf sl) k := by omega
    have hq0' : q0 ≤ cntLt (keysOf sl) k + 1 := by
      -- both q0 and cntLt+2 are ≤ cntLe; keys at positions > cntLt are not below k;
      -- distinct positions with key = k are impossible
      by_contra hgt2
      have hb : keyLe (keyAt sl (cntLt (keysOf sl) k + 1)) k := by
        rw [keyLe_threshold hs k _ (by omega) (by omega)]
        omega
      rcases (keyLe_iff _ k).mp hb with hlt | heq
      · rw [keyLt_threshold hs k _ (by omega) (by omega)] at hlt
        omega
      · have := keyAt_inj hs (by omega) (by omega) hq1 hq2 (heq.trans hq3.symm)
        omega
    have hb : keyLe (keyAt sl (cntLt (keysOf sl) k + 2)) k := by
      rw [keyLe_threshold hs k _ (by omega) (by omega)]
      omega
    rcases (keyLe_iff _ k).mp hb with hlt | heq
    · rw [keyLt_threshold hs k _ (by omega) (by omega)] at hlt
      omega
    · have := keyAt_inj hs (by omega) (by omega) hq1 hq2 (heq.trans hq3.symm)
      omega
  have hq0 : q0 = cntLt (keysOf sl) k + 1 := by omega
  refine ⟨by omega, ?_, by omega⟩
  rw [← hq0]
  exact hq3

theorem sorted_absent {sl : Skiplist} (hs : List.Pairwise keyLt (keysOf sl))
    {k : Int × String} (hk : k ∉ keysOf sl) :
    cntLe (keysOf sl) k = cntLt (keysOf sl) k ∧
      ∀ q, 1 ≤ q → q ≤ sl.nodes.length → keyAt sl q ≠ k := by
  have hne : ∀ q, 1 ≤ q → q ≤ sl.nodes.length → keyAt sl q ≠ k := by
    intro q h1 h2 he
    exact hk (he ▸ keyAt_mem h1 h2)
  refine ⟨?_, hne⟩
  have h1 : cntLt (keysOf sl) k ≤ cntLe (keysOf sl) k := by
    unfold cntLt cntLe
    have hmono : ∀ l : List (Int × String),
        (l.takeWhile (fun a => decide (keyLt a k))).length ≤
          (l.takeWhile (fun a => decide (keyLe a k))).length := by
      intro l
      induction l with
      | nil => simp
      | cons a t ih =>
        by_cases ha : keyLt a k
        · rw [List.takeWhile_cons_of_pos (by simpa using ha),
            List.takeWhile_cons_of_pos (by
              simp only [decide_eq_true_eq]
              exact (keyLe_iff a k).mpr (Or.inl ha))]
          simpa using ih
        · rw [List.takeWhile_cons_of_neg (by simpa using ha)]
          simp
    exact hmono (keysOf sl)
  have h2 : cntLe (keysOf sl) k ≤ cntLt (keysOf sl) k := by
    by_contra hgt
    have hbl : cntLe (keysOf sl) k ≤ (keysOf sl).length := cntLe_le _ _
    rw [keysOf_length] at hbl
    have hb : keyLe (keyAt sl (cntLt (keysOf sl) k + 1)) k := by
      rw [keyLe_threshold hs k _ (by omega) (by omega)]
      omega
    rcases (keyLe_iff _ k).mp hb with hlt | heq
    · rw [keyLt_threshold hs k _ (by omega) (by omega)] at hlt
      omega
    · exact hne _ (by omega) (by omega) heq
  omega

/-! ### Characterisation of the walks and the level-by-level descent -/

theorem lastL_eq_self {nodes : List SLNode} {i m p : Nat} (hp : p ≤ m)
    (hm : m ≤ nodes.length) (hlv : p = 0 ∨ i < heightAt nodes p)
    (hno : ∀ r, p < r → r ≤ m → ¬ i < heightAt nodes r) : lastL nodes i m = p := by
  have hub : lastL nodes i m ≤ p := by
    by_contra hgt
    rcases lastL_on_level nodes i m with h0 | ⟨h1, h2⟩
    · omega
    · exact hno _ (by omega) (lastL_le nodes i m) h2
  have hlb : p ≤ lastL nodes i m := by
    rcases hlv with h0 | hh
    · omega
    · by_cases hp0 : p = 0
      · omega
      · exact lastL_max (by omega) hp hh
  omega

theorem lastL_top {nodes : List SLNode} {L m : Nat}
    (hh : ∀ n, n ∈ nodes → n.spans.length ≤ L) (hm : m ≤ nodes.length) :
    lastL nodes L m = 0 := by
  induction m with
  | zero => rfl
  | succ k ih =>
    unfold lastL
    rw [if_neg]
    · exact ih (by omega)
    · unfold heightAt
      have := hh (nthD nodes k defNode) (nthD_mem defNode (by omega))
      have he : k + 1 - 1 = k := by omega
      rw [he]
      omega

theorem walkKey_char {sl : Skiplist} (hwf : SLWF sl) (adv : Int × String → Bool) {m : Nat}
    (hm : m ≤ sl.nodes.length)
    (hadv : ∀ q, 1 ≤ q → q ≤ sl.nodes.length → (adv (keyAt sl q) = true ↔ q ≤ m))
    {i : Nat} (hi : i < sl.level) :
    ∀ fuel p, sl.nodes.length < fuel + p → p ≤ m → (p = 0 ∨ i < heightAt sl.nodes p) →
      walkKey sl adv i fuel p p = (lastL sl.nodes i m, lastL sl.nodes i m) := by
  intro fuel
  induction fuel with
  | zero =>
    intro p hf hp hlv
    omega
  | succ f ih =>
    intro p hf hp hlv
    cases hq : fwdPos sl.nodes i p with
    | none =>
      simp only [walkKey, hq]
      have hno := fwdPos_none_elim hq
      rw [lastL_eq_self hp hm hlv (fun r h1 h2 => hno r h1 (by omega))]
    | some q =>
      simp only [walkKey, hq]
      obtain ⟨hq1, hq2, hq3, hq4⟩ := fwdPos_some_elim hq
      by_cases hadvq : adv (keyAt sl q) = true
      · rw [if_pos hadvq]
        have hqm : q ≤ m := (hadv q (by omega) hq2).mp hadvq
        have hcap : i < capAt sl p := by
          unfold capAt
          by_cases h0 : p = 0
          · rw [if_pos h0]; exact hi
          · rw [if_neg h0]
            rcases hlv with h | h
            · omega
            · exact h
        have hspan : spanAt sl p i = q - p := by
          have := hwf.hspan p i (by omega) hcap
          rw [hq] at this
          simpa using this
        rw [hspan]
        have he : p + (q - p) = q := by omega
        rw [he]
        exact ih q (by omega) hqm (Or.inr hq3)
      · rw [if_neg hadvq]
        have hqm : ¬ q ≤ m := fun hle => hadvq ((hadv q (by omega) hq2).mpr hle)
        rw [lastL_eq_self hp hm hlv (fun r h1 h2 => hq4 r h1 (by omega))]

theorem descend_succ (sl : Skiplist) (adv : Int × String → Bool) (i p r : Nat) :
    descend sl adv (i + 1) p r =
      descend sl adv i (walkKey sl adv i (sl.nodes.length + 1) p r).1
        (walkKey sl adv i (sl.nodes.length + 1) p r).2 ++
        [walkKey sl adv i (sl.nodes.length + 1) p r] := rfl

theorem descend_char {sl : Skiplist} (hwf : SLWF sl) (adv : Int × String → Bool) {m : Nat}
    (hm : m ≤ sl.nodes.length)
    (hadv : ∀ q, 1 ≤ q → q ≤ sl.nodes.length → (adv (keyAt sl q) = true ↔ q ≤ m)) :
    ∀ i, i ≤ sl.level →
      (descend sl adv i (lastL sl.nodes i m) (lastL sl.nodes i m)).length = i ∧
      ∀ j, j < i → nthD (descend sl adv i (lastL sl.nodes i m) (lastL sl.nodes i m)) j (0, 0)
        = (lastL sl.nodes j m, lastL sl.nodes j m) := by
  intro i
  induction i with
  | zero => exact fun _ => ⟨rfl, fun j hj => by omega⟩
  | succ i ih =>
    intro hle
    rw [descend_succ]
    have hwalk : walkKey sl adv i (sl.nodes.length + 1)
        (lastL sl.nodes (i + 1) m) (lastL sl.nodes (i + 1) m)
        = (lastL sl.nodes i m, lastL sl.nodes i m) := by
      apply walkKey_char hwf adv hm hadv (by omega) (sl.nodes.length + 1)
        (lastL sl.nodes (i + 1) m) (by omega) (lastL_le sl.nodes (i + 1) m)
      rcases lastL_on_level sl.nodes (i + 1) m with h | ⟨h1, h2⟩
      · exact Or.inl h
      · exact Or.inr (by omega)
    rw [hwalk]
    obtain ⟨ihlen, ihnth⟩ := ih (by omega)
    constructor
    · rw [List.length_append, ihlen]
      simp
    · intro j hj
      rcases Nat.lt_or_ge j i with h | h
      · rw [nthD_append_lt _ _ (by rw [ihlen]; exact h)]
        exact ihnth j h
      · have hji : j = i := by omega
        subst hji
        rw [nthD_append_ge _ _ (by rw [ihlen])]
        rw [ihlen]
        simp [nthD]

theorem descend_top {sl : Skiplist} (hwf : SLWF sl) (adv : Int × String → Bool) {m : Nat}
    (hm : m ≤ sl.nodes.length)
    (hadv : ∀ q, 1 ≤ q → q ≤ sl.nodes.length → (adv (keyAt sl q) = true ↔ q ≤ m)) :
    (descend sl adv sl.level 0 0).length = sl.level ∧
    ∀ j, j < sl.level → nthD (descend sl adv sl.level 0 0) j (0, 0)
      = (lastL sl.nodes j m, lastL sl.nodes j m) := by
  have h0 : lastL sl.nodes sl.level m = 0 :=
    lastL_top (fun n hn => (hwf.hhts n hn).2) hm
  have := descend_char hwf adv hm hadv sl.level (le_refl _)
  rwa [h0] at this

/-! ### Surgery lemmas: how insertion points, heights and keys shift -/

theorem nthD_replicate {α : Type} (c t : Nat) (a : α) : nthD (List.replicate c a) t a = a := by
  induction c generalizing t with
  | zero => cases t <;> rfl
  | succ n ih => cases t with
    | zero => rfl
    | succ s => exact ih s

theorem nthD_map_range {α : Type} (f : Nat → α) (c i : Nat) (d : α) (h : i < c) :
    nthD ((List.range c).map f) i d = f i := by
  rw [nthD_eq_get _ (by simpa using h)]
  simp

theorem foldl_setAt_length (v : Nat) (L : List Nat) : ∀ (hs : List Nat),
    (L.foldl (fun h i => setAt h i v) hs).length = hs.length := by
  induction L with
  | nil => intro hs; rfl
  | cons a t ih =>
    intro hs
    rw [List.foldl_cons, ih, length_setAt]

theorem foldl_setAt_nthD (v : Nat) : ∀ (c a : Nat) (hs : List Nat) (j : Nat),
    nthD ((List.range' a c).foldl (fun h i => setAt h i v) hs) j 0 =
      if a ≤ j ∧ j < a + c ∧ j < hs.length then v else nthD hs j 0 := by
  intro c
  induction c with
  | zero =>
    intro a hs j
    rw [if_neg (by omega)]
    rfl
  | succ n ih =>
    intro a hs j
    rw [List.range'_succ, List.foldl_cons, ih]
    by_cases hja : j = a
    · subst hja
      by_cases hin : j < hs.length
      · rw [if_neg (by omega), if_pos ⟨le_refl j, by omega, hin⟩]
        exact nthD_setAt_self v 0 hin
      · rw [if_neg (by rw [length_setAt]; omega), if_neg (by omega)]
        rw [setAt_oob _ (by omega)]
    · rw [length_setAt]
      by_cases hcond : a ≤ j ∧ j < a + (n + 1) ∧ j < hs.length
      · rw [if_pos (by omega : a + 1 ≤ j ∧ j < a + 1 + n ∧ j < hs.length), if_pos hcond]
      · rw [if_neg (by omega), if_neg hcond]
        exact nthD_setAt_ne v 0 (fun he => hja he)

theorem raiseHeader_nodes (sl : Skiplist) (lvl : Nat) : (raiseHeader sl lvl).nodes = sl.nodes :=
  rfl

theorem raiseHeader_level (sl : Skiplist) (lvl : Nat) : (raiseHeader sl lvl).level = lvl := rfl

theorem raiseHeader_length (sl : Skiplist) (lvl : Nat) :
    (raiseHeader sl lvl).length = sl.length := rfl

theorem raiseHeader_hdrLen (sl : Skiplist) (lvl : Nat) :
    (raiseHeader sl lvl).headerSpans.length = sl.headerSpans.length :=
  foldl_setAt_length _ _ _

theorem raiseHeader_hdrSpan (sl : Skiplist) (lvl j : Nat) :
    spanAt (raiseHeader sl lvl) 0 j =
      if sl.level ≤ j ∧ j < lvl ∧ j < sl.headerSpans.length then sl.length
      else spanAt sl 0 j := by
  have h0 : spanAt (raiseHeader sl lvl) 0 j =
      nthD ((List.range' sl.level (lvl - sl.level)).foldl
        (fun hs i => setAt hs i sl.length) sl.headerSpans) j 0 := rfl
  have h1 : spanAt sl 0 j = nthD sl.headerSpans j 0 := rfl
  rw [h0, h1, foldl_setAt_nthD]
  by_cases h : sl.level ≤ j ∧ j < sl.level + (lvl - sl.level) ∧ j < sl.headerSpans.length
  · rw [if_pos h,
      if_pos (show sl.level ≤ j ∧ j < lvl ∧ j < sl.headerSpans.length by omega)]
  · rw [if_neg h,
      if_neg (show ¬ (sl.level ≤ j ∧ j < lvl ∧ j < sl.headerSpans.length) by omega)]

theorem raiseHeader_nodeSpan (sl : Skiplist) (lvl : Nat) {p : Nat} (hp : 1 ≤ p) (j : Nat) :
    spanAt (raiseHeader sl lvl) p j = spanAt sl p j := by
  unfold spanAt
  rw [if_neg (by omega : ¬ p = 0), if_neg (by omega : ¬ p = 0)]
  rfl

theorem heightAt_insAt {nodes : List SLNode} {m : Nat} (nd : SLNode) (hm : m ≤ nodes.length)
    {r : Nat} (hr : 1 ≤ r) :
    heightAt (insAt m nd nodes) r =
      if r ≤ m then heightAt nodes r
      else if r = m + 1 then nd.spans.length else heightAt nodes (r - 1) := by
  unfold heightAt
  by_cases h1 : r ≤ m
  · rw [if_pos h1, nthD_insAt_lt _ _ (by omega) hm]
  · rw [if_neg h1]
    by_cases h2 : r = m + 1
    · rw [if_pos h2, h2]
      have he : m + 1 - 1 = m := by omega
      rw [he, nthD_insAt_self _ _ hm]
    · rw [if_neg h2, nthD_insAt_gt _ _ (by omega)]

theorem keyAtRes_insAt {sl res : Skiplist} {m : Nat} {nd : SLNode}
    (hres : res.nodes = insAt m nd sl.nodes) (hm : m ≤ sl.nodes.length) {r : Nat} (hr : 1 ≤ r) :
    keyAt res r =
      if r ≤ m then keyAt sl r
      else if r = m + 1 then (nd.score, nd.ele) else keyAt sl (r - 1) := by
  unfold keyAt nodeAt
  rw [hres]
  by_cases h1 : r ≤ m
  · rw [if_pos h1, nthD_insAt_lt _ _ (by omega) hm]
  · rw [if_neg h1]
    by_cases h2 : r = m + 1
    · rw [if_pos h2, h2]
      have he : m + 1 - 1 = m := by omega
      rw [he, nthD_insAt_self _ _ hm]
    · rw [if_neg h2, nthD_insAt_gt _ _ (by omega)]

theorem fwdPos_insAt_le {nodes : List SLNode} {nd : SLNode} {m j p q : Nat}
    (hm : m ≤ nodes.length) (hp : p ≤ m) (hq : fwdPos nodes j p = some q) (hqm : q ≤ m) :
    fwdPos (insAt m nd nodes) j p = some q := by
  obtain ⟨h1, h2, h3, h4⟩ := fwdPos_some_elim hq
  apply fwdPos_some_intro h1 (by rw [length_insAt nd hm]; omega)
  · rw [heightAt_insAt nd hm (by omega), if_pos hqm]
    exact h3
  · intro r hr1 hr2
    rw [heightAt_insAt nd hm (by omega), if_pos (by omega)]
    exact h4 r hr1 hr2

theorem fwdPos_insAt_new {nodes : List SLNode} {nd : SLNode} {m j p : Nat}
    (hm : m ≤ nodes.length) (hp : p ≤ m) (hj : j < nd.spans.length)
    (hbet : ∀ r, p < r → r ≤ m → ¬ j < heightAt nodes r) :
    fwdPos (insAt m nd nodes) j p = some (m + 1) := by
  apply fwdPos_some_intro (by omega) (by rw [length_insAt nd hm]; omega)
  · rw [heightAt_insAt nd hm (by omega), if_neg (by omega), if_pos rfl]
    exact hj
  · intro r hr1 hr2
    rw [heightAt_insAt nd hm (by omega), if_pos (by omega)]
    exact hbet r hr1 (by omega)

theorem fwdPos_insAt_over {nodes : List SLNode} {nd : SLNode} {m j p : Nat}
    (hm : m ≤ nodes.length) (hp : p ≤ m) (hj : ¬ j < nd.spans.length)
    (hbet : ∀ r, p < r → r ≤ m → ¬ j < heightAt nodes r) :
    fwdPos (insAt m nd nodes) j p = (fwdPos nodes j p).map (· + 1) := by
  cases hq : fwdPos nodes j p with
  | none =>
    show fwdPos (insAt m nd nodes) j p = none
    apply fwdPos_none_intro
    intro r hr1 hr2
    rw [length_insAt nd hm] at hr2
    rw [heightAt_insAt nd hm (by omega)]
    by_cases h1 : r ≤ m
    · rw [if_pos h1]
      exact hbet r hr1 h1
    · by_cases h2 : r = m + 1
      · rw [if_neg h1, if_pos h2]
        exact hj
      · rw [if_neg h1, if_neg h2]
        exact fwdPos_none_elim hq (r - 1) (by omega) (by omega)
  | some q =>
    obtain ⟨h1, h2, h3, h4⟩ := fwdPos_some_elim hq
    have hqm : m < q := by
      by_contra hle
      exact hbet q h1 (by omega) h3
    show fwdPos (insAt m nd nodes) j p = some (q + 1)
    apply fwdPos_some_intro (by omega) (by rw [length_insAt nd hm]; omega)
    · rw [heightAt_insAt nd hm (by omega), if_neg (by omega), if_neg (by omega)]
      have he : q + 1 - 1 = q := by omega
      rw [he]
      exact h3
    · intro r hr1 hr2
      rw [heightAt_insAt nd hm (by omega)]
      by_cases hc1 : r ≤ m
      · rw [if_pos hc1]
        exact hbet r hr1 hc1
      · by_cases hc2 : r = m + 1
        · rw [if_neg hc1, if_pos hc2]
          exact hj
        · rw [if_neg hc1, if_neg hc2]
          exact h4 (r - 1) (by omega) (by omega)

theorem fwdPos_insAt_shift {nodes : List SLNode} {nd : SLNode} {m j p0 : Nat}
    (hm : m ≤ nodes.length) (hp : m ≤ p0) :
    fwdPos (insAt m nd nodes) j (p0 + 1) = (fwdPos nodes j p0).map (· + 1) := by
  cases hq : fwdPos nodes j p0 with
  | none =>
    show fwdPos (insAt m nd nodes) j (p0 + 1) = none
    apply fwdPos_none_intro
    intro r hr1 hr2
    rw [length_insAt nd hm] at hr2
    rw [heightAt_insAt nd hm (by omega), if_neg (by omega), if_neg (by omega)]
    exact fwdPos_none_elim hq (r - 1) (by omega) (by omega)
  | some q =>
    obtain ⟨h1, h2, h3, h4⟩ := fwdPos_some_elim hq
    show fwdPos (insAt m nd nodes) j (p0 + 1) = some (q + 1)
    apply fwdPos_some_intro (by omega) (by rw [length_insAt nd hm]; omega)
    · rw [heightAt_insAt nd hm (by omega), if_neg (by omega), if_neg (by omega)]
      have he : q + 1 - 1 = q := by omega
      rw [he]
      exact h3
    · intro r hr1 hr2
      rw [heightAt_insAt nd hm (by omega), if_neg (by omega), if_neg (by omega)]
      exact h4 (r - 1) (by omega) (by omega)

theorem keysOf_ext {s1 s2 : Skiplist} (hlen : s1.nodes.length = s2.nodes.length)
    (hk : ∀ r, keyAt s1 r = keyAt s2 r) : keysOf s1 = keysOf s2 := by
  apply List.ext_get (by rw [keysOf_length, keysOf_length, hlen])
  intro n h1 h2
  rw [← nthD_eq_get ((0 : Int), "") h1, ← nthD_eq_get ((0 : Int), "") h2]
  have e1 := keyAt_eq s1 (n + 1)
  have e2 := keyAt_eq s2 (n + 1)
  simp only [Nat.add_sub_cancel] at e1 e2
  rw [← e1, ← e2]
  exact hk (n + 1)

theorem pairwise_insAt {ks : List (Int × String)} {k : Int × String} {m : Nat}
    (hs : List.Pairwise keyLt ks) (hm : m ≤ ks.length)
    (hlt : ∀ j, j < m → keyLt (nthD ks j (0, "")) k)
    (hgt : ∀ j, m ≤ j → j < ks.length → keyLt k (nthD ks j (0, ""))) :
    List.Pairwise keyLt (insAt m k ks) := by
  rw [List.pairwise_iff_get]
  intro i j hij
  have hlen : (insAt m k ks).length = ks.length + 1 := length_insAt k hm
  have hi2 := i.2
  have hj2 := j.2
  rw [← nthD_eq_get ((0 : Int), "") i.2, ← nthD_eq_get ((0 : Int), "") j.2]
  have hij2 : i.1 < j.1 := hij
  have hjb : j.1 < ks.length + 1 := by rw [← hlen]; exact j.2
  by_cases hi : i.1 < m
  · have e1 : nthD (insAt m k ks) i.1 (0, "") = nthD ks i.1 (0, "") :=
      nthD_insAt_lt _ _ hi hm
    rw [e1]
    by_cases hj : j.1 < m
    · have e2 : nthD (insAt m k ks) j.1 (0, "") = nthD ks j.1 (0, "") :=
        nthD_insAt_lt _ _ hj hm
      rw [e2]
      exact sorted_nthD_lt hs hij2 (by omega) _
    · by_cases hjm : j.1 = m
      · have e2 : nthD (insAt m k ks) j.1 (0, "") = k := by
          rw [hjm]
          exact nthD_insAt_self _ _ hm
        rw [e2]
        exact hlt i.1 hi
      · have e2 : nthD (insAt m k ks) j.1 (0, "") = nthD ks (j.1 - 1) (0, "") :=
          nthD_insAt_gt _ _ (by omega)
        rw [e2]
        exact sorted_nthD_lt hs (by omega) (by omega) _
  · by_cases him : i.1 = m
    · have e1 : nthD (insAt m k ks) i.1 (0, "") = k := by
        rw [him]
        exact nthD_insAt_self _ _ hm
      have e2 : nthD (insAt m k ks) j.1 (0, "") = nthD ks (j.1 - 1) (0, "") :=
        nthD_insAt_gt _ _ (by omega)
      rw [e1, e2]
      exact hgt (j.1 - 1) (by omega) (by omega)
    · have e1 : nthD (insAt m k ks) i.1 (0, "") = nthD ks (i.1 - 1) (0, "") :=
        nthD_insAt_gt _ _ (by omega)
      have e2 : nthD (insAt m k ks) j.1 (0, "") = nthD ks (j.1 - 1) (0, "") :=
        nthD_insAt_gt _ _ (by omega)
      rw [e1, e2]
      exact sorted_nthD_lt hs (by omega) (by omega) _

theorem mem_heights {nodes : List SLNode} {n : SLNode} (h : n ∈ nodes) :
    ∃ r, 1 ≤ r ∧ r ≤ nodes.length ∧ heightAt nodes r = n.spans.length := by
  obtain ⟨i, hi⟩ := List.get_of_mem h
  refine ⟨i.1 + 1, by omega, by have := i.2; omega, ?_⟩
  unfold heightAt
  have he : i.1 + 1 - 1 = i.1 := by omega
  rw [he, nthD_eq_get _ i.2, hi]

theorem heights_mem {nodes : List SLNode} {r : Nat} (h1 : 1 ≤ r) (h2 : r ≤ nodes.length) :
    ∃ n, n ∈ nodes ∧ n.spans.length = heightAt nodes r :=
  ⟨nthD nodes (r - 1) defNode, nthD_mem defNode (by omega), rfl⟩

theorem optGetD_some (q d : Nat) : (some q : Option Nat).getD d = q := rfl

theorem optGetD_none (d : Nat) : (none : Option Nat).getD d = d := rfl

theorem optMapGetD_some (f : Nat → Nat) (q d : Nat) :
    (Option.map f (some q : Option Nat)).getD d = f q := rfl

theorem optMapGetD_none (f : Nat → Nat) (d : Nat) :
    (Option.map f (none : Option Nat)).getD d = d := rfl

/-! ### `insert` preserves well-formedness and inserts at the sorted position -/

theorem slInsert_spec {sl : Skiplist} (hwf : SLWF sl) {lvl : Nat} (hl1 : 1 ≤ lvl)
    (hl32 : lvl ≤ 32) {score : Int} {ele : String}
    (habs : (score, ele) ∉ keysOf sl) :
    SLWF (slInsert sl lvl score ele) ∧
    keysOf (slInsert sl lvl score ele)
      = insAt (cntLt (keysOf sl) (score, ele)) (score, ele) (keysOf sl) ∧
    (slInsert sl lvl score ele).level = max sl.level lvl ∧
    (slInsert sl lvl score ele).length = sl.length + 1 ∧
    (slInsert sl lvl score ele).nodes.length = sl.nodes.length + 1 := by
  have hmlen : cntLt (keysOf sl) (score, ele) ≤ sl.nodes.length := by
    have h := cntLt_le (keysOf sl) (score, ele)
    rw [keysOf_length] at h
    exact h
  set m := cntLt (keysOf sl) (score, ele) with hmdef
  have h1le : ∀ n, n ∈ sl.nodes → 1 ≤ n.spans.length := fun n hn => (hwf.hhts n hn).1
  have hadv : ∀ q, 1 ≤ q → q ≤ sl.nodes.length →
      (advLt score ele (keyAt sl q) = true ↔ q ≤ m) := by
    intro q h1 h2
    unfold advLt
    rw [decide_eq_true_eq]
    exact keyLt_threshold hwf.hsort (score, ele) q h1 h2
  obtain ⟨hurlen, hurnth⟩ := descend_top hwf (advLt score ele) hmlen hadv
  set ur := descend sl (advLt score ele) sl.level 0 0 with hurdef
  set rank0 := (nthD ur 0 (0, 0)).2 with hrank0def
  have hrank0 : rank0 = m := by
    rw [hrank0def, hurnth 0 (by have := hwf.hlvl1; omega)]
    exact lastL_level_zero h1le hmlen
  set sl1 := if sl.level < lvl then raiseHeader sl lvl else sl with hsl1def
  set ur1 := ur ++ List.replicate (lvl - sl.level) (0, 0) with hur1def
  have hur1 : ∀ j, j < max sl.level lvl →
      nthD ur1 j (0, 0) = (lastL sl.nodes j m, lastL sl.nodes j m) := by
    intro j hj
    rw [hur1def]
    by_cases hjl : j < sl.level
    · rw [nthD_append_lt _ _ (by rw [hurlen]; exact hjl)]
      exact hurnth j hjl
    · rw [nthD_append_ge _ _ (by rw [hurlen]; omega), nthD_replicate]
      have h0 : lastL sl.nodes j m = 0 :=
        lastL_top (fun n hn => le_trans (hwf.hhts n hn).2 (by omega)) hmlen
      rw [h0]
  have hsl1nodes : sl1.nodes = sl.nodes := by
    rw [hsl1def]
    by_cases h : sl.level < lvl
    · rw [if_pos h, raiseHeader_nodes]
    · rw [if_neg h]
  have hsl1level : sl1.level = max sl.level lvl := by
    rw [hsl1def]
    by_cases h : sl.level < lvl
    · rw [if_pos h, raiseHeader_level]
      omega
    · rw [if_neg h]
      omega
  have hmax32 : max sl.level lvl ≤ 32 := max_le hwf.hlvl32 hl32
  have hmax1 : 1 ≤ max sl.level lvl := le_trans hwf.hlvl1 (le_max_left _ _)
  have hsl1len : sl1.length = sl.length := by
    rw [hsl1def]
    by_cases h : sl.level < lvl
    · rw [if_pos h, raiseHeader_length]
    · rw [if_neg h]
  have hsl1hdr : sl1.headerSpans.length = 32 := by
    rw [hsl1def]
    by_cases h : sl.level < lvl
    · rw [if_pos h, raiseHeader_hdrLen, hwf.hhdr]
    · rw [if_neg h, hwf.hhdr]
  have hsl1span_node : ∀ p j, 1 ≤ p → spanAt sl1 p j = spanAt sl p j := by
    intro p j hp
    rw [hsl1def]
    by_cases h : sl.level < lvl
    · rw [if_pos h, raiseHeader_nodeSpan sl lvl hp]
    · rw [if_neg h]
  have hsl1span_hdr : ∀ j, j < sl.level → spanAt sl1 0 j = spanAt sl 0 j := by
    intro j hj
    rw [hsl1def]
    by_cases h : sl.level < lvl
    · rw [if_pos h, raiseHeader_hdrSpan, if_neg (by omega)]
    · rw [if_neg h]
  have hsl1span_raised : ∀ j, sl.level ≤ j → j < lvl → spanAt sl1 0 j = sl.nodes.length := by
    intro j h1 h2
    rw [hsl1def, if_pos (by omega), raiseHeader_hdrSpan,
      if_pos ⟨h1, h2, by rw [hwf.hhdr]; omega⟩, hwf.hlen]
  have hQnone : ∀ j, sl.level ≤ j → fwdPos sl.nodes j m = none := by
    intro j hj
    apply fwdPos_none_intro
    intro r h1 h2
    obtain ⟨n2, hn2, hh⟩ := heights_mem (by omega : 1 ≤ r) h2
    have := (hwf.hhts n2 hn2).2
    omega
  have hlastcap : ∀ j, j < sl.level → j < capAt sl (lastL sl.nodes j m) := by
    intro j hjl
    unfold capAt
    rcases lastL_on_level sl.nodes j m with h0 | ⟨h1, h2⟩
    · rw [h0, if_pos rfl]
      exact hjl
    · rw [if_neg (by omega)]
      exact h2
  have hF2 : ∀ j, j < max sl.level lvl →
      spanAt sl1 (lastL sl.nodes j m) j
        = (fwdPos sl.nodes j m).getD sl.nodes.length - lastL sl.nodes j m := by
    intro j hj
    by_cases hjl : j < sl.level
    · have hspan := hwf.hspan (lastL sl.nodes j m) j
        (le_trans (lastL_le _ _ _) hmlen) (hlastcap j hjl)
      rw [lastL_fwd] at hspan
      rcases lastL_on_level sl.nodes j m with h0 | ⟨h1, h2⟩
      · rw [h0] at hspan ⊢
        rw [hsl1span_hdr j hjl]
        exact hspan
      · rw [hsl1span_node _ j (by omega)]
        exact hspan
    · have hu0 : lastL sl.nodes j m = 0 :=
        lastL_top (fun n hn => le_trans (hwf.hhts n hn).2 (by omega)) hmlen
      rw [hu0, hQnone j (by omega), hsl1span_raised j (by omega) (by omega)]
      simp
  set nd := (⟨ele, score, (List.range lvl).map (fun i =>
      spanAt sl1 (nthD ur1 i (0, 0)).1 i - (rank0 - (nthD ur1 i (0, 0)).2))⟩ : SLNode)
    with hnddef
  set sl2 := (List.range lvl).foldl
      (fun s i => setSpan s (nthD ur1 i (0, 0)).1 i (rank0 - (nthD ur1 i (0, 0)).2 + 1)) sl1
    with hsl2def
  set sl3 := (List.range' lvl (sl1.level - lvl)).foldl
      (fun s i => setSpan s (nthD ur1 i (0, 0)).1 i (spanAt s (nthD ur1 i (0, 0)).1 i + 1)) sl2
    with hsl3def
  have hres : slInsert sl lvl score ele
      = ⟨sl3.headerSpans, insAt rank0 nd sl3.nodes, sl3.level, sl3.length + 1⟩ := rfl
  have hsplice := foldl_setSpan_generic (List.range lvl) sl1
    (fun i => (nthD ur1 i (0, 0)).1) (fun s i => rank0 - (nthD ur1 i (0, 0)).2 + 1)
    (List.nodup_range lvl) (fun s j hj hsk hsp => rfl)
  have hsl2eq : (List.range lvl).foldl
      (fun s i => setSpan s ((fun i => (nthD ur1 i (0, 0)).1) i) i
        ((fun (s : Skiplist) i => rank0 - (nthD ur1 i (0, 0)).2 + 1) s i)) sl1 = sl2 := by
    rw [hsl2def]
  obtain ⟨hskel2, hspan2⟩ := hsplice
  rw [hsl2eq] at hskel2 hspan2
  beta_reduce at hspan2
  have hbump := foldl_setSpan_generic (List.range' lvl (sl1.level - lvl)) sl2
    (fun i => (nthD ur1 i (0, 0)).1) (fun s i => spanAt s (nthD ur1 i (0, 0)).1 i + 1)
    (List.nodup_range' _ _)
    (fun s j hj hsk hsp => by
      show spanAt s (nthD ur1 j (0, 0)).1 j + 1 = spanAt sl2 (nthD ur1 j (0, 0)).1 j + 1
      rw [hsp ((nthD ur1 j (0, 0)).1)])
  have hsl3eq : (List.range' lvl (sl1.level - lvl)).foldl
      (fun s i => setSpan s ((fun i => (nthD ur1 i (0, 0)).1) i) i
        ((fun (s : Skiplist) i => spanAt s (nthD ur1 i (0, 0)).1 i + 1) s i)) sl2 = sl3 := by
    rw [hsl3def]
  obtain ⟨hskel3, hspan3⟩ := hbump
  rw [hsl3eq] at hskel3 hspan3
  beta_reduce at hspan3
  have hskel31 : SkelEq sl3 sl1 := SkelEq_trans hskel3 hskel2
  have hh3 : ∀ r, heightAt sl3.nodes r = heightAt sl.nodes r := by
    intro r
    rw [hskel31.2.2.2.2.1 r, hsl1nodes]
  have hlen3 : sl3.nodes.length = sl.nodes.length := by
    rw [hskel31.1, hsl1nodes]
  have hkey3 : ∀ r, keyAt sl3 r = keyAt sl r := by
    intro r
    rw [hskel31.2.2.2.2.2 r]
    unfold keyAt nodeAt
    rw [hsl1nodes]
  have hlevel3 : sl3.level = max sl.level lvl := by
    rw [hskel31.2.2.1, hsl1level]
  have hlength3 : sl3.length = sl.length := by
    rw [hskel31.2.2.2.1, hsl1len]
  have hhdr3 : sl3.headerSpans.length = 32 := by
    rw [hskel31.2.1, hsl1hdr]
  have hfwd3 : ∀ j p, fwdPos sl3.nodes j p = fwdPos sl.nodes j p := by
    intro j p
    exact fwdPos_ext hlen3 (fun r _ _ => hh3 r) j p
  -- span values of sl3 at the three kinds of cells
  have hmem_range' : ∀ j, j ∈ List.range' lvl (sl1.level - lvl) ↔ lvl ≤ j ∧ j < sl1.level := by
    intro j
    rw [List.mem_range'_1]
    omega
  have hF5 : ∀ p j, ¬ (j < max sl.level lvl ∧ p = lastL sl.nodes j m) →
      spanAt sl3 p j = spanAt sl1 p j := by
    intro p j hc
    rw [hspan3 p j, hspan2 p j]
    by_cases hj : j < max sl.level lvl
    · have hne : ¬ p = (nthD ur1 j (0, 0)).1 := by
        rw [hur1 j hj]
        intro he
        exact hc ⟨hj, he⟩
      rw [if_neg (fun hcc => hne hcc.2), if_neg (fun hcc => hne hcc.2)]
    · have hnm1 : ¬ j ∈ List.range' lvl (sl1.level - lvl) := by
        rw [hmem_range', hsl1level]
        omega
      have hnm2 : ¬ j ∈ List.range lvl := by
        rw [List.mem_range]
        omega
      rw [if_neg (fun hcc => hnm1 hcc.1), if_neg (fun hcc => hnm2 hcc.1)]
  have hF3 : ∀ j, j < lvl →
      spanAt sl3 (lastL sl.nodes j m) j = m - lastL sl.nodes j m + 1 := by
    intro j hj
    have hju : j < max sl.level lvl := by omega
    have hnm1 : ¬ j ∈ List.range' lvl (sl1.level - lvl) := by
      rw [hmem_range']
      omega
    have h3 : spanAt sl3 (lastL sl.nodes j m) j = spanAt sl2 (lastL sl.nodes j m) j := by
      rw [hspan3]
      rw [if_neg (fun hcc => hnm1 hcc.1)]
    rw [h3, hspan2, hur1 j hju]
    rw [if_pos ⟨List.mem_range.mpr hj, rfl⟩]
    show spanAt (setSpan sl1 (lastL sl.nodes j m) j (rank0 - lastL sl.nodes j m + 1))
      (lastL sl.nodes j m) j = m - lastL sl.nodes j m + 1
    rcases lastL_on_level sl.nodes j m with h0 | ⟨h1, h2⟩
    · rw [h0]
      have hv : spanAt (setSpan sl1 0 j (rank0 - 0 + 1)) 0 j = rank0 - 0 + 1 :=
        spanAt_setSpan_hdr (by rw [hsl1hdr]; omega)
      rw [hv, hrank0]
    · have hv : spanAt (setSpan sl1 (lastL sl.nodes j m) j (rank0 - lastL sl.nodes j m + 1))
          (lastL sl.nodes j m) j = rank0 - lastL sl.nodes j m + 1 :=
        spanAt_setSpan_node h1 (by rw [hsl1nodes]; exact le_trans (lastL_le _ _ _) hmlen)
          (by rw [show heightAt sl1.nodes (lastL sl.nodes j m)
                = heightAt sl.nodes (lastL sl.nodes j m) by rw [hsl1nodes]]
              exact h2)
      rw [hv, hrank0]
  have hF4 : ∀ j, lvl ≤ j → j < sl1.level →
      spanAt sl3 (lastL sl.nodes j m) j
        = (fwdPos sl.nodes j m).getD sl.nodes.length - lastL sl.nodes j m + 1 := by
    intro j hj1 hj2
    have hju : j < max sl.level lvl := by rw [← hsl1level]; omega
    rw [hspan3, hur1 j hju]
    rw [if_pos ⟨(hmem_range' j).mpr ⟨hj1, hj2⟩, rfl⟩]
    show spanAt (setSpan sl2 (lastL sl.nodes j m) j (spanAt sl2 (lastL sl.nodes j m) j + 1))
      (lastL sl.nodes j m) j
      = (fwdPos sl.nodes j m).getD sl.nodes.length - lastL sl.nodes j m + 1
    have hsp2u : spanAt sl2 (lastL sl.nodes j m) j
        = (fwdPos sl.nodes j m).getD sl.nodes.length - lastL sl.nodes j m := by
      rw [hspan2]
      have hnm2 : ¬ j ∈ List.range lvl := by
        rw [List.mem_range]
        omega
      rw [if_neg (fun hcc => hnm2 hcc.1)]
      exact hF2 j hju
    rcases lastL_on_level sl.nodes j m with h0 | ⟨h1, h2⟩
    · rw [h0] at hsp2u ⊢
      have heq : spanAt (setSpan sl2 0 j (spanAt sl2 0 j + 1)) 0 j = spanAt sl2 0 j + 1 :=
        spanAt_setSpan_hdr (by
          rw [hskel2.2.1, hsl1hdr]
          exact lt_of_lt_of_le hju hmax32)
      rw [heq, hsp2u]
    · have heq : spanAt (setSpan sl2 (lastL sl.nodes j m) j
          (spanAt sl2 (lastL sl.nodes j m) j + 1)) (lastL sl.nodes j m) j
          = spanAt sl2 (lastL sl.nodes j m) j + 1 :=
        spanAt_setSpan_node h1
          (by rw [hskel2.1, hsl1nodes]; exact le_trans (lastL_le _ _ _) hmlen)
          (by rw [hskel2.2.2.2.2.1 (lastL sl.nodes j m)]
              rw [show heightAt sl1.nodes (lastL sl.nodes j m)
                  = heightAt sl.nodes (lastL sl.nodes j m) by rw [hsl1nodes]]
              exact h2)
      rw [heq, hsp2u]
  have hndspanlen : nd.spans.length = lvl := by
    rw [hnddef]
    simp
  have hndspans : ∀ j, j < lvl → nthD nd.spans j 0
      = spanAt sl1 (lastL sl.nodes j m) j - (m - lastL sl.nodes j m) := by
    intro j hj
    rw [hnddef]
    have hju : j < max sl.level lvl := by omega
    show nthD ((List.range lvl).map (fun i =>
      spanAt sl1 (nthD ur1 i (0, 0)).1 i - (rank0 - (nthD ur1 i (0, 0)).2))) j 0
      = spanAt sl1 (lastL sl.nodes j m) j - (m - lastL sl.nodes j m)
    rw [nthD_map_range _ _ _ _ hj, hur1 j hju, hrank0]
  -- the assembled state
  set res := slInsert sl lvl score ele with hresdef
  have hresnodes : res.nodes = insAt m nd sl3.nodes := by
    rw [hres]
    show insAt rank0 nd sl3.nodes = insAt m nd sl3.nodes
    rw [hrank0]
  have hreshdr : res.headerSpans = sl3.headerSpans := by rw [hres]
  have hreslevel : res.level = max sl.level lvl := by
    rw [hres]
    exact hlevel3
  have hreslength : res.length = sl.length + 1 := by
    rw [hres]
    show sl3.length + 1 = sl.length + 1
    rw [hlength3]
  have hmlen3 : m ≤ sl3.nodes.length := by rw [hlen3]; exact hmlen
  have hresnlen : res.nodes.length = sl.nodes.length + 1 := by
    rw [hresnodes, length_insAt nd hmlen3, hlen3]
  have hresheight : ∀ r, 1 ≤ r → heightAt res.nodes r =
      if r ≤ m then heightAt sl.nodes r
      else if r = m + 1 then lvl else heightAt sl.nodes (r - 1) := by
    intro r hr
    rw [hresnodes, heightAt_insAt nd hmlen3 hr, hndspanlen]
    by_cases h1 : r ≤ m
    · rw [if_pos h1, if_pos h1, hh3]
    · rw [if_neg h1, if_neg h1]
      by_cases h2 : r = m + 1
      · rw [if_pos h2, if_pos h2]
      · rw [if_neg h2, if_neg h2, hh3]
  have hreskey : ∀ r, 1 ≤ r → keyAt res r =
      if r ≤ m then keyAt sl r
      else if r = m + 1 then (score, ele) else keyAt sl (r - 1) := by
    intro r hr
    rw [keyAtRes_insAt hresnodes hmlen3 hr]
    by_cases h1 : r ≤ m
    · rw [if_pos h1, if_pos h1, hkey3]
    · rw [if_neg h1, if_neg h1]
      by_cases h2 : r = m + 1
      · rw [if_pos h2, if_pos h2, hnddef]
      · rw [if_neg h2, if_neg h2, hkey3]
  have hresspan0 : ∀ p j, p = 0 ∨ (1 ≤ p ∧ p ≤ m) → spanAt res p j = spanAt sl3 p j := by
    intro p j hp
    rcases hp with hp | ⟨hp1, hp2⟩
    · subst hp
      unfold spanAt
      rw [if_pos rfl, if_pos rfl, hreshdr]
    · unfold spanAt
      rw [if_neg (by omega), if_neg (by omega)]
      unfold nodeAt
      rw [hresnodes, nthD_insAt_lt _ _ (by omega) hmlen3]
  have hresspan1 : ∀ j, spanAt res (m + 1) j = nthD nd.spans j 0 := by
    intro j
    unfold spanAt
    rw [if_neg (by omega)]
    unfold nodeAt
    rw [hresnodes]
    have he : m + 1 - 1 = m := by omega
    rw [he, nthD_insAt_self _ _ hmlen3]
  have hresspan2 : ∀ p j, m + 2 ≤ p → spanAt res p j = spanAt sl3 (p - 1) j := by
    intro p j hp
    unfold spanAt
    rw [if_neg (by omega), if_neg (by omega)]
    unfold nodeAt
    rw [hresnodes, nthD_insAt_gt _ _ (by omega)]
  -- the span invariant of the result
  have hspanres : ∀ p j, p ≤ res.nodes.length → j < capAt res p →
      spanAt res p j = (fwdPos res.nodes j p).getD res.nodes.length - p := by
    intro p j hple hcap
    rw [hresnlen] at hple
    by_cases hA : p = m + 1
    · -- the new node
      subst hA
      have hjlvl : j < lvl := by
        unfold capAt at hcap
        rw [if_neg (by omega), hresheight _ (by omega), if_neg (by omega), if_pos rfl] at hcap
        exact hcap
      have hju : j < max sl.level lvl := lt_of_lt_of_le hjlvl (le_max_right _ _)
      rw [hresspan1 j, hndspans j hjlvl, hF2 j hju, hresnlen, hresnodes]
      have hshift := @fwdPos_insAt_shift sl3.nodes nd m j m hmlen3 (le_refl m)
      rw [hfwd3] at hshift
      rw [hshift]
      cases hQ : fwdPos sl.nodes j m with
      | none =>
        rw [optMapGetD_none, optGetD_none]
        have hule := lastL_le sl.nodes j m
        omega
      | some q =>
        obtain ⟨hq1, hq2, _, _⟩ := fwdPos_some_elim hQ
        rw [optMapGetD_some, optGetD_some]
        have hule := lastL_le sl.nodes j m
        omega
    · by_cases hB : p ≤ m
      · -- positions at or before the insertion point
        have honlvl : p = 0 ∨ j < heightAt sl.nodes p := by
          unfold capAt at hcap
          by_cases h0 : p = 0
          · exact Or.inl h0
          · rw [if_neg h0, hresheight _ (by omega), if_pos hB] at hcap
            exact Or.inr hcap
        by_cases hBu : p = lastL sl.nodes j m
        · -- the recorded predecessor at level j
          have hule := lastL_le sl.nodes j m
          by_cases hjlvl : j < lvl
          · -- spliced: now points at the new node
            have hF3p := hF3 j hjlvl
            rw [← hBu] at hF3p
            rw [hresspan0 p j (by omega), hF3p, hresnlen, hresnodes]
            have hnew := @fwdPos_insAt_new sl3.nodes nd m j p
              hmlen3 hB (by rw [hndspanlen]; exact hjlvl)
              (fun r h1 h2 => by
                rw [hh3 r]
                rw [hBu] at h1
                exact lastL_between r h1 h2)
            rw [hnew, optGetD_some]
            omega
          · -- bumped: a level above the new node crossing the insertion point
            have hjlv1 : j < sl1.level := by
              rw [hsl1level]
              rcases Nat.eq_zero_or_pos p with hp0 | hp1
              · subst hp0
                rw [← hreslevel]
                unfold capAt at hcap
                rw [if_pos rfl] at hcap
                exact hcap
              · rcases honlvl with h0 | hh
                · omega
                · obtain ⟨n2, hn2, hhn⟩ := heights_mem hp1
                    (by omega : p ≤ sl.nodes.length)
                  have hb := (hwf.hhts n2 hn2).2
                  exact lt_of_lt_of_le (by omega) (le_max_left _ _)
            have hF4p := hF4 j (by omega) hjlv1
            rw [← hBu] at hF4p
            rw [hresspan0 p j (by omega), hF4p, hresnlen, hresnodes]
            have hover := @fwdPos_insAt_over sl3.nodes nd m j p
              hmlen3 hB (by rw [hndspanlen]; omega)
              (fun r h1 h2 => by
                rw [hh3 r]
                rw [hBu] at h1
                exact lastL_between r h1 h2)
            rw [hfwd3] at hover
            rw [hover]
            have hQu : fwdPos sl.nodes j p = fwdPos sl.nodes j m := by
              rw [hBu]
              exact lastL_fwd sl.nodes j m
            rw [hQu]
            cases hQ : fwdPos sl.nodes j m with
            | none =>
              rw [optGetD_none, optMapGetD_none]
              omega
            | some q =>
              obtain ⟨hq1, hq2, hq3, hq4⟩ := fwdPos_some_elim hQ
              rw [optGetD_some, optMapGetD_some]
              omega
        · -- an untouched cell strictly before the predecessor
          have hplt : p < lastL sl.nodes j m := by
            rcases Nat.eq_zero_or_pos p with hp0 | hp1
            · omega
            · rcases honlvl with h0 | hh
              · omega
              · have := lastL_max hp1 hB hh
                omega
          rcases lastL_on_level sl.nodes j m with h0 | ⟨hu1, hu2⟩
          · omega
          · cases hQ : fwdPos sl.nodes j p with
            | none =>
              exact absurd hu2 (fwdPos_none_elim hQ (lastL sl.nodes j m) (by omega)
                (by have := lastL_le sl.nodes j m; omega))
            | some q =>
              obtain ⟨hq1, hq2, hq3, hq4⟩ := fwdPos_some_elim hQ
              have hqle : q ≤ lastL sl.nodes j m := by
                by_contra hgt
                exact hq4 (lastL sl.nodes j m) (by omega) (by omega) hu2
              have hqm : q ≤ m := le_trans hqle (lastL_le sl.nodes j m)
              rw [hresspan0 p j (by omega), hF5 p j (fun hc => hBu hc.2)]
              have hjlow : j < heightAt sl.nodes q := hq3
              have hjsl : j < sl.level := by
                obtain ⟨n2, hn2, hhn⟩ := heights_mem (by omega : 1 ≤ q) hq2
                have hb := (hwf.hhts n2 hn2).2
                omega
              have hsl1v : spanAt sl1 p j = spanAt sl p j := by
                rcases Nat.eq_zero_or_pos p with hp0 | hp1
                · subst hp0
                  exact hsl1span_hdr j hjsl
                · exact hsl1span_node p j hp1
              have hwfspan := hwf.hspan p j (by omega) (by
                unfold capAt
                rcases Nat.eq_zero_or_pos p with hp0 | hp1
                · rw [if_pos hp0]
                  exact hjsl
                · rw [if_neg (by omega)]
                  rcases honlvl with h0 | hh
                  · omega
                  · exact hh)
              have hle2 := @fwdPos_insAt_le sl3.nodes nd m j p q
                hmlen3 hB (by rw [hfwd3]; exact hQ) hqm
              rw [hsl1v, hwfspan, hQ, hresnlen, hresnodes, hle2]
              rw [optGetD_some, optGetD_some]
      · -- positions after the inserted node
        have hp2 : m + 2 ≤ p := by omega
        have hcapold : j < heightAt sl.nodes (p - 1) := by
          unfold capAt at hcap
          rw [if_neg (by omega), hresheight _ (by omega), if_neg (by omega),
            if_neg (by omega)] at hcap
          exact hcap
        rw [hresspan2 p j hp2]
        have huntouched : spanAt sl3 (p - 1) j = spanAt sl1 (p - 1) j := by
          apply hF5
          intro hc
          have := lastL_le sl.nodes j m
          omega
        rw [huntouched, hsl1span_node _ j (by omega)]
        have hwfspan := hwf.hspan (p - 1) j (by omega) (by
          unfold capAt
          rw [if_neg (by omega)]
          exact hcapold)
        have hshift := @fwdPos_insAt_shift sl3.nodes nd m j (p - 1)
          hmlen3 (show m ≤ p - 1 by omega)
        rw [hfwd3] at hshift
        have he : p - 1 + 1 = p := by omega
        rw [he] at hshift
        rw [hwfspan, hresnlen, hresnodes, hshift]
        cases hQ : fwdPos sl.nodes j (p - 1) with
        | none =>
          rw [optGetD_none, optMapGetD_none]
          omega
        | some q =>
          obtain ⟨hq1, hq2, _, _⟩ := fwdPos_some_elim hQ
          rw [optGetD_some, optMapGetD_some]
          omega
  have hkeysres : keysOf res = insAt m (score, ele) (keysOf sl) := by
    unfold keysOf
    rw [hresnodes, map_insAt]
    have h3 : sl3.nodes.map (fun n => (n.score, n.ele)) = keysOf sl := by
      have h4 : keysOf sl3 = keysOf sl := keysOf_ext hlen3 hkey3
      unfold keysOf at h4
      exact h4
    rw [h3, hnddef]
    rfl
  refine ⟨⟨?_, ?_, ?_, ?_, ?_, ?_, ?_, ?_⟩, hkeysres, hreslevel, hreslength, hresnlen⟩
  · -- stored length
    rw [hreslength, hresnlen, hwf.hlen]
  · -- header width
    rw [hreshdr, hhdr3]
  · -- level lower bound
    rw [hreslevel]
    have := hwf.hlvl1
    omega
  · -- level upper bound
    rw [hreslevel]
    have := hwf.hlvl32
    omega
  · -- node heights within the level
    intro n hn
    rw [hresnodes] at hn
    rcases (mem_insAt n nd m sl3.nodes).mp hn with he | hm2
    · subst he
      rw [hndspanlen, hreslevel]
      omega
    · obtain ⟨r, hr1, hr2, hhr⟩ := mem_heights hm2
      rw [hh3 r] at hhr
      obtain ⟨n2, hn2, hn2l⟩ := heights_mem hr1 (by omega : r ≤ sl.nodes.length)
      have hb := hwf.hhts n2 hn2
      rw [hreslevel]
      omega
  · -- level witness
    by_cases h : sl.level < lvl
    · refine Or.inr ⟨nd, ?_, ?_⟩
      · rw [hresnodes]
        exact (mem_insAt nd nd m sl3.nodes).mpr (Or.inl rfl)
      · rw [hreslevel, hndspanlen]
        omega
    · rcases hwf.hwit with h1 | ⟨n, hn, hnl⟩
      · left
        rw [hreslevel]
        omega
      · obtain ⟨r, hr1, hr2, hhr⟩ := mem_heights hn
        obtain ⟨n3, hn3, hn3l⟩ := heights_mem hr1 (by omega : r ≤ sl3.nodes.length)
        refine Or.inr ⟨n3, ?_, ?_⟩
        · rw [hresnodes]
          exact (mem_insAt n3 nd m sl3.nodes).mpr (Or.inr hn3)
        · rw [hn3l, hh3 r, hhr, hreslevel]
          omega
  · -- sortedness
    rw [hkeysres]
    apply pairwise_insAt hwf.hsort (cntLt_le _ _)
    · intro jj hjj
      have := (keyLt_threshold hwf.hsort (score, ele) (jj + 1) (by omega)
        (by rw [← keysOf_length]; have := cntLt_le (keysOf sl) (score, ele); omega)).mpr
        (by omega)
      rw [keyAt_eq] at this
      simpa using this
    · intro jj hjj1 hjj2
      have hnlt : ¬ keyLt (nthD (keysOf sl) jj (0, "")) (score, ele) := by
        intro hlt
        have := (keyLt_threshold hwf.hsort (score, ele) (jj + 1) (by omega)
          (by rw [keysOf_length] at hjj2; omega)).mp
          (by rw [keyAt_eq]; simpa using hlt)
        omega
      have hne : nthD (keysOf sl) jj (0, "") ≠ (score, ele) := by
        intro he
        exact habs (he ▸ nthD_mem _ hjj2)
      rcases keyLt_total (nthD (keysOf sl) jj (0, "")) (score, ele) with h | h | h
      · exact absurd h hnlt
      · exact absurd h hne
      · exact h
  · -- span geometry
    exact hspanres

/-! ### List surgery for deletion -/

theorem delAt_sublist {α : Type} (n : Nat) (l : List α) : (delAt n l).Sublist l := by
  induction l generalizing n with
  | nil =>
    cases n with
    | zero => exact List.Sublist.refl []
    | succ k => exact List.Sublist.refl []
  | cons a t ih =>
    cases n with
    | zero => exact (List.Sublist.refl t).cons a
    | succ k => exact (ih k).cons₂ a

theorem heightAt_delAt {nodes : List SLNode} (m : Nat) {r : Nat} (hr : 1 ≤ r) :
    heightAt (delAt m nodes) r
      = if r ≤ m then heightAt nodes r else heightAt nodes (r + 1) := by
  unfold heightAt
  by_cases h : r ≤ m
  · rw [if_pos h, nthD_delAt_lt _ (by omega)]
  · rw [if_neg h, nthD_delAt_ge _ (by omega)]
    have he : r + 1 - 1 = r - 1 + 1 := by omega
    rw [he]

theorem fwdPos_delAt_keep {nodes : List SLNode} {m j p q : Nat} (hm : m < nodes.length)
    (hq : fwdPos nodes j p = some q) (hqm : q ≤ m) :
    fwdPos (delAt m nodes) j p = some q := by
  obtain ⟨h1, h2, h3, h4⟩ := fwdPos_some_elim hq
  apply fwdPos_some_intro h1 (by rw [length_delAt hm]; omega)
  · rw [heightAt_delAt m (by omega), if_pos hqm]
    exact h3
  · intro r hr1 hr2
    rw [heightAt_delAt m (by omega), if_pos (by omega)]
    exact h4 r hr1 hr2

theorem fwdPos_delAt_cross {nodes : List SLNode} {m j p : Nat} (hm : m < nodes.length)
    (hp : p ≤ m) (hbet : ∀ r, p < r → r ≤ m → ¬ j < heightAt nodes r) :
    fwdPos (delAt m nodes) j p = (fwdPos nodes j (m + 1)).map (fun t => t - 1) := by
  cases hq : fwdPos nodes j (m + 1) with
  | none =>
    show fwdPos (delAt m nodes) j p = none
    apply fwdPos_none_intro
    intro r hr1 hr2
    rw [length_delAt hm] at hr2
    rw [heightAt_delAt m (by omega)]
    by_cases h1 : r ≤ m
    · rw [if_pos h1]
      exact hbet r hr1 h1
    · rw [if_neg h1]
      exact fwdPos_none_elim hq (r + 1) (by omega) (by omega)
  | some q =>
    obtain ⟨h1, h2, h3, h4⟩ := fwdPos_some_elim hq
    show fwdPos (delAt m nodes) j p = some (q - 1)
    apply fwdPos_some_intro (by omega) (by rw [length_delAt hm]; omega)
    · rw [heightAt_delAt m (by omega), if_neg (by omega)]
      have he : q - 1 + 1 = q := by omega
      rw [he]
      exact h3
    · intro r hr1 hr2
      rw [heightAt_delAt m (by omega)]
      by_cases hc1 : r ≤ m
      · rw [if_pos hc1]
        exact hbet r hr1 hc1
      · rw [if_neg hc1]
        exact h4 (r + 1) (by omega) (by omega)

theorem fwdPos_delAt_shift {nodes : List SLNode} {m j p : Nat} (hm : m < nodes.length)
    (hp : m + 1 ≤ p) :
    fwdPos (delAt m nodes) j p = (fwdPos nodes j (p + 1)).map (fun t => t - 1) := by
  cases hq : fwdPos nodes j (p + 1) with
  | none =>
    show fwdPos (delAt m nodes) j p = none
    apply fwdPos_none_intro
    intro r hr1 hr2
    rw [length_delAt hm] at hr2
    rw [heightAt_delAt m (by omega), if_neg (by omega)]
    exact fwdPos_none_elim hq (r + 1) (by omega) (by omega)
  | some q =>
    obtain ⟨h1, h2, h3, h4⟩ := fwdPos_some_elim hq
    show fwdPos (delAt m nodes) j p = some (q - 1)
    apply fwdPos_some_intro (by omega) (by rw [length_delAt hm]; omega)
    · rw [heightAt_delAt m (by omega), if_neg (by omega)]
      have he : q - 1 + 1 = q := by omega
      rw [he]
      exact h3
    · intro r hr1 hr2
      rw [heightAt_delAt m (by omega), if_neg (by omega)]
      exact h4 (r + 1) (by omega) (by omega)

/-! ### The level-shrinking loop -/

theorem shrinkLevel_le (nodes : List SLNode) : ∀ L, shrinkLevel nodes L ≤ L
  | 0 => le_refl _
  | 1 => le_refl _
  | l + 2 => by
    unfold shrinkLevel
    by_cases hf : fwdPos nodes (l + 1) 0 = none
    · rw [if_pos hf]
      have := shrinkLevel_le nodes (l + 1)
      omega
    · rw [if_neg hf]

theorem shrinkLevel_ge1 (nodes : List SLNode) : ∀ L, 1 ≤ L → 1 ≤ shrinkLevel nodes L
  | 0 => by omega
  | 1 => fun _ => le_refl _
  | l + 2 => by
    intro h
    unfold shrinkLevel
    by_cases hf : fwdPos nodes (l + 1) 0 = none
    · rw [if_pos hf]
      exact shrinkLevel_ge1 nodes (l + 1) (by omega)
    · rw [if_neg hf]
      omega

theorem shrinkLevel_wit (nodes : List SLNode) :
    ∀ L, 1 ≤ L →
      shrinkLevel nodes L = 1 ∨ ¬ fwdPos nodes (shrinkLevel nodes L - 1) 0 = none
  | 0 => by omega
  | 1 => fun _ => Or.inl rfl
  | l + 2 => by
    intro h
    unfold shrinkLevel
    by_cases hf : fwdPos nodes (l + 1) 0 = none
    · rw [if_pos hf]
      exact shrinkLevel_wit nodes (l + 1) (by omega)
    · rw [if_neg hf]
      exact Or.inr (by simpa using hf)

theorem shrinkLevel_bound (nodes : List SLNode) :
    ∀ L, (∀ n, n ∈ nodes → n.spans.length ≤ L) →
      ∀ n, n ∈ nodes → n.spans.length ≤ shrinkLevel nodes L
  | 0 => fun hb => hb
  | 1 => fun hb => hb
  | l + 2 => by
    intro hb
    unfold shrinkLevel
    by_cases hf : fwdPos nodes (l + 1) 0 = none
    · rw [if_pos hf]
      apply shrinkLevel_bound nodes (l + 1)
      intro n hn
      obtain ⟨r, hr1, hr2, hhr⟩ := mem_heights hn
      have := fwdPos_none_elim hf r hr1 hr2
      omega
    · rw [if_neg hf]
      exact hb

/-! ### Correctness of `delete` -/

theorem slDelete_absent {sl : Skiplist} (hwf : SLWF sl) {score : Int} {ele : String}
    (habs : (score, ele) ∉ keysOf sl) :
    slDelete sl score ele = (sl, false) := by
  have hmlen : cntLt (keysOf sl) (score, ele) ≤ sl.nodes.length := by
    have h := cntLt_le (keysOf sl) (score, ele)
    rw [keysOf_length] at h
    exact h
  set m := cntLt (keysOf sl) (score, ele) with hmdef
  have h1le : ∀ n, n ∈ sl.nodes → 1 ≤ n.spans.length := fun n hn => (hwf.hhts n hn).1
  have hadv : ∀ q, 1 ≤ q → q ≤ sl.nodes.length →
      (advLt score ele (keyAt sl q) = true ↔ q ≤ m) := by
    intro q h1 h2
    unfold advLt
    rw [decide_eq_true_eq]
    exact keyLt_threshold hwf.hsort (score, ele) q h1 h2
  obtain ⟨hurlen, hurnth⟩ := descend_top hwf (advLt score ele) hmlen hadv
  set ur := descend sl (advLt score ele) sl.level 0 0 with hurdef
  have hu0 : (nthD ur 0 (0, 0)).1 = m := by
    rw [hurnth 0 (by have := hwf.hlvl1; omega)]
    exact lastL_level_zero h1le hmlen
  have hne := (sorted_absent hwf.hsort habs).2
  simp only [slDelete]
  rw [← hurdef, hu0, fwdPos_zero h1le]
  by_cases hlt : m < sl.nodes.length
  · rw [if_pos hlt]
    show (if keyAt sl (m + 1) = (score, ele) then (deleteNode sl (m + 1) ur, true)
        else (sl, false)) = (sl, false)
    rw [if_neg (hne (m + 1) (by omega) (by omega))]
  · rw [if_neg hlt]

theorem slDelete_present {sl : Skiplist} (hwf : SLWF sl) {score : Int} {ele : String}
    (hk : (score, ele) ∈ keysOf sl) :
    SLWF (slDelete sl score ele).1 ∧
    (slDelete sl score ele).2 = true ∧
    keysOf (slDelete sl score ele).1
      = delAt (cntLt (keysOf sl) (score, ele)) (keysOf sl) ∧
    (slDelete sl score ele).1.length = sl.length - 1 ∧
    (slDelete sl score ele).1.nodes.length = sl.nodes.length - 1 ∧
    (slDelete sl score ele).1.level ≤ sl.level := by
  have hmlen : cntLt (keysOf sl) (score, ele) ≤ sl.nodes.length := by
    have h := cntLt_le (keysOf sl) (score, ele)
    rw [keysOf_length] at h
    exact h
  obtain ⟨hmlt0, hkeyx0, _⟩ := sorted_present hwf.hsort hk
  set m := cntLt (keysOf sl) (score, ele) with hmdef
  have hmlt : m < sl.nodes.length := hmlt0
  have hkeyx : keyAt sl (m + 1) = (score, ele) := hkeyx0
  have h1le : ∀ n, n ∈ sl.nodes → 1 ≤ n.spans.length := fun n hn => (hwf.hhts n hn).1
  have hadv : ∀ q, 1 ≤ q → q ≤ sl.nodes.length →
      (advLt score ele (keyAt sl q) = true ↔ q ≤ m) := by
    intro q h1 h2
    unfold advLt
    rw [decide_eq_true_eq]
    exact keyLt_threshold hwf.hsort (score, ele) q h1 h2
  obtain ⟨hurlen, hurnth⟩ := descend_top hwf (advLt score ele) hmlen hadv
  set ur := descend sl (advLt score ele) sl.level 0 0 with hurdef
  have hu0 : (nthD ur 0 (0, 0)).1 = m := by
    rw [hurnth 0 (by have := hwf.hlvl1; omega)]
    exact lastL_level_zero h1le hmlen
  have hdel : slDelete sl score ele = (deleteNode sl (m + 1) ur, true) := by
    simp only [slDelete]
    rw [← hurdef, hu0, fwdPos_zero h1le, if_pos hmlt]
    show (if keyAt sl (m + 1) = (score, ele) then (deleteNode sl (m + 1) ur, true)
        else (sl, false)) = (deleteNode sl (m + 1) ur, true)
    rw [if_pos hkeyx]
  -- the span-rewriting fold, in the shape of the generic fold lemma
  have hbody : (fun (s : Skiplist) (i : Nat) =>
      if fwdPos s.nodes i (nthD ur i (0, 0)).1 = some (m + 1)
      then setSpan s (nthD ur i (0, 0)).1 i
        (spanAt s (nthD ur i (0, 0)).1 i + spanAt s (m + 1) i - 1)
      else setSpan s (nthD ur i (0, 0)).1 i (spanAt s (nthD ur i (0, 0)).1 i - 1))
    = (fun (s : Skiplist) (i : Nat) => setSpan s (nthD ur i (0, 0)).1 i
        (if fwdPos s.nodes i (nthD ur i (0, 0)).1 = some (m + 1)
         then spanAt s (nthD ur i (0, 0)).1 i + spanAt s (m + 1) i - 1
         else spanAt s (nthD ur i (0, 0)).1 i - 1)) := by
    funext s i
    by_cases hc : fwdPos s.nodes i (nthD ur i (0, 0)).1 = some (m + 1)
    · rw [if_pos hc, if_pos hc]
    · rw [if_neg hc, if_neg hc]
  set sl1 := (List.range sl.level).foldl
      (fun (s : Skiplist) (i : Nat) => setSpan s (nthD ur i (0, 0)).1 i
        (if fwdPos s.nodes i (nthD ur i (0, 0)).1 = some (m + 1)
         then spanAt s (nthD ur i (0, 0)).1 i + spanAt s (m + 1) i - 1
         else spanAt s (nthD ur i (0, 0)).1 i - 1)) sl
    with hsl1def
  have hdn : deleteNode sl (m + 1) ur
      = ⟨sl1.headerSpans, delAt m sl1.nodes,
         shrinkLevel (delAt m sl1.nodes) sl1.level, sl1.length - 1⟩ := by
    simp only [deleteNode]
    rw [hbody, ← hsl1def]
    have he : m + 1 - 1 = m := by omega
    rw [he]
  have hgen := foldl_setSpan_generic (List.range sl.level) sl
    (fun i => (nthD ur i (0, 0)).1)
    (fun s i => if fwdPos s.nodes i (nthD ur i (0, 0)).1 = some (m + 1)
      then spanAt s (nthD ur i (0, 0)).1 i + spanAt s (m + 1) i - 1
      else spanAt s (nthD ur i (0, 0)).1 i - 1)
    (List.nodup_range _)
    (fun s j hj hsk hsp => by
      beta_reduce
      rw [fwdPos_skel hsk j ((nthD ur j (0, 0)).1), hsp ((nthD ur j (0, 0)).1),
        hsp (m + 1)])
  have hsl1eq : (List.range sl.level).foldl
      (fun s i => setSpan s ((fun i => (nthD ur i (0, 0)).1) i) i
        ((fun (s : Skiplist) i => if fwdPos s.nodes i (nthD ur i (0, 0)).1 = some (m + 1)
          then spanAt s (nthD ur i (0, 0)).1 i + spanAt s (m + 1) i - 1
          else spanAt s (nthD ur i (0, 0)).1 i - 1) s i)) sl = sl1 := by
    rw [hsl1def]
  obtain ⟨hskel1, hspan1⟩ := hgen
  rw [hsl1eq] at hskel1 hspan1
  beta_reduce at hspan1
  have hh1 : ∀ r, heightAt sl1.nodes r = heightAt sl.nodes r := hskel1.2.2.2.2.1
  have hlen1 : sl1.nodes.length = sl.nodes.length := hskel1.1
  have hkey1 : ∀ r, keyAt sl1 r = keyAt sl r := hskel1.2.2.2.2.2
  have hlevel1 : sl1.level = sl.level := hskel1.2.2.1
  have hlength1 : sl1.length = sl.length := hskel1.2.2.2.1
  have hhdr1 : sl1.headerSpans.length = 32 := by rw [hskel1.2.1, hwf.hhdr]
  have hlastcap : ∀ j, j < sl.level → j < capAt sl (lastL sl.nodes j m) := by
    intro j hjl
    unfold capAt
    rcases lastL_on_level sl.nodes j m with h0 | ⟨h1, h2⟩
    · rw [h0, if_pos rfl]
      exact hjl
    · rw [if_neg (by omega)]
      exact h2
  -- value written at the recorded predecessor of each level
  have hG : ∀ j, j < sl.level → spanAt sl1 (lastL sl.nodes j m) j
      = (fwdPos sl.nodes j (m + 1)).getD sl.nodes.length - lastL sl.nodes j m - 1 := by
    intro j hjl
    have hule := lastL_le sl.nodes j m
    have hsp1 := hspan1 (lastL sl.nodes j m) j
    have hu1 : (nthD ur j (0, 0)).1 = lastL sl.nodes j m := by rw [hurnth j hjl]
    rw [hu1] at hsp1
    rw [if_pos ⟨List.mem_range.mpr hjl, rfl⟩] at hsp1
    have hset : spanAt (setSpan sl (lastL sl.nodes j m) j
        (if fwdPos sl.nodes j (lastL sl.nodes j m) = some (m + 1)
         then spanAt sl (lastL sl.nodes j m) j + spanAt sl (m + 1) j - 1
         else spanAt sl (lastL sl.nodes j m) j - 1)) (lastL sl.nodes j m) j
        = (if fwdPos sl.nodes j (lastL sl.nodes j m) = some (m + 1)
         then spanAt sl (lastL sl.nodes j m) j + spanAt sl (m + 1) j - 1
         else spanAt sl (lastL sl.nodes j m) j - 1) := by
      rcases lastL_on_level sl.nodes j m with h0 | ⟨h1, h2⟩
      · rw [h0]
        exact spanAt_setSpan_hdr (by rw [hwf.hhdr]; have h32 := hwf.hlvl32; omega)
      · exact spanAt_setSpan_node h1 (by omega) h2
    rw [hsp1, hset]
    have hfwu : fwdPos sl.nodes j (lastL sl.nodes j m) = fwdPos sl.nodes j m :=
      lastL_fwd sl.nodes j m
    have hspu : spanAt sl (lastL sl.nodes j m) j
        = (fwdPos sl.nodes j m).getD sl.nodes.length - lastL sl.nodes j m := by
      rw [hwf.hspan (lastL sl.nodes j m) j (by omega) (hlastcap j hjl), hfwu]
    by_cases hhx : j < heightAt sl.nodes (m + 1)
    · -- the victim participates in level j: its span is absorbed
      have hfwm : fwdPos sl.nodes j m = some (m + 1) :=
        fwdPos_some_intro (by omega) (by omega) hhx (fun r h1 h2 => by omega)
      rw [if_pos (by rw [hfwu, hfwm])]
      have hspx : spanAt sl (m + 1) j
          = (fwdPos sl.nodes j (m + 1)).getD sl.nodes.length - (m + 1) := by
        rw [hwf.hspan (m + 1) j (by omega) (by unfold capAt; rw [if_neg (by omega)]; exact hhx)]
      have hkge : m + 1 ≤ (fwdPos sl.nodes j (m + 1)).getD sl.nodes.length := by
        cases hq : fwdPos sl.nodes j (m + 1) with
        | none =>
          rw [optGetD_none]
          omega
        | some q =>
          obtain ⟨h1, _, _, _⟩ := fwdPos_some_elim hq
          rw [optGetD_some]
          omega
      rw [hspu, hspx, hfwm, optGetD_some]
      omega
    · -- the victim skips level j: the predecessor just loses the deleted step
      have hfwskip : fwdPos sl.nodes j m = fwdPos sl.nodes j (m + 1) :=
        fwdPos_skip hhx
      rw [if_neg (by rw [hfwu, hfwskip]; intro he; exact hhx (fwdPos_some_elim he).2.2.1)]
      rw [hspu, hfwskip]
  -- untouched cells keep their spans
  have hU : ∀ p j, ¬ (j < sl.level ∧ p = lastL sl.nodes j m) →
      spanAt sl1 p j = spanAt sl p j := by
    intro p j hc
    rw [hspan1 p j]
    by_cases hj : j < sl.level
    · have hne : ¬ p = (nthD ur j (0, 0)).1 := by
        rw [hurnth j hj]
        intro he
        exact hc ⟨hj, he⟩
      rw [if_neg (fun hcc => hne hcc.2)]
    · rw [if_neg (fun hcc => hj (List.mem_range.mp hcc.1))]
  -- the assembled state
  set res := (slDelete sl score ele).1 with hresdef
  have hres : res = ⟨sl1.headerSpans, delAt m sl1.nodes,
      shrinkLevel (delAt m sl1.nodes) sl1.level, sl1.length - 1⟩ := by
    rw [hresdef, hdel, hdn]
  have hresnodes : res.nodes = delAt m sl1.nodes := by rw [hres]
  have hreshdr : res.headerSpans = sl1.headerSpans := by rw [hres]
  have hreslevel : res.level = shrinkLevel (delAt m sl1.nodes) sl1.level := by rw [hres]
  have hreslength : res.length = sl.length - 1 := by
    rw [hres]
    show sl1.length - 1 = sl.length - 1
    rw [hlength1]
  have hmlt1 : m < sl1.nodes.length := by omega
  have hresnlen : res.nodes.length = sl.nodes.length - 1 := by
    rw [hresnodes, length_delAt hmlt1, hlen1]
  have hresheight : ∀ r, 1 ≤ r → heightAt res.nodes r
      = if r ≤ m then heightAt sl.nodes r else heightAt sl.nodes (r + 1) := by
    intro r hr
    rw [hresnodes, heightAt_delAt m hr]
    by_cases h : r ≤ m
    · rw [if_pos h, if_pos h, hh1]
    · rw [if_neg h, if_neg h, hh1]
  have hresfwd : ∀ j p, fwdPos res.nodes j p = fwdPos (delAt m sl.nodes) j p := by
    intro j p
    rw [hresnodes]
    apply fwdPos_ext (by rw [length_delAt hmlt1, length_delAt hmlt, hlen1])
    intro r h1 h2
    rw [heightAt_delAt m h1, heightAt_delAt m h1]
    by_cases h : r ≤ m
    · rw [if_pos h, if_pos h, hh1]
    · rw [if_neg h, if_neg h, hh1]
  have hresspanlo : ∀ p j, p ≤ m → spanAt res p j = spanAt sl1 p j := by
    intro p j hp
    rcases Nat.eq_zero_or_pos p with h0 | h1
    · subst h0
      unfold spanAt
      rw [if_pos rfl, if_pos rfl, hreshdr]
    · unfold spanAt
      rw [if_neg (by omega), if_neg (by omega)]
      unfold nodeAt
      rw [hresnodes, nthD_delAt_lt _ (by omega)]
  have hresspanhi : ∀ p j, m + 1 ≤ p → spanAt res p j = spanAt sl1 (p + 1) j := by
    intro p j hp
    unfold spanAt
    rw [if_neg (by omega), if_neg (by omega)]
    unfold nodeAt
    rw [hresnodes, nthD_delAt_ge _ (by omega)]
    have he : p + 1 - 1 = p - 1 + 1 := by omega
    rw [he]
  have hhts2 : ∀ n, n ∈ res.nodes → 1 ≤ n.spans.length ∧ n.spans.length ≤ sl.level := by
    intro n hn
    obtain ⟨r, hr1, hr2, hhr⟩ := mem_heights hn
    rw [hresnlen] at hr2
    rw [hresheight r hr1] at hhr
    by_cases h : r ≤ m
    · obtain ⟨n2, hn2, hn2l⟩ := heights_mem hr1 (by omega : r ≤ sl.nodes.length)
      have hb := hwf.hhts n2 hn2
      rw [if_pos h] at hhr
      omega
    · obtain ⟨n2, hn2, hn2l⟩ := heights_mem (by omega : 1 ≤ r + 1)
        (by omega : r + 1 ≤ sl.nodes.length)
      have hb := hwf.hhts n2 hn2
      rw [if_neg h] at hhr
      omega
  have hlvl21 : 1 ≤ res.level := by
    rw [hreslevel]
    exact shrinkLevel_ge1 _ _ (by rw [hlevel1]; exact hwf.hlvl1)
  have hlvl2le : res.level ≤ sl.level := by
    rw [hreslevel, ← hlevel1]
    exact shrinkLevel_le _ _
  have hkeysres : keysOf res = delAt m (keysOf sl) := by
    unfold keysOf
    rw [hresnodes, map_delAt]
    have h4 : keysOf sl1 = keysOf sl := keysOf_ext hlen1 hkey1
    unfold keysOf at h4
    rw [h4]
  -- the span invariant of the result
  have hspanres : ∀ p j, p ≤ res.nodes.length → j < capAt res p →
      spanAt res p j = (fwdPos res.nodes j p).getD res.nodes.length - p := by
    intro p j hple hcap
    rw [hresnlen] at hple
    have hjsl : j < sl.level := by
      unfold capAt at hcap
      rcases Nat.eq_zero_or_pos p with h0 | h1
      · rw [if_pos h0] at hcap
        omega
      · rw [if_neg (by omega)] at hcap
        obtain ⟨n2, hn2, hn2l⟩ := heights_mem h1 (by rw [hresnlen]; omega)
        have hb := hhts2 n2 hn2
        omega
    by_cases hB : p ≤ m
    · have honlvl : p = 0 ∨ j < heightAt sl.nodes p := by
        rcases Nat.eq_zero_or_pos p with h0 | h1
        · exact Or.inl h0
        · unfold capAt at hcap
          rw [if_neg (by omega), hresheight p h1, if_pos hB] at hcap
          exact Or.inr hcap
      by_cases hBu : p = lastL sl.nodes j m
      · -- the recorded predecessor at level j
        have hule := lastL_le sl.nodes j m
        have hGp := hG j hjsl
        rw [← hBu] at hGp
        rw [hresspanlo p j hB, hGp, hresfwd, hresnlen]
        have hcross := fwdPos_delAt_cross hmlt hB (fun r h1 h2 => by
          rw [hBu] at h1
          exact lastL_between r h1 h2)
        rw [hcross]
        cases hQ : fwdPos sl.nodes j (m + 1) with
        | none =>
          rw [optGetD_none, optMapGetD_none]
          omega
        | some q =>
          obtain ⟨hq1, hq2, _, _⟩ := fwdPos_some_elim hQ
          rw [optGetD_some, optMapGetD_some]
          omega
      · -- an untouched cell strictly before the predecessor
        have hplt : p < lastL sl.nodes j m := by
          rcases Nat.eq_zero_or_pos p with hp0 | hp1
          · omega
          · rcases honlvl with h0 | hh
            · omega
            · have := lastL_max hp1 hB hh
              omega
        rcases lastL_on_level sl.nodes j m with h0 | ⟨hu1, hu2⟩
        · omega
        · have hule := lastL_le sl.nodes j m
          cases hQ : fwdPos sl.nodes j p with
          | none =>
            exact absurd hu2 (fwdPos_none_elim hQ (lastL sl.nodes j m) (by omega)
              (by omega))
          | some q =>
            obtain ⟨hq1, hq2, hq3, hq4⟩ := fwdPos_some_elim hQ
            have hqle : q ≤ lastL sl.nodes j m := by
              by_contra hgt
              exact hq4 (lastL sl.nodes j m) (by omega) (by omega) hu2
            rw [hresspanlo p j hB, hU p j (fun hc => hBu hc.2)]
            have hwfspan := hwf.hspan p j (by omega) (by
              unfold capAt
              rcases Nat.eq_zero_or_pos p with hp0 | hp1
              · rw [if_pos hp0]
                exact hjsl
              · rw [if_neg (by omega)]
                rcases honlvl with hh0 | hh
                · omega
                · exact hh)
            have hkeep := fwdPos_delAt_keep hmlt hQ (by omega)
            rw [hwfspan, hQ, hresfwd, hresnlen, hkeep, optGetD_some, optGetD_some]
    · -- positions after the deleted node
      have hp1 : m + 1 ≤ p := by omega
      have hcapold : j < heightAt sl.nodes (p + 1) := by
        unfold capAt at hcap
        rw [if_neg (by omega), hresheight p (by omega), if_neg (by omega)] at hcap
        exact hcap
      rw [hresspanhi p j hp1]
      have hunt : spanAt sl1 (p + 1) j = spanAt sl (p + 1) j := by
        apply hU
        intro hc
        have := lastL_le sl.nodes j m
        omega
      rw [hunt]
      have hwfspan := hwf.hspan (p + 1) j (by omega) (by
        unfold capAt
        rw [if_neg (by omega)]
        exact hcapold)
      have hshift := @fwdPos_delAt_shift sl.nodes m j p hmlt hp1
      rw [hwfspan, hresfwd, hresnlen, hshift]
      cases hQ : fwdPos sl.nodes j (p + 1) with
      | none =>
        rw [optGetD_none, optMapGetD_none]
        omega
      | some q =>
        obtain ⟨hq1, hq2, _, _⟩ := fwdPos_some_elim hQ
        rw [optGetD_some, optMapGetD_some]
        omega
  refine ⟨⟨?_, ?_, hlvl21, le_trans hlvl2le hwf.hlvl32, ?_, ?_, ?_, hspanres⟩,
    by rw [hdel], hkeysres, hreslength, hresnlen, hlvl2le⟩
  · -- stored length
    rw [hreslength, hresnlen, hwf.hlen]
  · -- header width
    rw [hreshdr, hhdr1]
  · -- node heights within the level
    intro n hn
    refine ⟨(hhts2 n hn).1, ?_⟩
    rw [hreslevel]
    apply shrinkLevel_bound (delAt m sl1.nodes) sl1.level
    · intro n2 hn2
      rw [hlevel1]
      exact (hhts2 n2 (by rw [hresnodes]; exact hn2)).2
    · rw [← hresnodes]
      exact hn
  · -- level witness
    rcases shrinkLevel_wit (delAt m sl1.nodes) sl1.level
        (by rw [hlevel1]; exact hwf.hlvl1) with h1 | h2
    · left
      rw [hreslevel]
      exact h1
    · right
      rw [← hreslevel] at h2
      cases hq : fwdPos res.nodes (res.level - 1) 0 with
      | none => exact absurd (by rw [hresnodes] at hq; exact hq) h2
      | some q =>
        obtain ⟨hq1, hq2, hq3, _⟩ := fwdPos_some_elim hq
        obtain ⟨n2, hn2, hn2l⟩ := heights_mem (by omega : 1 ≤ q) hq2
        exact ⟨n2, hn2, by omega⟩
  · -- sortedness
    rw [hkeysres]
    exact List.Pairwise.sublist (delAt_sublist m (keysOf sl)) hwf.hsort

/-! ### The direct index: Go map operations on the association list -/

theorem lookup_cons_eq (k : String) (v : Int) (t : List (String × Int)) :
    List.lookup k ((k, v) :: t) = some v := by
  simp [List.lookup]

theorem lookup_cons_ne {e k : String} (v : Int) (t : List (String × Int)) (h : e ≠ k) :
    List.lookup e ((k, v) :: t) = List.lookup e t := by
  have hb : (e == k) = false := by
    rw [beq_eq_false_iff_ne]
    exact h
  simp [List.lookup, hb]

theorem lookup_none_iff (d : List (String × Int)) (e : String) :
    d.lookup e = none ↔ e ∉ d.map (fun p => p.1) := by
  induction d with
  | nil => simp
  | cons a t ih =>
    obtain ⟨k, v⟩ := a
    by_cases h : e = k
    · subst h
      rw [lookup_cons_eq]
      simp
    · rw [lookup_cons_ne v t h, ih]
      simp [h]

theorem lookup_replace_self : ∀ (d : List (String × Int)) (e : String) (s : Int),
    (d.lookup e).isSome = true →
    (d.map (fun p => if p.1 = e then (e, s) else p)).lookup e = some s
  | [], e, s => by
    intro hs
    exact absurd hs (by rw [show List.lookup e ([] : List (String × Int)) = none from rfl]; simp)
  | (k, v) :: t, e, s => by
    intro hs
    by_cases h : e = k
    · have hmk : (if ((k, v) : String × Int).1 = e then (e, s) else (k, v)) = (e, s) :=
        if_pos h.symm
      rw [List.map_cons, hmk, lookup_cons_eq]
    · have hmk : (if ((k, v) : String × Int).1 = e then (e, s) else (k, v)) = (k, v) :=
        if_neg (fun hc => h hc.symm)
      rw [List.map_cons, hmk, lookup_cons_ne v _ h]
      apply lookup_replace_self t e s
      rw [lookup_cons_ne v t h] at hs
      exact hs

theorem lookup_replace_ne : ∀ (d : List (String × Int)) (e : String) (s : Int) (e2 : String),
    e2 ≠ e → (d.map (fun p => if p.1 = e then (e, s) else p)).lookup e2 = d.lookup e2
  | [], _, _, _ => by
    intro _
    rfl
  | (k, v) :: t, e, s, e2 => by
    intro hne
    by_cases hke : k = e
    · have hmk : (if ((k, v) : String × Int).1 = e then (e, s) else (k, v)) = (e, s) :=
        if_pos hke
      rw [List.map_cons, hmk, lookup_cons_ne s _ hne,
        lookup_cons_ne v t (by rw [hke]; exact hne)]
      exact lookup_replace_ne t e s e2 hne
    · have hmk : (if ((k, v) : String × Int).1 = e then (e, s) else (k, v)) = (k, v) :=
        if_neg hke
      rw [List.map_cons, hmk]
      by_cases h2 : e2 = k
      · subst h2
        rw [lookup_cons_eq, lookup_cons_eq]
      · rw [lookup_cons_ne v _ h2, lookup_cons_ne v t h2]
        exact lookup_replace_ne t e s e2 hne

theorem lookup_append_absent : ∀ (d : List (String × Int)) (e : String) (s : Int),
    d.lookup e = none → (d ++ [(e, s)]).lookup e = some s
  | [], e, s => by
    intro _
    exact lookup_cons_eq e s []
  | (k, v) :: t, e, s => by
    intro hn
    by_cases h : e = k
    · subst h
      rw [lookup_cons_eq] at hn
      exact absurd hn (by simp)
    · rw [List.cons_append, lookup_cons_ne v _ h]
      apply lookup_append_absent t e s
      rw [lookup_cons_ne v t h] at hn
      exact hn

theorem lookup_append_ne : ∀ (d : List (String × Int)) (e : String) (s : Int) (e2 : String),
    e2 ≠ e → (d ++ [(e, s)]).lookup e2 = d.lookup e2
  | [], e, s, e2 => by
    intro hne
    show List.lookup e2 [(e, s)] = List.lookup e2 []
    rw [lookup_cons_ne s _ hne]
  | (k, v) :: t, e, s, e2 => by
    intro hne
    rw [List.cons_append]
    by_cases h2 : e2 = k
    · subst h2
      rw [lookup_cons_eq, lookup_cons_eq]
    · rw [lookup_cons_ne v _ h2, lookup_cons_ne v t h2]
      exact lookup_append_ne t e s e2 hne

theorem lookup_dictSet_self (d : List (String × Int)) (e : String) (s : Int) :
    (dictSet d e s).lookup e = some s := by
  unfold dictSet
  by_cases h : (d.lookup e).isSome = true
  · rw [if_pos h]
    exact lookup_replace_self d e s h
  · rw [if_neg h]
    apply lookup_append_absent
    cases hq : d.lookup e with
    | none => rfl
    | some v => exact absurd (by rw [hq]; rfl) h

theorem lookup_dictSet_ne (d : List (String × Int)) (e : String) (s : Int) {e2 : String}
    (hne : e2 ≠ e) : (dictSet d e s).lookup e2 = d.lookup e2 := by
  unfold dictSet
  by_cases h : (d.lookup e).isSome = true
  · rw [if_pos h]
    exact lookup_replace_ne d e s e2 hne
  · rw [if_neg h]
    exact lookup_append_ne d e s e2 hne

theorem dictErase_cons_eq {k : String} (v : Int) (t : List (String × Int)) {e : String}
    (h : k = e) : dictErase ((k, v) :: t) e = t := by
  unfold dictErase
  have hb : (((k, v) : String × Int).1 == e) = true := by
    rw [beq_iff_eq]
    exact h
  simp only [List.eraseP_cons, hb, Bool.cond_true]

theorem dictErase_cons_ne {k : String} (v : Int) (t : List (String × Int)) {e : String}
    (h : ¬ k = e) : dictErase ((k, v) :: t) e = (k, v) :: dictErase t e := by
  unfold dictErase
  have hb : (((k, v) : String × Int).1 == e) = false := by
    rw [beq_eq_false_iff_ne]
    exact h
  simp only [List.eraseP_cons, hb, Bool.cond_false]

theorem lookup_dictErase_ne : ∀ (d : List (String × Int)) (e : String) {e2 : String},
    e2 ≠ e → (dictErase d e).lookup e2 = d.lookup e2
  | [], _, _ => by
    intro _
    rfl
  | (k, v) :: t, e, e2 => by
    intro hne
    by_cases h : k = e
    · rw [dictErase_cons_eq v t h, lookup_cons_ne v t (by rw [h]; exact hne)]
    · rw [dictErase_cons_ne v t h]
      by_cases h2 : e2 = k
      · subst h2
        rw [lookup_cons_eq, lookup_cons_eq]
      · rw [lookup_cons_ne v _ h2, lookup_cons_ne v t h2]
        exact lookup_dictErase_ne t e hne

theorem lookup_dictErase_self {d : List (String × Int)} (e : String)
    (hnd : (d.map (fun p => p.1)).Nodup) : (dictErase d e).lookup e = none := by
  induction d with
  | nil => rfl
  | cons a t ih =>
    obtain ⟨k, v⟩ := a
    have hnd2 : (t.map (fun p => p.1)).Nodup := (List.nodup_cons.mp hnd).2
    have hk : k ∉ t.map (fun p => p.1) := (List.nodup_cons.mp hnd).1
    by_cases h : k = e
    · rw [dictErase_cons_eq v t h]
      apply (lookup_none_iff t e).mpr
      rw [← h]
      exact hk
    · rw [dictErase_cons_ne v t h, lookup_cons_ne v _ (fun he => h he.symm)]
      exact ih hnd2

theorem dictSet_nodup {d : List (String × Int)} {e : String} (s : Int)
    (hnd : (d.map (fun p => p.1)).Nodup) :
    ((dictSet d e s).map (fun p => p.1)).Nodup := by
  unfold dictSet
  by_cases h : (d.lookup e).isSome = true
  · rw [if_pos h, List.map_map]
    have hmap : d.map ((fun p => p.1) ∘ (fun p : String × Int => if p.1 = e then (e, s) else p))
        = d.map (fun p => p.1) := by
      apply List.map_congr_left
      intro a _
      show (if a.1 = e then (e, s) else a).1 = a.1
      by_cases ha : a.1 = e
      · rw [if_pos ha, ha]
      · rw [if_neg ha]
    rw [hmap]
    exact hnd
  · rw [if_neg h, List.map_append]
    apply List.Nodup.append hnd (List.nodup_singleton e)
    intro a ha hb
    have he : a = e := by simpa using hb
    subst he
    have hn : d.lookup a = none := by
      cases hq : d.lookup a with
      | none => rfl
      | some v => exact absurd (by rw [hq]; rfl) h
    exact (lookup_none_iff d a).mp hn ha

theorem dictErase_nodup {d : List (String × Int)} (e : String)
    (hnd : (d.map (fun p => p.1)).Nodup) :
    ((dictErase d e).map (fun p => p.1)).Nodup := by
  unfold dictErase
  exact hnd.sublist (List.Sublist.map (fun p => p.1) (List.eraseP_sublist d))

/-! ### Deleting a chain entry: membership -/

theorem mem_delAt_ne {ks : List (Int × String)} (hs : List.Pairwise keyLt ks) {m1 : Nat}
    (hm : m1 < ks.length) {x : Int × String} (hx : x ∈ delAt m1 ks) :
    x ∈ ks ∧ x ≠ nthD ks m1 (0, "") := by
  refine ⟨(delAt_sublist m1 ks).subset hx, ?_⟩
  obtain ⟨i, hi⟩ := List.get_of_mem hx
  have hilen : i.1 < ks.length - 1 := by
    have h2 := i.2
    have hld := length_delAt hm
    omega
  have hxi : x = nthD (delAt m1 ks) i.1 (0, "") := by
    rw [nthD_eq_get _ i.2, hi]
  rcases Nat.lt_or_ge i.1 m1 with h | h
  · rw [nthD_delAt_lt _ h] at hxi
    intro he
    have hlt := sorted_nthD_lt hs h hm ((0 : Int), "")
    rw [← hxi, he] at hlt
    exact keyLt_irrefl _ hlt
  · rw [nthD_delAt_ge _ h] at hxi
    intro he
    have hlt := sorted_nthD_lt hs (show m1 < i.1 + 1 by omega) (by omega) ((0 : Int), "")
    rw [← hxi, he] at hlt
    exact keyLt_irrefl _ hlt

theorem mem_delAt_of_ne {α : Type} {ks : List α} {m1 : Nat} (hm : m1 < ks.length)
    {x : α} (d : α) (hx : x ∈ ks) (hne : x ≠ nthD ks m1 d) : x ∈ delAt m1 ks := by
  obtain ⟨i, hi⟩ := List.get_of_mem hx
  have hxi : x = nthD ks i.1 d := by rw [nthD_eq_get _ i.2, hi]
  have hine : i.1 ≠ m1 := by
    intro he
    exact hne (by rw [hxi, he])
  rcases Nat.lt_or_ge i.1 m1 with h | h
  · have hv : nthD (delAt m1 ks) i.1 d = x := by
      rw [nthD_delAt_lt _ h, hxi]
    rw [← hv]
    exact nthD_mem d (by rw [length_delAt hm]; omega)
  · have hgt : m1 < i.1 := by omega
    have h2 := i.2
    have hv : nthD (delAt m1 ks) (i.1 - 1) d = x := by
      rw [nthD_delAt_ge _ (by omega)]
      have he : i.1 - 1 + 1 = i.1 := by omega
      rw [he, hxi]
    rw [← hv]
    exact nthD_mem d (by rw [length_delAt hm]; omega)

/-! ### Well-formedness of the assembled operations -/

theorem NewZSet_ZWF : ZWF NewZSet := by
  refine ⟨⟨rfl, rfl, le_refl 1, by decide, ?_, Or.inl rfl, List.Pairwise.nil, ?_⟩, ?_, ?_⟩
  · intro n hn
    exact absurd hn (List.not_mem_nil n)
  · intro p i hp hcap
    have hp0 : p = 0 := Nat.le_zero.mp hp
    subst hp0
    have hi : i = 0 := by
      unfold capAt at hcap
      rw [if_pos rfl] at hcap
      have hlv : NewZSet.zsl.level = 1 := rfl
      omega
    subst hi
    rfl
  · intro e s
    constructor
    · intro h
      simp [NewZSet, List.lookup] at h
    · intro h
      simp [NewZSet, createSkiplist, keysOf] at h
  · simp [NewZSet]

theorem Add_absent_spec {z : ZSet} (hz : ZWF z) {lvl : Nat} (h1 : 1 ≤ lvl) (h32 : lvl ≤ 32)
    {ele : String} (score : Int) (habs : z.dict.lookup ele = none) :
    Add z lvl ele score
      = (⟨dictSet z.dict ele score, slInsert z.zsl lvl score ele⟩, true) ∧
    ZWF (Add z lvl ele score).1 ∧
    keysOf (Add z lvl ele score).1.zsl
      = insAt (cntLt (keysOf z.zsl) (score, ele)) (score, ele) (keysOf z.zsl) ∧
    (Add z lvl ele score).1.zsl.length = z.zsl.length + 1 := by
  have hnk : ∀ s, (s, ele) ∉ keysOf z.zsl := by
    intro s hmem
    have h := (hz.hdict ele s).mpr hmem
    rw [habs] at h
    exact absurd h (by simp)
  have hins := slInsert_spec hz.hsl h1 h32 (hnk score)
  have heq : Add z lvl ele score
      = (⟨dictSet z.dict ele score, slInsert z.zsl lvl score ele⟩, true) := by
    unfold Add
    rw [habs]
  obtain ⟨hwf2, hkeys2, hlvl2, hlen2, hnlen2⟩ := hins
  refine ⟨heq, ?_, ?_, ?_⟩
  · rw [heq]
    refine ⟨hwf2, ?_, dictSet_nodup score hz.hnodup⟩
    intro e s
    show (dictSet z.dict ele score).lookup e = some s
      ↔ (s, e) ∈ keysOf (slInsert z.zsl lvl score ele)
    rw [hkeys2, mem_insAt]
    by_cases he : e = ele
    · subst he
      rw [lookup_dictSet_self]
      constructor
      · intro hs
        injection hs with h
        exact Or.inl (by rw [h])
      · intro hmem
        rcases hmem with he2 | hmem
        · have hse : s = score := congrArg Prod.fst he2
          rw [hse]
        · exact absurd hmem (hnk s)
    · rw [lookup_dictSet_ne z.dict ele score he, hz.hdict e s]
      constructor
      · exact fun h => Or.inr h
      · intro h
        rcases h with he2 | h
        · exact absurd (congrArg Prod.snd he2) he
        · exact h
  · rw [heq]
    exact hkeys2
  · rw [heq]
    exact hlen2

theorem Add_same_spec {z : ZSet} {lvl : Nat} {ele : String} {score : Int}
    (hsome : z.dict.lookup ele = some score) : Add z lvl ele score = (z, false) := by
  unfold Add
  rw [hsome]
  show (if score = score then ((z, false) : ZSet × Bool) else _) = (z, false)
  rw [if_pos rfl]

theorem Add_diff_spec {z : ZSet} (hz : ZWF z) {lvl : Nat} (h1 : 1 ≤ lvl) (h32 : lvl ≤ 32)
    {ele : String} {old score : Int} (hsome : z.dict.lookup ele = some old)
    (hne : old ≠ score) :
    Add z lvl ele score
      = (⟨dictSet z.dict ele score,
          slInsert (slDelete z.zsl old ele).1 lvl score ele⟩, false) ∧
    ZWF (Add z lvl ele score).1 ∧
    keysOf (Add z lvl ele score).1.zsl
      = insAt (cntLt (delAt (cntLt (keysOf z.zsl) (old, ele)) (keysOf z.zsl)) (score, ele))
          (score, ele) (delAt (cntLt (keysOf z.zsl) (old, ele)) (keysOf z.zsl)) ∧
    (Add z lvl ele score).1.zsl.length = z.zsl.length := by
  have hkold : (old, ele) ∈ keysOf z.zsl := (hz.hdict ele old).mp hsome
  obtain ⟨hwfm, hret, hkeysm, hlenm, hnlenm, hlvlm⟩ := slDelete_present hz.hsl hkold
  have hm1lt : cntLt (keysOf z.zsl) (old, ele) < z.zsl.nodes.length :=
    (sorted_present hz.hsl.hsort hkold).1
  have hm1key : nthD (keysOf z.zsl) (cntLt (keysOf z.zsl) (old, ele)) (0, "") = (old, ele) := by
    have h := (sorted_present hz.hsl.hsort hkold).2.1
    rw [keyAt_eq] at h
    simpa using h
  have hkeyslen : (keysOf z.zsl).length = z.zsl.nodes.length := keysOf_length z.zsl
  have hnk2 : (score, ele) ∉ keysOf (slDelete z.zsl old ele).1 := by
    rw [hkeysm]
    intro hmem
    have hmem2 := (delAt_sublist _ _).subset hmem
    have h := (hz.hdict ele score).mpr hmem2
    rw [hsome] at h
    injection h with h2
    exact hne h2
  obtain ⟨hwf2, hkeys2, hlvl2, hlen2, hnlen2⟩ := slInsert_spec hwfm h1 h32 hnk2
  have heq : Add z lvl ele score
      = (⟨dictSet z.dict ele score,
          slInsert (slDelete z.zsl old ele).1 lvl score ele⟩, false) := by
    unfold Add
    rw [hsome]
    show (if old = score then ((z, false) : ZSet × Bool) else _) = _
    rw [if_neg hne]
  have hzlen1 : 1 ≤ z.zsl.length := by
    have h := hz.hsl.hlen
    omega
  refine ⟨heq, ?_, ?_, ?_⟩
  · rw [heq]
    refine ⟨hwf2, ?_, dictSet_nodup score hz.hnodup⟩
    intro e s
    show (dictSet z.dict ele score).lookup e = some s
      ↔ (s, e) ∈ keysOf (slInsert (slDelete z.zsl old ele).1 lvl score ele)
    rw [hkeys2, hkeysm, mem_insAt]
    by_cases he : e = ele
    · subst he
      rw [lookup_dictSet_self]
      constructor
      · intro hs
        injection hs with h
        exact Or.inl (by rw [h])
      · intro hmem
        rcases hmem with he2 | hmem
        · have hse : s = score := congrArg Prod.fst he2
          rw [hse]
        · obtain ⟨hmem2, hnev⟩ :=
            mem_delAt_ne hz.hsl.hsort (by rw [hkeyslen]; exact hm1lt) hmem
          have h := (hz.hdict e s).mpr hmem2
          rw [hsome] at h
          injection h with h2
          exact absurd (by rw [hm1key, h2]) hnev
    · rw [lookup_dictSet_ne z.dict ele score he, hz.hdict e s]
      constructor
      · intro h
        refine Or.inr (mem_delAt_of_ne (by rw [hkeyslen]; exact hm1lt) (0, "") h ?_)
        rw [hm1key]
        intro he2
        exact he (congrArg Prod.snd he2)
      · intro h
        rcases h with he2 | h
        · exact absurd (congrArg Prod.snd he2) he
        · exact (mem_delAt_ne hz.hsl.hsort (by rw [hkeyslen]; exact hm1lt) h).1
  · rw [heq]
    show keysOf (slInsert (slDelete z.zsl old ele).1 lvl score ele) = _
    rw [hkeys2, hkeysm]
  · rw [heq]
    show (slInsert (slDelete z.zsl old ele).1 lvl score ele).length = z.zsl.length
    rw [hlen2, hlenm]
    omega

theorem Remove_absent_spec {z : ZSet} {ele : String}
    (habs : z.dict.lookup ele = none) : Remove z ele = (z, false) := by
  unfold Remove
  rw [habs]

theorem Remove_present_spec {z : ZSet} (hz : ZWF z) {ele : String} {s : Int}
    (hsome : z.dict.lookup ele = some s) :
    Remove z ele
      = (⟨dictErase z.dict ele, (slDelete z.zsl s ele).1⟩, true) ∧
    ZWF (Remove z ele).1 ∧
    keysOf (Remove z ele).1.zsl
      = delAt (cntLt (keysOf z.zsl) (s, ele)) (keysOf z.zsl) ∧
    (Remove z ele).1.zsl.length = z.zsl.length - 1 := by
  have hkold : (s, ele) ∈ keysOf z.zsl := (hz.hdict ele s).mp hsome
  obtain ⟨hwfm, hret, hkeysm, hlenm, hnlenm, hlvlm⟩ := slDelete_present hz.hsl hkold
  have hm1lt : cntLt (keysOf z.zsl) (s, ele) < z.zsl.nodes.length :=
    (sorted_present hz.hsl.hsort hkold).1
  have hm1key : nthD (keysOf z.zsl) (cntLt (keysOf z.zsl) (s, ele)) (0, "") = (s, ele) := by
    have h := (sorted_present hz.hsl.hsort hkold).2.1
    rw [keyAt_eq] at h
    simpa using h
  have hkeyslen : (keysOf z.zsl).length = z.zsl.nodes.length := keysOf_length z.zsl
  have heq : Remove z ele
      = (⟨dictErase z.dict ele, (slDelete z.zsl s ele).1⟩, true) := by
    unfold Remove
    rw [hsome]
  refine ⟨heq, ?_, ?_, ?_⟩
  · rw [heq]
    refine ⟨hwfm, ?_, dictErase_nodup ele hz.hnodup⟩
    intro e s2
    show (dictErase z.dict ele).lookup e = some s2
      ↔ (s2, e) ∈ keysOf (slDelete z.zsl s ele).1
    rw [hkeysm]
    by_cases he : e = ele
    · subst he
      rw [lookup_dictErase_self e hz.hnodup]
      constructor
      · intro h
        exact absurd h (by simp)
      · intro hmem
        obtain ⟨hmem2, hnev⟩ :=
          mem_delAt_ne hz.hsl.hsort (by rw [hkeyslen]; exact hm1lt) hmem
        have h := (hz.hdict e s2).mpr hmem2
        rw [hsome] at h
        injection h with h2
        exact absurd (by rw [hm1key, h2]) hnev
    · rw [lookup_dictErase_ne z.dict ele he, hz.hdict e s2]
      constructor
      · intro h
        refine mem_delAt_of_ne (by rw [hkeyslen]; exact hm1lt) (0, "") h ?_
        rw [hm1key]
        intro he2
        exact he (congrArg Prod.snd he2)
      · intro h
        exact (mem_delAt_ne hz.hsl.hsort (by rw [hkeyslen]; exact hm1lt) h).1
  · rw [heq]
    exact hkeysm
  · rw [heq]
    exact hlenm

theorem Add_ZWF {z : ZSet} (hz : ZWF z) {lvl : Nat} (h1 : 1 ≤ lvl) (h32 : lvl ≤ 32)
    (ele : String) (score : Int) : ZWF (Add z lvl ele score).1 := by
  cases hq : z.dict.lookup ele with
  | none => exact (Add_absent_spec hz h1 h32 score hq).2.1
  | some old =>
    by_cases he : old = score
    · subst he
      rw [Add_same_spec hq]
      exact hz
    · exact (Add_diff_spec hz h1 h32 hq he).2.1

theorem Remove_ZWF {z : ZSet} (hz : ZWF z) (ele : String) : ZWF (Remove z ele).1 := by
  cases hq : z.dict.lookup ele with
  | none =>
    rw [Remove_absent_spec hq]
    exact hz
  | some s => exact (Remove_present_spec hz hq).2.1

theorem reachable_ZWF {z : ZSet} (h : Reachable z) : ZWF z := by
  induction h with
  | empty => exact NewZSet_ZWF
  | add z lvl ele score hz hl1 hl32 ih => exact Add_ZWF ih hl1 hl32 ele score
  | remove z ele hz ih => exact Remove_ZWF ih ele

/-! ### Round trip of a fresh insertion -/

theorem takeWhile_append_all {α : Type} (P : α → Bool) :
    ∀ (l1 l2 : List α), (∀ a, a ∈ l1 → P a = true) →
      (l1 ++ l2).takeWhile P = l1 ++ l2.takeWhile P
  | [], l2 => fun _ => rfl
  | a :: t, l2 => by
    intro hall
    rw [List.cons_append, List.takeWhile_cons_of_pos (hall a (List.mem_cons_self a t)),
      takeWhile_append_all P t l2 (fun b hb => hall b (List.mem_cons_of_mem a hb))]
    rfl

theorem takeWhile_eq_take {α : Type} (P : α → Bool) (l : List α) :
    l.takeWhile P = l.take (l.takeWhile P).length := by
  induction l with
  | nil => rfl
  | cons a t ih =>
    by_cases h : P a = true
    · rw [List.takeWhile_cons_of_pos h]
      rw [List.length_cons, List.take_succ_cons, ← ih]
    · rw [List.takeWhile_cons_of_neg (by simpa using h)]
      rfl

theorem mem_takeWhile_sat {α : Type} (P : α → Bool) :
    ∀ (l : List α) (a : α), a ∈ l.takeWhile P → P a = true
  | [], a => by
    intro h
    simp [List.takeWhile] at h
  | b :: t, a => by
    intro h
    by_cases hb : P b = true
    · rw [List.takeWhile_cons_of_pos hb] at h
      rcases List.mem_cons.mp h with he | hm
      · rw [he]
        exact hb
      · exact mem_takeWhile_sat P t a hm
    · rw [List.takeWhile_cons_of_neg (by simpa using hb)] at h
      exact absurd h (List.not_mem_nil a)

theorem cntLt_insAt_self (ks : List (Int × String)) (k : Int × String) :
    cntLt (insAt (cntLt ks k) k ks) k = cntLt ks k := by
  have hmle : cntLt ks k ≤ ks.length := cntLt_le ks k
  unfold cntLt at hmle ⊢
  rw [insAt_eq_append k hmle]
  rw [show List.take (List.takeWhile (fun a => decide (keyLt a k)) ks).length ks
      = List.takeWhile (fun a => decide (keyLt a k)) ks
    from (takeWhile_eq_take (fun a => decide (keyLt a k)) ks).symm]
  rw [takeWhile_append_all _ _ _ (fun a ha => mem_takeWhile_sat _ ks a ha)]
  rw [List.takeWhile_cons_of_neg (by
    simp only [decide_eq_true_eq]
    exact keyLt_irrefl k)]
  simp

theorem dictErase_append_absent : ∀ (d : List (String × Int)) (e : String) (s : Int),
    d.lookup e = none → dictErase (d ++ [(e, s)]) e = d
  | [], e, s => by
    intro _
    show dictErase [(e, s)] e = []
    rw [dictErase_cons_eq s [] rfl]
  | (k, v) :: t, e, s => by
    intro hn
    by_cases h : e = k
    · subst h
      rw [lookup_cons_eq] at hn
      exact absurd hn (by simp)
    · rw [List.cons_append, dictErase_cons_ne v _ (fun he => h he.symm)]
      rw [lookup_cons_ne v t h] at hn
      rw [dictErase_append_absent t e s hn]

theorem dictSet_absent_eq {d : List (String × Int)} {e : String} (s : Int)
    (habs : d.lookup e = none) : dictSet d e s = d ++ [(e, s)] := by
  unfold dictSet
  rw [if_neg (by rw [habs]; simp)]

theorem Add_Remove_roundtrip {z : ZSet} (hz : ZWF z) {lvl : Nat} (h1 : 1 ≤ lvl)
    (h32 : lvl ≤ 32) {ele : String} (score : Int) (habs : z.dict.lookup ele = none) :
    Len (Remove (Add z lvl ele score).1 ele).1 = Len z ∧
    (Remove (Add z lvl ele score).1 ele).1.dict = z.dict ∧
    keysOf (Remove (Add z lvl ele score).1 ele).1.zsl = keysOf z.zsl := by
  obtain ⟨heq1, hzwf1, hkeys1, hlen1⟩ := Add_absent_spec hz h1 h32 score habs
  have hdict1 : (Add z lvl ele score).1.dict = dictSet z.dict ele score := by rw [heq1]
  have hlk1 : (Add z lvl ele score).1.dict.lookup ele = some score := by
    rw [hdict1]
    exact lookup_dictSet_self z.dict ele score
  obtain ⟨heq2, hzwf2, hkeys2, hlen2⟩ := Remove_present_spec hzwf1 hlk1
  have hm : cntLt (keysOf (Add z lvl ele score).1.zsl) (score, ele)
      = cntLt (keysOf z.zsl) (score, ele) := by
    rw [hkeys1]
    exact cntLt_insAt_self (keysOf z.zsl) (score, ele)
  have hmle : cntLt (keysOf z.zsl) (score, ele) ≤ (keysOf z.zsl).length :=
    cntLt_le (keysOf z.zsl) (score, ele)
  refine ⟨?_, ?_, ?_⟩
  · show (Remove (Add z lvl ele score).1 ele).1.zsl.length = z.zsl.length
    rw [hlen2, hlen1]
    omega
  · rw [heq2]
    show dictErase (Add z lvl ele score).1.dict ele = z.dict
    rw [hdict1, dictSet_absent_eq score habs]
    exact dictErase_append_absent z.dict ele score habs
  · rw [hkeys2, hm, hkeys1]
    exact delAt_insAt (score, ele) hmle

/-! ### Correctness of `getRank` -/

theorem getRankAux_succ (sl : Skiplist) (score : Int) (ele : String) (i p r : Nat) :
    getRankAux sl score ele (i + 1) p r
      = (if (walkKey sl (advLe score ele) i (sl.nodes.length + 1) p r).1 ≠ 0 ∧
            keyAt sl (walkKey sl (advLe score ele) i (sl.nodes.length + 1) p r).1
              = (score, ele)
         then (walkKey sl (advLe score ele) i (sl.nodes.length + 1) p r).2
         else getRankAux sl score ele i
           (walkKey sl (advLe score ele) i (sl.nodes.length + 1) p r).1
           (walkKey sl (advLe score ele) i (sl.nodes.length + 1) p r).2) := rfl

theorem getRankAux_present {sl : Skiplist} (hwf : SLWF sl) {score : Int} {ele : String}
    (hk : (score, ele) ∈ keysOf sl) :
    ∀ i, 1 ≤ i → i ≤ sl.level →
      getRankAux sl score ele i
        (lastL sl.nodes i (cntLe (keysOf sl) (score, ele)))
        (lastL sl.nodes i (cntLe (keysOf sl) (score, ele)))
      = cntLt (keysOf sl) (score, ele) + 1 := by
  obtain ⟨hmlt, hkeyx, hLm⟩ := sorted_present hwf.hsort hk
  have hadv : ∀ q, 1 ≤ q → q ≤ sl.nodes.length →
      (advLe score ele (keyAt sl q) = true ↔ q ≤ cntLe (keysOf sl) (score, ele)) := by
    intro q hq1 hq2
    unfold advLe
    rw [decide_eq_true_eq]
    exact keyLe_threshold hwf.hsort (score, ele) q hq1 hq2
  have hmle : cntLe (keysOf sl) (score, ele) ≤ sl.nodes.length := by
    have h := cntLe_le (keysOf sl) (score, ele)
    rw [keysOf_length] at h
    exact h
  have hhx : 1 ≤ heightAt sl.nodes (cntLt (keysOf sl) (score, ele) + 1) := by
    obtain ⟨n2, hn2, hn2l⟩ := heights_mem (by omega : 1 ≤ cntLt (keysOf sl) (score, ele) + 1)
      (by omega : cntLt (keysOf sl) (score, ele) + 1 ≤ sl.nodes.length)
    have hb := (hwf.hhts n2 hn2).1
    omega
  intro i
  induction i with
  | zero =>
    intro hc _
    exact absurd hc (by omega)
  | succ i ih =>
    intro _ hle2
    have hwalk := walkKey_char hwf (advLe score ele) hmle hadv (by omega : i < sl.level)
      (sl.nodes.length + 1) (lastL sl.nodes (i + 1) (cntLe (keysOf sl) (score, ele)))
      (by have := lastL_le sl.nodes (i + 1) (cntLe (keysOf sl) (score, ele)); omega)
      (lastL_le sl.nodes (i + 1) _)
      (by
        rcases lastL_on_level sl.nodes (i + 1) (cntLe (keysOf sl) (score, ele))
            with h | ⟨hh1, hh2⟩
        · exact Or.inl h
        · exact Or.inr (by omega))
    rw [getRankAux_succ, hwalk]
    by_cases hpart : i < heightAt sl.nodes (cntLt (keysOf sl) (score, ele) + 1)
    · have hu : lastL sl.nodes i (cntLe (keysOf sl) (score, ele))
          = cntLt (keysOf sl) (score, ele) + 1 := by
        have hub := lastL_le sl.nodes i (cntLe (keysOf sl) (score, ele))
        have hlb := @lastL_max sl.nodes i (cntLe (keysOf sl) (score, ele))
          (cntLt (keysOf sl) (score, ele) + 1) (by omega) (by omega) hpart
        omega
      rw [hu]
      rw [if_pos ⟨by omega, hkeyx⟩]
    · have hune : lastL sl.nodes i (cntLe (keysOf sl) (score, ele))
          ≠ cntLt (keysOf sl) (score, ele) + 1 := by
        intro he
        rcases lastL_on_level sl.nodes i (cntLe (keysOf sl) (score, ele))
            with h0 | ⟨hh1, hh2⟩
        · omega
        · rw [he] at hh2
          exact hpart hh2
      have hi1 : 1 ≤ i := by
        by_contra hi0
        have hi00 : i = 0 := by omega
        rw [hi00] at hpart
        exact hpart (by omega)
      rw [if_neg (by
        intro hc
        obtain ⟨hc1, hc2⟩ := hc
        have hub := lastL_le sl.nodes i (cntLe (keysOf sl) (score, ele))
        have := keyAt_inj hwf.hsort (by omega) (by omega) (by omega) (by omega)
          (hc2.trans hkeyx.symm)
        exact hune this)]
      exact ih hi1 (by omega)

theorem getRank_present {sl : Skiplist} (hwf : SLWF sl) {score : Int} {ele : String}
    (hk : (score, ele) ∈ keysOf sl) :
    getRank sl score ele = cntLt (keysOf sl) (score, ele) + 1 := by
  unfold getRank
  have hmle : cntLe (keysOf sl) (score, ele) ≤ sl.nodes.length := by
    have h := cntLe_le (keysOf sl) (score, ele)
    rw [keysOf_length] at h
    exact h
  have h0 : lastL sl.nodes sl.level (cntLe (keysOf sl) (score, ele)) = 0 :=
    lastL_top (fun n hn => (hwf.hhts n hn).2) hmle
  have h := getRankAux_present hwf hk sl.level hwf.hlvl1 (le_refl _)
  rw [h0] at h
  exact h

theorem getRankAux_absent {sl : Skiplist} (hwf : SLWF sl) {score : Int} {ele : String}
    (habs : (score, ele) ∉ keysOf sl) :
    ∀ i, i ≤ sl.level →
      getRankAux sl score ele i
        (lastL sl.nodes i (cntLe (keysOf sl) (score, ele)))
        (lastL sl.nodes i (cntLe (keysOf sl) (score, ele)))
      = 0 := by
  have hne := (sorted_absent hwf.hsort habs).2
  have hadv : ∀ q, 1 ≤ q → q ≤ sl.nodes.length →
      (advLe score ele (keyAt sl q) = true ↔ q ≤ cntLe (keysOf sl) (score, ele)) := by
    intro q hq1 hq2
    unfold advLe
    rw [decide_eq_true_eq]
    exact keyLe_threshold hwf.hsort (score, ele) q hq1 hq2
  have hmle : cntLe (keysOf sl) (score, ele) ≤ sl.nodes.length := by
    have h := cntLe_le (keysOf sl) (score, ele)
    rw [keysOf_length] at h
    exact h
  intro i
  induction i with
  | zero =>
    intro _
    rfl
  | succ i ih =>
    intro hle2
    have hwalk := walkKey_char hwf (advLe score ele) hmle hadv (by omega : i < sl.level)
      (sl.nodes.length + 1) (lastL sl.nodes (i + 1) (cntLe (keysOf sl) (score, ele)))
      (by have := lastL_le sl.nodes (i + 1) (cntLe (keysOf sl) (score, ele)); omega)
      (lastL_le sl.nodes (i + 1) _)
      (by
        rcases lastL_on_level sl.nodes (i + 1) (cntLe (keysOf sl) (score, ele))
            with h | ⟨hh1, hh2⟩
        · exact Or.inl h
        · exact Or.inr (by omega))
    rw [getRankAux_succ, hwalk]
    rw [if_neg (by
      intro hc
      obtain ⟨hc1, hc2⟩ := hc
      have hub := lastL_le sl.nodes i (cntLe (keysOf sl) (score, ele))
      exact hne _ (by omega) (by omega) hc2)]
    exact ih (by omega)

theorem getRank_absent {sl : Skiplist} (hwf : SLWF sl) {score : Int} {ele : String}
    (habs : (score, ele) ∉ keysOf sl) : getRank sl score ele = 0 := by
  unfold getRank
  have hmle : cntLe (keysOf sl) (score, ele) ≤ sl.nodes.length := by
    have h := cntLe_le (keysOf sl) (score, ele)
    rw [keysOf_length] at h
    exact h
  have h0 : lastL sl.nodes sl.level (cntLe (keysOf sl) (score, ele)) = 0 :=
    lastL_top (fun n hn => (hwf.hhts n hn).2) hmle
  have h := getRankAux_absent hwf habs sl.level (le_refl _)
  rw [h0] at h
  exact h

/-! ### Correctness of `getElementByRank` -/

theorem walkRank_char {sl : Skiplist} (hwf : SLWF sl) {t : Nat} (ht : t ≤ sl.nodes.length)
    {i : Nat} (hi : i < sl.level) :
    ∀ fuel p, sl.nodes.length < fuel + p → p ≤ t → (p = 0 ∨ i < heightAt sl.nodes p) →
      walkRank sl t i fuel p p = (lastL sl.nodes i t, lastL sl.nodes i t) := by
  intro fuel
  induction fuel with
  | zero =>
    intro p hf hp hlv
    omega
  | succ f ih =>
    intro p hf hp hlv
    cases hq : fwdPos sl.nodes i p with
    | none =>
      simp only [walkRank, hq]
      have hno := fwdPos_none_elim hq
      rw [lastL_eq_self hp ht hlv (fun r h1 h2 => hno r h1 (by omega))]
    | some q =>
      simp only [walkRank, hq]
      obtain ⟨hq1, hq2, hq3, hq4⟩ := fwdPos_some_elim hq
      have hcap : i < capAt sl p := by
        unfold capAt
        by_cases h0 : p = 0
        · rw [if_pos h0]
          exact hi
        · rw [if_neg h0]
          rcases hlv with h | h
          · omega
          · exact h
      have hspan : spanAt sl p i = q - p := by
        have h := hwf.hspan p i (by omega) hcap
        rw [hq] at h
        simpa using h
      rw [hspan]
      have he : p + (q - p) = q := by omega
      rw [he]
      by_cases hc : q ≤ t
      · rw [if_pos hc]
        exact ih q (by omega) hc (Or.inr hq3)
      · rw [if_neg hc]
        rw [lastL_eq_self hp ht hlv (fun r h1 h2 => hq4 r h1 (by omega))]

theorem getElByRankAux_succ (sl : Skiplist) (t i p tr : Nat) :
    getElByRankAux sl t (i + 1) p tr
      = (if (walkRank sl t i (sl.nodes.length + 1) p tr).2 = t
         then some (walkRank sl t i (sl.nodes.length + 1) p tr).1
         else getElByRankAux sl t i (walkRank sl t i (sl.nodes.length + 1) p tr).1
           (walkRank sl t i (sl.nodes.length + 1) p tr).2) := rfl

theorem getElByRankAux_some {sl : Skiplist} (hwf : SLWF sl) {t : Nat} (ht1 : 1 ≤ t)
    (ht2 : t ≤ sl.nodes.length) :
    ∀ i, 1 ≤ i → i ≤ sl.level →
      getElByRankAux sl t i (lastL sl.nodes i t) (lastL sl.nodes i t) = some t := by
  have hhx : 1 ≤ heightAt sl.nodes t := by
    obtain ⟨n2, hn2, hn2l⟩ := heights_mem ht1 ht2
    have hb := (hwf.hhts n2 hn2).1
    omega
  intro i
  induction i with
  | zero =>
    intro hc _
    exact absurd hc (by omega)
  | succ i ih =>
    intro _ hle2
    have hwalk := walkRank_char hwf ht2 (by omega : i < sl.level)
      (sl.nodes.length + 1) (lastL sl.nodes (i + 1) t)
      (by have := lastL_le sl.nodes (i + 1) t; omega)
      (lastL_le sl.nodes (i + 1) t)
      (by
        rcases lastL_on_level sl.nodes (i + 1) t with h | ⟨hh1, hh2⟩
        · exact Or.inl h
        · exact Or.inr (by omega))
    rw [getElByRankAux_succ, hwalk]
    by_cases hpart : i < heightAt sl.nodes t
    · have hu : lastL sl.nodes i t = t := by
        have hub := lastL_le sl.nodes i t
        have hlb := lastL_max ht1 (le_refl t) hpart
        omega
      rw [hu, if_pos rfl]
    · have hune : lastL sl.nodes i t ≠ t := by
        intro he
        rcases lastL_on_level sl.nodes i t with h0 | ⟨hh1, hh2⟩
        · omega
        · rw [he] at hh2
          exact hpart hh2
      have hi1 : 1 ≤ i := by
        by_contra hi0
        have hi00 : i = 0 := by omega
        rw [hi00] at hpart
        exact hpart (by omega)
      rw [if_neg hune]
      exact ih hi1 (by omega)

theorem getElementByRank_correct {sl : Skiplist} (hwf : SLWF sl) {r : Nat} (h1 : 1 ≤ r)
    (h2 : r ≤ sl.length) : getElementByRank sl r = some r := by
  unfold getElementByRank
  rw [if_neg (by omega : ¬ (r = 0 ∨ sl.length < r))]
  have hlen := hwf.hlen
  have h0 : lastL sl.nodes sl.level r = 0 :=
    lastL_top (fun n hn => (hwf.hhts n hn).2) (by omega)
  have h := getElByRankAux_some hwf h1 (by omega) sl.level hwf.hlvl1 (le_refl _)
  rw [h0] at h
  exact h

/-! ### Correctness of `RangeByScore` -/

theorem drop_eq_nthD_cons {α : Type} (d : α) :
    ∀ (l : List α) (j : Nat), j < l.length → l.drop j = nthD l j d :: l.drop (j + 1)
  | [], j => by
    intro h
    simp at h
  | a :: t, 0 => fun _ => rfl
  | a :: t, j + 1 => by
    intro h
    show t.drop j = nthD t j d :: t.drop (j + 1)
    exact drop_eq_nthD_cons d t j (by simpa using h)

theorem dropWhile_eq_drop {α : Type} (P : α → Bool) :
    ∀ l : List α, l.dropWhile P = l.drop (l.takeWhile P).length
  | [] => rfl
  | a :: t => by
    by_cases h : P a = true
    · rw [List.dropWhile_cons_of_pos h, List.takeWhile_cons_of_pos h]
      exact dropWhile_eq_drop P t
    · rw [List.dropWhile_cons_of_neg (by simpa using h),
        List.takeWhile_cons_of_neg (by simpa using h)]
      rfl

theorem takeWhile_map {α β : Type} (f : α → β) (P : β → Bool) :
    ∀ l : List α, (l.map f).takeWhile P = (l.takeWhile (fun a => P (f a))).map f
  | [] => rfl
  | a :: t => by
    by_cases h : P (f a) = true
    · have hr : (a :: t).takeWhile (fun a => P (f a)) = a :: t.takeWhile (fun a => P (f a)) :=
        List.takeWhile_cons_of_pos h
      rw [List.map_cons, List.takeWhile_cons_of_pos h, hr, List.map_cons,
        takeWhile_map f P t]
    · have hr : (a :: t).takeWhile (fun a => P (f a)) = [] :=
        List.takeWhile_cons_of_neg (by simpa using h)
      rw [List.map_cons, List.takeWhile_cons_of_neg (by simpa using h), hr]
      rfl

theorem rbsSkip_correct {sl : Skiplist} (hwf : SLWF sl) (mx : Int) :
    ∀ (n j : Nat), j ≤ sl.nodes.length →
      ∃ j2, j ≤ j2 ∧ j2 ≤ sl.nodes.length ∧
        rbsSkip sl mx n (fwdPos sl.nodes 0 j) = fwdPos sl.nodes 0 j2 ∧
        ((rangeSpecSkip mx n
            (((sl.nodes.map (fun nd => (nd.ele, nd.score)))).drop j)
          = some (((sl.nodes.map (fun nd => (nd.ele, nd.score)))).drop j2)) ∨
         (rangeSpecSkip mx n
            (((sl.nodes.map (fun nd => (nd.ele, nd.score)))).drop j)
          = none ∧ j2 < sl.nodes.length ∧ mx < (nodeAt sl (j2 + 1)).score)) := by
  have h1le : ∀ n, n ∈ sl.nodes → 1 ≤ n.spans.length := fun n hn => (hwf.hhts n hn).1
  intro n
  induction n with
  | zero =>
    intro j hj
    exact ⟨j, le_refl j, hj, rfl, Or.inl rfl⟩
  | succ n ih =>
    intro j hj
    by_cases hlt : j < sl.nodes.length
    · have hfw : fwdPos sl.nodes 0 j = some (j + 1) := by
        rw [fwdPos_zero h1le, if_pos hlt]
      have hdlen : j < (sl.nodes.map (fun nd => (nd.ele, nd.score))).length := by
        rw [List.length_map]
        exact hlt
      have hdrop := drop_eq_nthD_cons ("", (0 : Int))
        (sl.nodes.map (fun nd => (nd.ele, nd.score))) j hdlen
      have hnth : nthD (sl.nodes.map (fun nd => (nd.ele, nd.score))) j ("", (0 : Int))
          = ((nodeAt sl (j + 1)).ele, (nodeAt sl (j + 1)).score) := by
        rw [show (("", (0 : Int)) : String × Int)
            = (fun nd : SLNode => (nd.ele, nd.score)) defNode from rfl, nthD_map]
        unfold nodeAt
        rfl
      rw [hfw]
      show ∃ j2, _ ∧ _ ∧
        (if mx < (nodeAt sl (j + 1)).score then some (j + 1)
         else rbsSkip sl mx n (fwdPos sl.nodes 0 (j + 1))) = _ ∧ _
      by_cases hbad : mx < (nodeAt sl (j + 1)).score
      · refine ⟨j, le_refl j, hj, ?_, Or.inr ⟨?_, hlt, hbad⟩⟩
        · rw [if_pos hbad, hfw]
        · rw [hdrop, hnth]
          show (if mx < (nodeAt sl (j + 1)).score then none else _) = none
          rw [if_pos hbad]
      · obtain ⟨j2, hj2a, hj2b, hj2c, hj2d⟩ := ih (j + 1) (by omega)
        refine ⟨j2, by omega, hj2b, ?_, ?_⟩
        · rw [if_neg hbad]
          exact hj2c
        · rw [hdrop, hnth]
          show (if mx < (nodeAt sl (j + 1)).score then none
            else rangeSpecSkip mx n _) = _ ∨
            ((if mx < (nodeAt sl (j + 1)).score then none
              else rangeSpecSkip mx n _) = none ∧ _ ∧ _)
          rw [if_neg hbad]
          exact hj2d
    · have hj2 : j = sl.nodes.length := by omega
      subst hj2
      have hfw : fwdPos sl.nodes 0 sl.nodes.length = none := by
        rw [fwdPos_zero h1le, if_neg (by omega)]
      have hdrop : (sl.nodes.map (fun nd => (nd.ele, nd.score))).drop sl.nodes.length
          = [] := by
        apply List.drop_eq_nil_of_le
        rw [List.length_map]
      rw [hfw, hdrop]
      exact ⟨sl.nodes.length, le_refl _, le_refl _, by rw [hfw]; rfl,
        Or.inl (by rw [hdrop]; rfl)⟩

theorem rbsCollect_correct {sl : Skiplist} (hwf : SLWF sl) (mx count : Int) :
    ∀ (fuel j : Nat) (ret : Int), j ≤ sl.nodes.length → sl.nodes.length < fuel + j →
      rbsCollect sl mx count fuel (fwdPos sl.nodes 0 j) ret
        = (if count < 0
           then ((sl.nodes.map (fun nd => (nd.ele, nd.score))).drop j).takeWhile
             (fun a => decide (a.2 ≤ mx))
           else (((sl.nodes.map (fun nd => (nd.ele, nd.score))).drop j).takeWhile
             (fun a => decide (a.2 ≤ mx))).take (count - ret).toNat) := by
  have h1le : ∀ n, n ∈ sl.nodes → 1 ≤ n.spans.length := fun n hn => (hwf.hhts n hn).1
  intro fuel
  induction fuel with
  | zero =>
    intro j ret hj hf
    omega
  | succ fuel ih =>
    intro j ret hj hf
    by_cases hlt : j < sl.nodes.length
    · have hfw : fwdPos sl.nodes 0 j = some (j + 1) := by
        rw [fwdPos_zero h1le, if_pos hlt]
      have hdlen : j < (sl.nodes.map (fun nd => (nd.ele, nd.score))).length := by
        rw [List.length_map]
        exact hlt
      have hdrop := drop_eq_nthD_cons ("", (0 : Int))
        (sl.nodes.map (fun nd => (nd.ele, nd.score))) j hdlen
      have hnth : nthD (sl.nodes.map (fun nd => (nd.ele, nd.score))) j ("", (0 : Int))
          = ((nodeAt sl (j + 1)).ele, (nodeAt sl (j + 1)).score) := by
        rw [show (("", (0 : Int)) : String × Int)
            = (fun nd : SLNode => (nd.ele, nd.score)) defNode from rfl, nthD_map]
        unfold nodeAt
        rfl
      rw [hfw, hdrop, hnth]
      show (if count < 0 ∨ ret < count then
          if mx < (nodeAt sl (j + 1)).score then []
          else ((nodeAt sl (j + 1)).ele, (nodeAt sl (j + 1)).score) ::
            rbsCollect sl mx count fuel (fwdPos sl.nodes 0 (j + 1)) (ret + 1)
        else []) = _
      by_cases hgo : count < 0 ∨ ret < count
      · rw [if_pos hgo]
        by_cases hbad : mx < (nodeAt sl (j + 1)).score
        · rw [if_pos hbad]
          rw [List.takeWhile_cons_of_neg (by
            simp only [decide_eq_true_eq]
            omega)]
          by_cases hcnt : count < 0
          · rw [if_pos hcnt]
          · rw [if_neg hcnt, List.take_nil]
        · rw [if_neg hbad]
          rw [List.takeWhile_cons_of_pos (by
            simp only [decide_eq_true_eq]
            omega)]
          rw [ih (j + 1) (ret + 1) (by omega) (by omega)]
          by_cases hcnt : count < 0
          · rw [if_pos hcnt, if_pos hcnt]
          · rw [if_neg hcnt, if_neg hcnt]
            have hrc : ret < count := by
              rcases hgo with h | h
              · omega
              · exact h
            have htn : (count - ret).toNat = (count - (ret + 1)).toNat + 1 := by omega
            rw [htn, List.take_succ_cons]
      · rw [if_neg hgo]
        have hcnt : ¬ count < 0 := fun h => hgo (Or.inl h)
        have hrc : ¬ ret < count := fun h => hgo (Or.inr h)
        rw [if_neg hcnt]
        have htn : (count - ret).toNat = 0 := by omega
        rw [htn, List.take_zero]
    · have hj2 : j = sl.nodes.length := by omega
      subst hj2
      have hfw : fwdPos sl.nodes 0 sl.nodes.length = none := by
        rw [fwdPos_zero h1le, if_neg (by omega)]
      have hdrop : (sl.nodes.map (fun nd => (nd.ele, nd.score))).drop sl.nodes.length
          = [] := by
        apply List.drop_eq_nil_of_le
        rw [List.length_map]
      rw [hfw, hdrop]
      show ([] : List (String × Int)) = _
      rw [List.takeWhile_nil]
      by_cases hcnt : count < 0
      · rw [if_pos hcnt]
      · rw [if_neg hcnt, List.take_nil]

theorem RangeByScore_correct {z : ZSet} (hwf : SLWF z.zsl) (mn mx offset count : Int) :
    RangeByScore z mn mx offset count = rangeSpec (dataOf z) mn mx offset count := by
  have h1le : ∀ n, n ∈ z.zsl.nodes → 1 ≤ n.spans.length := fun n hn => (hwf.hhts n hn).1
  have hadv : ∀ q, 1 ≤ q → q ≤ z.zsl.nodes.length →
      (advScore mn (keyAt z.zsl q) = true ↔ q ≤ cntScoreLt (keysOf z.zsl) mn) := by
    intro q h1 h2
    unfold advScore
    rw [decide_eq_true_eq]
    exact scoreLt_threshold hwf.hsort mn q h1 h2
  have hmle : cntScoreLt (keysOf z.zsl) mn ≤ z.zsl.nodes.length := by
    unfold cntScoreLt
    have h : (List.takeWhile (fun a : Int × String => decide (a.1 < mn))
        (keysOf z.zsl)).length ≤ (keysOf z.zsl).length :=
      (List.takeWhile_sublist _).length_le
    rw [keysOf_length] at h
    exact h
  obtain ⟨hurlen, hurnth⟩ := descend_top hwf (advScore mn) hmle hadv
  have hp0 : (nthD (descend z.zsl (advScore mn) z.zsl.level 0 0) 0 (0, 0)).1
      = cntScoreLt (keysOf z.zsl) mn := by
    rw [hurnth 0 (by have := hwf.hlvl1; omega)]
    exact lastL_level_zero h1le hmle
  have hdw : (dataOf z).dropWhile (fun a => decide (a.2 < mn))
      = (z.zsl.nodes.map (fun nd => (nd.ele, nd.score))).drop
          (cntScoreLt (keysOf z.zsl) mn) := by
    unfold dataOf
    rw [dropWhile_eq_drop]
    have hlen : ((z.zsl.nodes.map (fun nd => (nd.ele, nd.score))).takeWhile
        (fun a => decide (a.2 < mn))).length = cntScoreLt (keysOf z.zsl) mn := by
      rw [takeWhile_map]
      unfold cntScoreLt keysOf
      rw [takeWhile_map]
      rw [List.length_map, List.length_map]
    rw [hlen]
  simp only [RangeByScore]
  rw [hp0]
  have hoffeq : (if offset < 0 then 0 else offset).toNat = (max offset 0).toNat := by
    rcases lt_or_ge offset 0 with h | h
    · rw [if_pos h]
      omega
    · rw [if_neg (by omega)]
      omega
  rw [hoffeq]
  obtain ⟨j2, hj2a, hj2b, hj2c, hj2d⟩ :=
    rbsSkip_correct hwf mx (max offset 0).toNat (cntScoreLt (keysOf z.zsl) mn) hmle
  rw [hj2c]
  rw [rbsCollect_correct hwf mx count (z.zsl.nodes.length + 1) j2 0 hj2b (by omega)]
  unfold rangeSpec
  rw [hdw]
  rcases hj2d with hok | ⟨habort, hj2lt, hbad⟩
  · rw [hok]
    show _ = (if count < 0 then _ else _)
    have hz : count - 0 = count := by omega
    rw [hz]
  · rw [habort]
    show _ = ([] : List (String × Int))
    have hdlen : j2 < (z.zsl.nodes.map (fun nd => (nd.ele, nd.score))).length := by
      rw [List.length_map]
      exact hj2lt
    have hdrop := drop_eq_nthD_cons ("", (0 : Int))
      (z.zsl.nodes.map (fun nd => (nd.ele, nd.score))) j2 hdlen
    have hnth : nthD (z.zsl.nodes.map (fun nd => (nd.ele, nd.score))) j2 ("", (0 : Int))
        = ((nodeAt z.zsl (j2 + 1)).ele, (nodeAt z.zsl (j2 + 1)).score) := by
      rw [show (("", (0 : Int)) : String × Int)
          = (fun nd : SLNode => (nd.ele, nd.score)) defNode from rfl, nthD_map]
      unfold nodeAt
      rfl
    rw [hdrop, hnth, List.takeWhile_cons_of_neg (by
      simp only [decide_eq_true_eq]
      omega)]
    by_cases hcnt : count < 0
    · rw [if_pos hcnt]
    · rw [if_neg hcnt, List.take_nil]

/-! ### Span sums along a level equal ranks -/

theorem mem_heightAt {nodes : List SLNode} {n : SLNode} (hn : n ∈ nodes) :
    ∃ r, 1 ≤ r ∧ r ≤ nodes.length ∧ heightAt nodes r = n.spans.length := by
  obtain ⟨i, hi⟩ := List.get_of_mem hn
  refine ⟨i.1 + 1, by omega, by have h2 := i.2; omega, ?_⟩
  unfold heightAt
  have he : i.1 + 1 - 1 = i.1 := by omega
  rw [he, nthD_eq_get defNode i.2, hi]

theorem spanSumTo_succ (sl : Skiplist) (i q : Nat) :
    spanSumTo sl i (q + 1) = spanSumTo sl i q
      + (if q = 0 ∨ i < heightAt sl.nodes q then spanAt sl q i else 0) := by
  unfold spanSumTo
  rw [List.range_succ, List.filter_append, List.foldl_append]
  by_cases h : q = 0 ∨ i < heightAt sl.nodes q
  · rw [if_pos h]
    have hb : (q == 0 || decide (i < heightAt sl.nodes q)) = true := by
      rcases h with h | h
      · simp [h]
      · simp [h]
    rw [List.filter_cons_of_pos (by exact hb), List.filter_nil]
    rfl
  · rw [if_neg h]
    have hb : ¬ (q == 0 || decide (i < heightAt sl.nodes q)) = true := by
      intro hc
      rcases Bool.or_eq_true_iff.mp hc with hc | hc
      · exact h (Or.inl (by simpa using hc))
      · exact h (Or.inr (by simpa using hc))
    rw [List.filter_cons_of_neg (by exact hb), List.filter_nil]
    exact (Nat.add_zero _).symm

theorem spanSumTo_stable (sl : Skiplist) (i : Nat) :
    ∀ (b a : Nat), a ≤ b →
      (∀ r, a ≤ r → r < b → ¬ (r = 0 ∨ i < heightAt sl.nodes r)) →
      spanSumTo sl i b = spanSumTo sl i a
  | 0, a => by
    intro hab _
    have h : a = 0 := by omega
    rw [h]
  | b + 1, a => by
    intro hab hno
    by_cases hba : a = b + 1
    · rw [hba]
    · have hab2 : a ≤ b := by omega
      rw [spanSumTo_succ, if_neg (hno b hab2 (by omega)),
        spanSumTo_stable sl i b a hab2 (fun r h1 h2 => hno r h1 (by omega))]
      omega

theorem spanSumTo_rank {sl : Skiplist} (hwf : SLWF sl) :
    ∀ q, 1 ≤ q → q ≤ sl.nodes.length → ∀ i, i < heightAt sl.nodes q →
      spanSumTo sl i q = q := by
  intro q
  induction q using Nat.strong_induction_on with
  | _ q ihq =>
    intro hq1 hq2 i hq3
    have hisl : i < sl.level := by
      obtain ⟨n2, hn2, hn2l⟩ := heights_mem hq1 hq2
      have hb := (hwf.hhts n2 hn2).2
      omega
    have hule : lastL sl.nodes i (q - 1) ≤ q - 1 := lastL_le _ _ _
    have hfwu : fwdPos sl.nodes i (lastL sl.nodes i (q - 1)) = some q := by
      rw [lastL_fwd]
      apply fwdPos_some_intro (by omega) hq2 hq3
      intro r h1 h2
      exact absurd h2 (by omega)
    have hcap : i < capAt sl (lastL sl.nodes i (q - 1)) := by
      unfold capAt
      rcases lastL_on_level sl.nodes i (q - 1) with h0 | ⟨h1, h2⟩
      · rw [h0, if_pos rfl]
        exact hisl
      · rw [if_neg (by omega)]
        exact h2
    have hspanu : spanAt sl (lastL sl.nodes i (q - 1)) i
        = q - lastL sl.nodes i (q - 1) := by
      have h := hwf.hspan (lastL sl.nodes i (q - 1)) i (by omega) hcap
      rw [hfwu, optGetD_some] at h
      exact h
    have hstab : spanSumTo sl i q = spanSumTo sl i (lastL sl.nodes i (q - 1) + 1) := by
      apply spanSumTo_stable sl i q (lastL sl.nodes i (q - 1) + 1) (by omega)
      intro r h1 h2 hc
      rcases hc with h0 | hh
      · omega
      · exact @lastL_between sl.nodes i (q - 1) r (by omega) (by omega) hh
    rw [hstab, spanSumTo_succ]
    rcases lastL_on_level sl.nodes i (q - 1) with h0 | ⟨h1, h2⟩
    · rw [h0] at hspanu ⊢
      rw [if_pos (Or.inl rfl), hspanu]
      show spanSumTo sl i 0 + (q - 0) = q
      have h00 : spanSumTo sl i 0 = 0 := rfl
      rw [h00]
      omega
    · rw [if_pos (Or.inr h2), hspanu,
        ihq (lastL sl.nodes i (q - 1)) (by omega) h1 (by omega) i h2]
      omega

/-! ### Observational congruence: the level draws never show -/

theorem dataOf_eq_keys (z : ZSet) :
    dataOf z = (keysOf z.zsl).map (fun k => (k.2, k.1)) := by
  unfold dataOf keysOf
  rw [List.map_map]
  rfl

theorem zsl_length_congr {z1 z2 : ZSet} (h1 : ZWF z1) (h2 : ZWF z2)
    (hk : keysOf z1.zsl = keysOf z2.zsl) : z1.zsl.length = z2.zsl.length := by
  rw [h1.hsl.hlen, h2.hsl.hlen, ← keysOf_length, ← keysOf_length, hk]

theorem Rank_congr {z1 z2 : ZSet} (h1 : ZWF z1) (h2 : ZWF z2)
    (hd : z1.dict = z2.dict) (hk : keysOf z1.zsl = keysOf z2.zsl)
    (e : String) (rev : Bool) : Rank z1 e rev = Rank z2 e rev := by
  have hzz := zsl_length_congr h1 h2 hk
  cases hq : z2.dict.lookup e with
  | none =>
    have hq1 : z1.dict.lookup e = none := by rw [hd, hq]
    simp only [Rank, hq1, hq]
  | some score =>
    have hq1 : z1.dict.lookup e = some score := by rw [hd, hq]
    have hk2 : (score, e) ∈ keysOf z2.zsl := (h2.hdict e score).mp hq
    have hk1 : (score, e) ∈ keysOf z1.zsl := by rw [hk]; exact hk2
    have hg1 := getRank_present h1.hsl hk1
    have hg2 := getRank_present h2.hsl hk2
    simp only [Rank, hq1, hq]
    rw [hg1, hg2, hk, hzz]

theorem GetByRank_congr {z1 z2 : ZSet} (h1 : ZWF z1) (h2 : ZWF z2)
    (hd : z1.dict = z2.dict) (hk : keysOf z1.zsl = keysOf z2.zsl)
    (r : Int) (rev : Bool) : GetByRank z1 r rev = GetByRank z2 r rev := by
  have hzz := zsl_length_congr h1 h2 hk
  have hkeyAt : ∀ q, keyAt z1.zsl q = keyAt z2.zsl q := by
    intro q
    rw [keyAt_eq, keyAt_eq, hk]
  simp only [GetByRank, hzz]
  by_cases hc : r < 0 ∨ ((z2.zsl.length : Int) ≤ r)
  · rw [if_pos hc, if_pos hc]
  · rw [if_neg hc, if_neg hc]
    have ht1 : 1 ≤ ((if rev = true then (z2.zsl.length : Int) - 1 - r else r) + 1).toNat
        ∧ ((if rev = true then (z2.zsl.length : Int) - 1 - r else r) + 1).toNat
          ≤ z2.zsl.length := by
      by_cases hrev : rev = true
      · rw [if_pos hrev]
        omega
      · rw [if_neg hrev]
        omega
    rw [getElementByRank_correct h1.hsl ht1.1 (by rw [hzz]; exact ht1.2),
      getElementByRank_correct h2.hsl ht1.1 ht1.2]
    show ((nodeAt z1.zsl _).ele, (nodeAt z1.zsl _).score, true)
      = ((nodeAt z2.zsl _).ele, (nodeAt z2.zsl _).score, true)
    rw [show (nodeAt z1.zsl ((if rev = true then (z2.zsl.length : Int) - 1 - r else r)
          + 1).toNat).ele
        = (nodeAt z2.zsl ((if rev = true then (z2.zsl.length : Int) - 1 - r else r)
          + 1).toNat).ele from congrArg Prod.snd (hkeyAt _),
      show (nodeAt z1.zsl ((if rev = true then (z2.zsl.length : Int) - 1 - r else r)
          + 1).toNat).score
        = (nodeAt z2.zsl ((if rev = true then (z2.zsl.length : Int) - 1 - r else r)
          + 1).toNat).score from congrArg Prod.fst (hkeyAt _)]

theorem RangeByScore_congr {z1 z2 : ZSet} (h1 : ZWF z1) (h2 : ZWF z2)
    (hk : keysOf z1.zsl = keysOf z2.zsl)
    (mn mx offset count : Int) :
    RangeByScore z1 mn mx offset count = RangeByScore z2 mn mx offset count := by
  rw [RangeByScore_correct h1.hsl, RangeByScore_correct h2.hsl,
    dataOf_eq_keys, dataOf_eq_keys, hk]

theorem Add_congr {z1 z2 : ZSet} (h1 : ZWF z1) (h2 : ZWF z2)
    (hd : z1.dict = z2.dict) (hk : keysOf z1.zsl = keysOf z2.zsl)
    {l1 l2 : Nat} (hl11 : 1 ≤ l1) (hl12 : l1 ≤ 32) (hl21 : 1 ≤ l2) (hl22 : l2 ≤ 32)
    (e : String) (s : Int) :
    (Add z1 l1 e s).2 = (Add z2 l2 e s).2 ∧
    (Add z1 l1 e s).1.dict = (Add z2 l2 e s).1.dict ∧
    keysOf (Add z1 l1 e s).1.zsl = keysOf (Add z2 l2 e s).1.zsl := by
  cases hq : z2.dict.lookup e with
  | none =>
    have hq1 : z1.dict.lookup e = none := by rw [hd, hq]
    obtain ⟨heqa, _, hka, _⟩ := Add_absent_spec h1 hl11 hl12 s hq1
    obtain ⟨heqb, _, hkb, _⟩ := Add_absent_spec h2 hl21 hl22 s hq
    refine ⟨by rw [heqa, heqb], ?_, ?_⟩
    · rw [heqa, heqb]
      show dictSet z1.dict e s = dictSet z2.dict e s
      rw [hd]
    · rw [hka, hkb, hk]
  | some old =>
    have hq1 : z1.dict.lookup e = some old := by rw [hd, hq]
    by_cases he : old = s
    · subst he
      rw [Add_same_spec hq1, Add_same_spec hq]
      exact ⟨rfl, hd, hk⟩
    · obtain ⟨heqa, _, hka, _⟩ := Add_diff_spec h1 hl11 hl12 hq1 he
      obtain ⟨heqb, _, hkb, _⟩ := Add_diff_spec h2 hl21 hl22 hq he
      refine ⟨by rw [heqa, heqb], ?_, ?_⟩
      · rw [heqa, heqb]
        show dictSet z1.dict e s = dictSet z2.dict e s
        rw [hd]
      · rw [hka, hkb, hk]

theorem Remove_congr {z1 z2 : ZSet} (h1 : ZWF z1) (h2 : ZWF z2)
    (hd : z1.dict = z2.dict) (hk : keysOf z1.zsl = keysOf z2.zsl) (e : String) :
    (Remove z1 e).2 = (Remove z2 e).2 ∧
    (Remove z1 e).1.dict = (Remove z2 e).1.dict ∧
    keysOf (Remove z1 e).1.zsl = keysOf (Remove z2 e).1.zsl := by
  cases hq : z2.dict.lookup e with
  | none =>
    have hq1 : z1.dict.lookup e = none := by rw [hd, hq]
    rw [Remove_absent_spec hq1, Remove_absent_spec hq]
    exact ⟨rfl, hd, hk⟩
  | some s =>
    have hq1 : z1.dict.lookup e = some s := by rw [hd, hq]
    obtain ⟨heqa, _, hka, _⟩ := Remove_present_spec h1 hq1
    obtain ⟨heqb, _, hkb, _⟩ := Remove_present_spec h2 hq
    refine ⟨by rw [heqa, heqb], ?_, ?_⟩
    · rw [heqa, heqb]
      show dictErase z1.dict e = dictErase z2.dict e
      rw [hd]
    · rw [hka, hkb, hk]

theorem runOps_congr (f g : Nat → Nat)
    (hf : ∀ k, 1 ≤ f k ∧ f k ≤ 32) (hg : ∀ k, 1 ≤ g k ∧ g k ≤ 32) :
    ∀ (ops : List Op) (z1 z2 : ZSet) (k : Nat), ZWF z1 → ZWF z2 →
      z1.dict = z2.dict → keysOf z1.zsl = keysOf z2.zsl →
      (runOps f ops z1 k).2.2 = (runOps g ops z2 k).2.2 ∧
      ZWF (runOps f ops z1 k).1 ∧ ZWF (runOps g ops z2 k).1 ∧
      (runOps f ops z1 k).1.dict = (runOps g ops z2 k).1.dict ∧
      keysOf (runOps f ops z1 k).1.zsl = keysOf (runOps g ops z2 k).1.zsl := by
  intro ops
  induction ops with
  | nil =>
    intro z1 z2 k h1 h2 hd hk
    exact ⟨rfl, h1, h2, hd, hk⟩
  | cons op rest ih =>
    intro z1 z2 k h1 h2 hd hk
    cases op with
    | add e s =>
      obtain ⟨hb, hd2, hk2⟩ :=
        Add_congr h1 h2 hd hk (hf k).1 (hf k).2 (hg k).1 (hg k).2 e s
      have hz1b : ZWF (Add z1 (f k) e s).1 := Add_ZWF h1 (hf k).1 (hf k).2 e s
      have hz2b : ZWF (Add z2 (g k) e s).1 := Add_ZWF h2 (hg k).1 (hg k).2 e s
      have hknext : (if z1.dict.lookup e = some s then k else k + 1)
          = (if z2.dict.lookup e = some s then k else k + 1) := by rw [hd]
      obtain ⟨ihb, ihz1, ihz2, ihd, ihk⟩ := ih (Add z1 (f k) e s).1 (Add z2 (g k) e s).1
        (if z2.dict.lookup e = some s then k else k + 1) hz1b hz2b hd2 hk2
      refine ⟨?_, ?_, ?_, ?_, ?_⟩
      · show (Add z1 (f k) e s).2
            :: (runOps f rest (Add z1 (f k) e s).1
                (if z1.dict.lookup e = some s then k else k + 1)).2.2
          = (Add z2 (g k) e s).2
            :: (runOps g rest (Add z2 (g k) e s).1
                (if z2.dict.lookup e = some s then k else k + 1)).2.2
        rw [hb, hknext, ihb]
      · show ZWF (runOps f rest (Add z1 (f k) e s).1
            (if z1.dict.lookup e = some s then k else k + 1)).1
        rw [hknext]
        exact ihz1
      · exact ihz2
      · show (runOps f rest (Add z1 (f k) e s).1
            (if z1.dict.lookup e = some s then k else k + 1)).1.dict
          = (runOps g rest (Add z2 (g k) e s).1
            (if z2.dict.lookup e = some s then k else k + 1)).1.dict
        rw [hknext]
        exact ihd
      · show keysOf (runOps f rest (Add z1 (f k) e s).1
            (if z1.dict.lookup e = some s then k else k + 1)).1.zsl
          = keysOf (runOps g rest (Add z2 (g k) e s).1
            (if z2.dict.lookup e = some s then k else k + 1)).1.zsl
        rw [hknext]
        exact ihk
    | remove e =>
      obtain ⟨hb, hd2, hk2⟩ := Remove_congr h1 h2 hd hk e
      have hz1b : ZWF (Remove z1 e).1 := Remove_ZWF h1 e
      have hz2b : ZWF (Remove z2 e).1 := Remove_ZWF h2 e
      obtain ⟨ihb, ihz1, ihz2, ihd, ihk⟩ :=
        ih (Remove z1 e).1 (Remove z2 e).1 k hz1b hz2b hd2 hk2
      refine ⟨?_, ihz1, ihz2, ihd, ihk⟩
      show (Remove z1 e).2 :: (runOps f rest (Remove z1 e).1 k).2.2
        = (Remove z2 e).2 :: (runOps g rest (Remove z2 e).1 k).2.2
      rw [hb, ihb]
/-! ### The claims -/

/-- C1: for every reachable state, member and score, `Add` returns true and
inserts the pair into both the skiplist chain and the direct index when the
member is absent; returns false leaving the state unchanged when the member
is present with the same score; and when present with a different score it
replaces the old chain entry by the new one, updates the index, and returns
false. -/
theorem C1_Add_cases {z : ZSet} (hz : Reachable z) (lvl : Nat) (hl1 : 1 ≤ lvl)
    (hl32 : lvl ≤ 32) (ele : String) (score : Int) :
    (z.dict.lookup ele = none →
      (Add z lvl ele score).2 = true ∧
      (∀ k : Int × String, k ∈ keysOf (Add z lvl ele score).1.zsl
        ↔ (k = (score, ele) ∨ k ∈ keysOf z.zsl)) ∧
      (Add z lvl ele score).1.dict.lookup ele = some score ∧
      (∀ e2, e2 ≠ ele → (Add z lvl ele score).1.dict.lookup e2 = z.dict.lookup e2)) ∧
    (z.dict.lookup ele = some score → Add z lvl ele score = (z, false)) ∧
    (∀ old, z.dict.lookup ele = some old → old ≠ score →
      (Add z lvl ele score).2 = false ∧
      (∀ k : Int × String, k ∈ keysOf (Add z lvl ele score).1.zsl
        ↔ (k = (score, ele) ∨ (k ∈ keysOf z.zsl ∧ k.2 ≠ ele))) ∧
      (Add z lvl ele score).1.dict.lookup ele = some score ∧
      (∀ e2, e2 ≠ ele → (Add z lvl ele score).1.dict.lookup e2 = z.dict.lookup e2)) := by
  have hzw := reachable_ZWF hz
  refine ⟨?_, ?_, ?_⟩
  · intro habs
    obtain ⟨heq, hzwf2, hkeys, hlen⟩ := Add_absent_spec hzw hl1 hl32 score habs
    refine ⟨by rw [heq], ?_, ?_, ?_⟩
    · intro k
      rw [hkeys]
      exact mem_insAt k (score, ele) _ (keysOf z.zsl)
    · rw [heq]
      show (dictSet z.dict ele score).lookup ele = some score
      exact lookup_dictSet_self z.dict ele score
    · intro e2 he2
      rw [heq]
      show (dictSet z.dict ele score).lookup e2 = z.dict.lookup e2
      exact lookup_dictSet_ne z.dict ele score he2
  · intro hsome
    exact Add_same_spec hsome
  · intro old hsome hne
    obtain ⟨heq, hzwf2, hkeys, hlen⟩ := Add_diff_spec hzw hl1 hl32 hsome hne
    have hkold : (old, ele) ∈ keysOf z.zsl := (hzw.hdict ele old).mp hsome
    have hm1lt : cntLt (keysOf z.zsl) (old, ele) < z.zsl.nodes.length :=
      (sorted_present hzw.hsl.hsort hkold).1
    have hm1key : nthD (keysOf z.zsl) (cntLt (keysOf z.zsl) (old, ele)) ((0 : Int), "")
        = (old, ele) := by
      have hh := (sorted_present hzw.hsl.hsort hkold).2.1
      rw [keyAt_eq] at hh
      exact hh
    have hkeyslen : (keysOf z.zsl).length = z.zsl.nodes.length := keysOf_length z.zsl
    refine ⟨by rw [heq], ?_, ?_, ?_⟩
    · intro k
      rw [hkeys, mem_insAt]
      constructor
      · intro hmem
        rcases hmem with he | hmem
        · exact Or.inl he
        · obtain ⟨hmem2, hnev⟩ := mem_delAt_ne hzw.hsl.hsort
            (by rw [hkeyslen]; exact hm1lt) hmem
          refine Or.inr ⟨hmem2, ?_⟩
          intro hk2
          have hkpair : k = (k.1, ele) := by rw [← hk2]
          have hlk := (hzw.hdict ele k.1).mpr (by rw [← hk2]; exact hmem2)
          rw [hsome] at hlk
          injection hlk with h2
          exact hnev (by rw [hkpair, ← h2]; exact hm1key.symm)
      · intro hmem
        rcases hmem with he | ⟨hmem2, hk2⟩
        · exact Or.inl he
        · refine Or.inr (mem_delAt_of_ne (by rw [hkeyslen]; exact hm1lt)
            ((0 : Int), "") hmem2 ?_)
          rw [hm1key]
          intro he2
          exact hk2 (congrArg Prod.snd he2)
    · rw [heq]
      show (dictSet z.dict ele score).lookup ele = some score
      exact lookup_dictSet_self z.dict ele score
    · intro e2 he2
      rw [heq]
      show (dictSet z.dict ele score).lookup e2 = z.dict.lookup e2
      exact lookup_dictSet_ne z.dict ele score he2

/-- C2: in every reachable state each member occurs at most once on the
skiplist chain, and the direct index holds exactly the chain's
(member, score) pairs. -/
theorem C2_index_agreement {z : ZSet} (hz : Reachable z) :
    List.Pairwise (fun a b : Int × String => a.2 ≠ b.2) (keysOf z.zsl) ∧
    (∀ e s, z.dict.lookup e = some s ↔ (s, e) ∈ keysOf z.zsl) := by
  have hzw := reachable_ZWF hz
  refine ⟨?_, hzw.hdict⟩
  apply List.Pairwise.imp_of_mem ?_ hzw.hsl.hsort
  intro a b ha hb hab he
  have h1 := (hzw.hdict a.2 a.1).mpr ha
  have h2 := (hzw.hdict b.2 b.1).mpr hb
  rw [he] at h1
  rw [h1] at h2
  injection h2 with h3
  have hab2 : a = b := Prod.ext h3 he
  rw [hab2] at hab
  exact keyLt_irrefl b hab

/-- C3: in every reachable state `RangeByScore` computes exactly the
reference function written from the specification text: start at the first
chain node with score at least `min`, skip up to `offset` nodes abandoning
everything on meeting a score above `max` during the skip, then collect
while the score stays within `max`, up to `count` results (unboundedly for
negative `count`), in chain order. -/
theorem C3_RangeByScore {z : ZSet} (hz : Reachable z) (mn mx offset count : Int) :
    RangeByScore z mn mx offset count = rangeSpec (dataOf z) mn mx offset count :=
  RangeByScore_correct (reachable_ZWF hz).hsl mn mx offset count

/-- C4: in every reachable state `Rank` returns -1 for an absent member; for
a present member it returns the 0-based position in the ascending
(score, member) order when `reverse` is false, and length - rank - 1 when
`reverse` is true. -/
theorem C4_Rank_cases {z : ZSet} (hz : Reachable z) (ele : String) :
    (z.dict.lookup ele = none → ∀ rev, Rank z ele rev = -1) ∧
    (∀ score, z.dict.lookup ele = some score →
      Rank z ele false = Int.ofNat (cntLt (keysOf z.zsl) (score, ele)) ∧
      Rank z ele true = Int.ofNat (Len z - cntLt (keysOf z.zsl) (score, ele) - 1)) := by
  have hzw := reachable_ZWF hz
  constructor
  · intro h rev
    simp only [Rank, h]
  · intro score h
    have hk : (score, ele) ∈ keysOf z.zsl := (hzw.hdict ele score).mp h
    have hg := getRank_present hzw.hsl hk
    constructor
    · simp only [Rank, h, hg]
      rw [if_neg (by omega : ¬ cntLt (keysOf z.zsl) (score, ele) + 1 = 0),
        if_neg Bool.false_ne_true]
      rfl
    · simp only [Rank, h, hg]
      rw [if_neg (by omega : ¬ cntLt (keysOf z.zsl) (score, ele) + 1 = 0),
        if_pos trivial]
      simp only [Int.ofNat_eq_natCast, Len]
      omega

/-- C5: in every reachable state the level-0 chain is strictly increasing by
the composite key (score, member), and hence has no duplicate pair. -/
theorem C5_chain_sorted {z : ZSet} (hz : Reachable z) :
    List.Pairwise keyLt (keysOf z.zsl) ∧ (keysOf z.zsl).Nodup := by
  have hs := (reachable_ZWF hz).hsl.hsort
  refine ⟨hs, ?_⟩
  refine List.Pairwise.imp ?_ hs
  intro a b hab he
  rw [he] at hab
  exact keyLt_irrefl b hab

/-- C6: in every reachable state, at every level on which a node stands, the
sum of the stored spans along the forward links from the header to that node
equals the node's 1-based rank in the level-0 order. -/
theorem C6_span_rank {z : ZSet} (hz : Reachable z) :
    ∀ q, 1 ≤ q → q ≤ z.zsl.nodes.length → ∀ i, i < heightAt z.zsl.nodes q →
      spanSumTo z.zsl i q = q :=
  spanSumTo_rank (reachable_ZWF hz).hsl

/-- C7: in every reachable state the `level` field matches the header's
forward pointers: level 1 when the set is empty, and otherwise the header's
forward pointer is non-null at the level's own index and null at every index
at or above the level. -/
theorem C7_level_consistency {z : ZSet} (hz : Reachable z) :
    (z.zsl.nodes = [] → z.zsl.level = 1) ∧
    (z.zsl.nodes ≠ [] → ¬ fwdPos z.zsl.nodes (z.zsl.level - 1) 0 = none) ∧
    (∀ j, z.zsl.level ≤ j → fwdPos z.zsl.nodes j 0 = none) := by
  have hw := (reachable_ZWF hz).hsl
  refine ⟨?_, ?_, ?_⟩
  · intro hnil
    rcases hw.hwit with h | ⟨n, hn, _⟩
    · exact h
    · rw [hnil] at hn
      exact absurd hn (List.not_mem_nil n)
  · intro hne hnone
    have hno := fwdPos_none_elim hnone
    have hl1 := hw.hlvl1
    rcases hw.hwit with h1 | ⟨n, hn, hlev⟩
    · obtain ⟨n, hn⟩ := List.exists_mem_of_ne_nil z.zsl.nodes hne
      obtain ⟨r, hr1, hr2, hr3⟩ := mem_heightAt hn
      have hh1 := (hw.hhts n hn).1
      exact hno r (by omega) hr2 (by rw [hr3, h1]; omega)
    · obtain ⟨r, hr1, hr2, hr3⟩ := mem_heightAt hn
      exact hno r (by omega) hr2 (by rw [hr3]; omega)
  · intro j hj
    apply fwdPos_none_intro
    intro r h1 h2 hh
    obtain ⟨n, hn, hn3⟩ := heights_mem (by omega) h2
    have hb := (hw.hhts n hn).2
    omega

/-- C8: in every reachable state, for every present member,
`GetByRank (Rank m false) false` returns the member with its score, and
`Score` returns that score. -/
theorem C8_rank_roundtrip {z : ZSet} (hz : Reachable z) (ele : String) (score : Int)
    (h : z.dict.lookup ele = some score) :
    GetByRank z (Rank z ele false) false = (ele, score, true) ∧
    Score z ele = (score, true) := by
  have hzw := reachable_ZWF hz
  have hk : (score, ele) ∈ keysOf z.zsl := (hzw.hdict ele score).mp h
  have hg := getRank_present hzw.hsl hk
  have hm := sorted_present hzw.hsl.hsort hk
  have hmlt : cntLt (keysOf z.zsl) (score, ele) < z.zsl.nodes.length := hm.1
  have hlen := hzw.hsl.hlen
  have hrank : Rank z ele false = Int.ofNat (cntLt (keysOf z.zsl) (score, ele)) := by
    simp only [Rank, h, hg]
    rw [if_neg (by omega : ¬ cntLt (keysOf z.zsl) (score, ele) + 1 = 0),
      if_neg Bool.false_ne_true]
    rfl
  constructor
  · rw [hrank]
    simp only [GetByRank]
    rw [if_neg (by simp only [Int.ofNat_eq_natCast]; omega :
        ¬ (Int.ofNat (cntLt (keysOf z.zsl) (score, ele)) < 0
          ∨ (z.zsl.length : Int) ≤ Int.ofNat (cntLt (keysOf z.zsl) (score, ele)))),
      if_neg Bool.false_ne_true,
      show (Int.ofNat (cntLt (keysOf z.zsl) (score, ele)) + 1).toNat
        = cntLt (keysOf z.zsl) (score, ele) + 1 from rfl,
      getElementByRank_correct hzw.hsl (by omega) (by omega)]
    show ((nodeAt z.zsl (cntLt (keysOf z.zsl) (score, ele) + 1)).ele,
      (nodeAt z.zsl (cntLt (keysOf z.zsl) (score, ele) + 1)).score, true)
      = (ele, score, true)
    have hsc : (nodeAt z.zsl (cntLt (keysOf z.zsl) (score, ele) + 1)).score = score :=
      congrArg Prod.fst hm.2.1
    have hel : (nodeAt z.zsl (cntLt (keysOf z.zsl) (score, ele) + 1)).ele = ele :=
      congrArg Prod.snd hm.2.1
    rw [hsc, hel]
  · show ((z.dict.lookup ele).getD 0, (z.dict.lookup ele).isSome) = (score, true)
    rw [h]
    rfl

/-- C9 (amended): for every reachable state and member absent from the set,
`Add` of that member followed by `Remove` of it restores the length, the
direct index and the chain keys to their pre-`Add` values.  The original
claim, quantified over all members, fails for a member already present with
a different score (see the counterexample). -/
theorem C9_roundtrip_fresh {z : ZSet} (hz : Reachable z) (lvl : Nat) (h1 : 1 ≤ lvl)
    (h32 : lvl ≤ 32) (ele : String) (score : Int) (habs : z.dict.lookup ele = none) :
    Len (Remove (Add z lvl ele score).1 ele).1 = Len z ∧
    (Remove (Add z lvl ele score).1 ele).1.dict = z.dict ∧
    keysOf (Remove (Add z lvl ele score).1 ele).1.zsl = keysOf z.zsl :=
  Add_Remove_roundtrip (reachable_ZWF hz) h1 h32 score habs

/-- C9: counterexample to the claim as stated — from the reachable state
holding the single member "a" with score 1, `Add "a" 2` (present, different
score) followed by `Remove "a"` leaves the set empty, so `Len` is not
restored to its pre-`Add` value. -/
theorem C9_counterexample :
    Reachable (Add NewZSet 1 "a" 1).1 ∧
    ¬ Len (Remove (Add (Add NewZSet 1 "a" 1).1 1 "a" 2).1 "a").1
        = Len (Add NewZSet 1 "a" 1).1 :=
  ⟨Reachable.add NewZSet 1 "a" 1 Reachable.empty (by decide) (by decide), by decide⟩

/-- C10: for every operation sequence run from the empty set, the Booleans
returned by `Add` and `Remove` and the results of `Score`, `Len`, `Rank`,
`GetByRank` and `RangeByScore` on the final state are identical across any
two runs, whatever the two sequences of level draws are: observable
behaviour is independent of the random level oracle. -/
theorem C10_determinism (f g : Nat → Nat)
    (hf : ∀ k, 1 ≤ f k ∧ f k ≤ 32) (hg : ∀ k, 1 ≤ g k ∧ g k ≤ 32) (ops : List Op) :
    (runOps f ops NewZSet 0).2.2 = (runOps g ops NewZSet 0).2.2 ∧
    (∀ e, Score (runOps f ops NewZSet 0).1 e = Score (runOps g ops NewZSet 0).1 e) ∧
    Len (runOps f ops NewZSet 0).1 = Len (runOps g ops NewZSet 0).1 ∧
    (∀ e rev, Rank (runOps f ops NewZSet 0).1 e rev
      = Rank (runOps g ops NewZSet 0).1 e rev) ∧
    (∀ r rev, GetByRank (runOps f ops NewZSet 0).1 r rev
      = GetByRank (runOps g ops NewZSet 0).1 r rev) ∧
    (∀ mn mx offset count, RangeByScore (runOps f ops NewZSet 0).1 mn mx offset count
      = RangeByScore (runOps g ops NewZSet 0).1 mn mx offset count) := by
  obtain ⟨hb, hz1, hz2, hd, hk⟩ := runOps_congr f g hf hg ops NewZSet NewZSet 0
    NewZSet_ZWF NewZSet_ZWF rfl rfl
  refine ⟨hb, ?_, ?_, ?_, ?_, ?_⟩
  · intro e
    unfold Score
    rw [hd]
  · exact zsl_length_congr hz1 hz2 hk
  · intro e rev
    exact Rank_congr hz1 hz2 hd hk e rev
  · intro r rev
    exact GetByRank_congr hz1 hz2 hd hk r rev
  · intro mn mx offset count
    exact RangeByScore_congr hz1 hz2 hk mn mx offset count

/-! ### Concrete reachable states for the witnesses -/

theorem reach1 : Reachable (Add NewZSet 1 "a" 1).1 :=
  Reachable.add NewZSet 1 "a" 1 Reachable.empty (by decide) (by decide)

theorem reach2 : Reachable (Add (Add NewZSet 1 "a" 1).1 2 "b" 3).1 :=
  Reachable.add (Add NewZSet 1 "a" 1).1 2 "b" 3 reach1 (by decide) (by decide)

theorem reach3 : Reachable (Add (Add (Add NewZSet 1 "a" 1).1 2 "b" 3).1 1 "c" 5).1 :=
  Reachable.add (Add (Add NewZSet 1 "a" 1).1 2 "b" 3).1 1 "c" 5 reach2
    (by decide) (by decide)

theorem C1_witness :
    (NewZSet.dict.lookup "a" = none →
      (Add NewZSet 1 "a" 2).2 = true ∧
      (∀ k : Int × String, k ∈ keysOf (Add NewZSet 1 "a" 2).1.zsl
        ↔ (k = (2, "a") ∨ k ∈ keysOf NewZSet.zsl)) ∧
      (Add NewZSet 1 "a" 2).1.dict.lookup "a" = some 2 ∧
      (∀ e2, e2 ≠ "a" → (Add NewZSet 1 "a" 2).1.dict.lookup e2 = NewZSet.dict.lookup e2)) ∧
    (NewZSet.dict.lookup "a" = some 2 → Add NewZSet 1 "a" 2 = (NewZSet, false)) ∧
    (∀ old, NewZSet.dict.lookup "a" = some old → old ≠ 2 →
      (Add NewZSet 1 "a" 2).2 = false ∧
      (∀ k : Int × String, k ∈ keysOf (Add NewZSet 1 "a" 2).1.zsl
        ↔ (k = (2, "a") ∨ (k ∈ keysOf NewZSet.zsl ∧ k.2 ≠ "a"))) ∧
      (Add NewZSet 1 "a" 2).1.dict.lookup "a" = some 2 ∧
      (∀ e2, e2 ≠ "a" → (Add NewZSet 1 "a" 2).1.dict.lookup e2 = NewZSet.dict.lookup e2)) :=
  C1_Add_cases Reachable.empty 1 (by decide) (by decide) "a" 2

theorem C2_witness :
    List.Pairwise (fun a b : Int × String => a.2 ≠ b.2)
      (keysOf (Add NewZSet 1 "a" 1).1.zsl) ∧
    (∀ e s, (Add NewZSet 1 "a" 1).1.dict.lookup e = some s
      ↔ (s, e) ∈ keysOf (Add NewZSet 1 "a" 1).1.zsl) :=
  C2_index_agreement reach1

theorem C3_witness :
    RangeByScore (Add (Add (Add NewZSet 1 "a" 1).1 2 "b" 3).1 1 "c" 5).1 1 4 1 10
      = rangeSpec (dataOf (Add (Add (Add NewZSet 1 "a" 1).1 2 "b" 3).1 1 "c" 5).1)
          1 4 1 10 :=
  C3_RangeByScore reach3 1 4 1 10

theorem C4_witness :
    ((Add NewZSet 1 "a" 1).1.dict.lookup "a" = none →
      ∀ rev, Rank (Add NewZSet 1 "a" 1).1 "a" rev = -1) ∧
    (∀ score, (Add NewZSet 1 "a" 1).1.dict.lookup "a" = some score →
      Rank (Add NewZSet 1 "a" 1).1 "a" false
        = Int.ofNat (cntLt (keysOf (Add NewZSet 1 "a" 1).1.zsl) (score, "a")) ∧
      Rank (Add NewZSet 1 "a" 1).1 "a" true
        = Int.ofNat (Len (Add NewZSet 1 "a" 1).1
            - cntLt (keysOf (Add NewZSet 1 "a" 1).1.zsl) (score, "a") - 1)) :=
  C4_Rank_cases reach1 "a"

theorem C5_witness :
    List.Pairwise keyLt (keysOf (Add (Add NewZSet 1 "a" 1).1 2 "b" 3).1.zsl) ∧
    (keysOf (Add (Add NewZSet 1 "a" 1).1 2 "b" 3).1.zsl).Nodup :=
  C5_chain_sorted reach2

theorem C6_witness :
    spanSumTo (Add (Add NewZSet 1 "a" 1).1 2 "b" 3).1.zsl 0 1 = 1 :=
  C6_span_rank reach2 1 (by decide) (by decide) 0 (by decide)

theorem C7_witness :
    ((Add NewZSet 1 "a" 1).1.zsl.nodes = [] → (Add NewZSet 1 "a" 1).1.zsl.level = 1) ∧
    ((Add NewZSet 1 "a" 1).1.zsl.nodes ≠ [] →
      ¬ fwdPos (Add NewZSet 1 "a" 1).1.zsl.nodes
          ((Add NewZSet 1 "a" 1).1.zsl.level - 1) 0 = none) ∧
    (∀ j, (Add NewZSet 1 "a" 1).1.zsl.level ≤ j →
      fwdPos (Add NewZSet 1 "a" 1).1.zsl.nodes j 0 = none) :=
  C7_level_consistency reach1

theorem C8_witness :
    GetByRank (Add NewZSet 1 "a" 1).1 (Rank (Add NewZSet 1 "a" 1).1 "a" false) false
      = ("a", 1, true) ∧
    Score (Add NewZSet 1 "a" 1).1 "a" = (1, true) :=
  C8_rank_roundtrip reach1 "a" 1 (by decide)

theorem C9_witness :
    Len (Remove (Add NewZSet 2 "b" 7).1 "b").1 = Len NewZSet ∧
    (Remove (Add NewZSet 2 "b" 7).1 "b").1.dict = NewZSet.dict ∧
    keysOf (Remove (Add NewZSet 2 "b" 7).1 "b").1.zsl = keysOf NewZSet.zsl :=
  C9_roundtrip_fresh Reachable.empty 2 (by decide) (by decide) "b" 7 (by decide)

theorem C10_witness :
    (runOps (fun _ => 1) [Op.add "a" 1, Op.add "b" 2, Op.remove "a"] NewZSet 0).2.2
      = (runOps (fun _ => 2) [Op.add "a" 1, Op.add "b" 2, Op.remove "a"] NewZSet 0).2.2 ∧
    (∀ e, Score (runOps (fun _ => 1) [Op.add "a" 1, Op.add "b" 2, Op.remove "a"]
          NewZSet 0).1 e
      = Score (runOps (fun _ => 2) [Op.add "a" 1, Op.add "b" 2, Op.remove "a"]
          NewZSet 0).1 e) ∧
    Len (runOps (fun _ => 1) [Op.add "a" 1, Op.add "b" 2, Op.remove "a"] NewZSet 0).1
      = Len (runOps (fun _ => 2) [Op.add "a" 1, Op.add "b" 2, Op.remove "a"] NewZSet 0).1 ∧
    (∀ e rev, Rank (runOps (fun _ => 1) [Op.add "a" 1, Op.add "b" 2, Op.remove "a"]
          NewZSet 0).1 e rev
      = Rank (runOps (fun _ => 2) [Op.add "a" 1, Op.add "b" 2, Op.remove "a"]
          NewZSet 0).1 e rev) ∧
    (∀ r rev, GetByRank (runOps (fun _ => 1) [Op.add "a" 1, Op.add "b" 2, Op.remove "a"]
          NewZSet 0).1 r rev
      = GetByRank (runOps (fun _ => 2) [Op.add "a" 1, Op.add "b" 2, Op.remove "a"]
          NewZSet 0).1 r rev) ∧
    (∀ mn mx offset count,
      RangeByScore (runOps (fun _ => 1) [Op.add "a" 1, Op.add "b" 2, Op.remove "a"]
          NewZSet 0).1 mn mx offset count
      = RangeByScore (runOps (fun _ => 2) [Op.add "a" 1, Op.add "b" 2, Op.remove "a"]
          NewZSet 0).1 mn mx offset count) :=
  C10_determinism (fun _ => 1) (fun _ => 2)
    (fun k => show 1 ≤ 1 ∧ 1 ≤ 32 by decide)
    (fun k => show 1 ≤ 2 ∧ 2 ≤ 32 by decide)
    [Op.add "a" 1, Op.add "b" 2, Op.remove "a"]

end ZS
